import Mathlib

/-!
# Fastbuild generator: dependency ordering, command identity and resolution passes

A shallow embedding of the graph-lowering core of the Fastbuild generator
(`cmGlobalFastbuildGenerator` and `cmFastbuildTargetGenerator`).

Conventions of the embedding:

* `std::vector<T>` is `List T`; `std::set<std::string>` is a `List String`
  used through membership only; `std::unordered_multimap<K, V>` is the list
  of its `(key, value)` entries (the code only uses `find`, `equal_range`,
  `emplace` and `erase` on it, none of which depends on the bucket order);
* `std::map<std::string, FastbuildTarget> FastbuildTargets` is the list of its
  values in key order; every entry is stored under its own `Name`;
* a `while` loop is a function with a fuel argument counting its iterations,
  returning `none` when the fuel runs out before the loop exits;
* collaborators outside the repository (the SHA-256 digest, the path
  converter, the location of the cmake executable) are parameters.
-/

namespace Fastbuild

/-! ## Data model (cmGlobalFastbuildGenerator.h) -/

/-- The struct `FastbuildObjectListNode`: one compile batch. -/
structure FastbuildObjectListNode where
  Name : String := ""
  Compiler : String := ""
  CompilerOptions : String := ""
  CompilerOutputPath : String := ""
  CompilerOutputExtension : String := ""
  PCHInputFile : String := ""
  PCHOutputFile : String := ""
  PCHOptions : String := ""
  CompilerInputFiles : List String := []
  PreBuildDependencies : List String := []
  ObjectDependencies : List String := []
  ObjectOutputs : List String := []
deriving DecidableEq, Repr

/-- The struct `FastbuildVCXProject`. -/
structure FastbuildVCXProject where
  Name : String := ""
  Folder : String := ""
  UserProps : String := ""
  LocalDebuggerCommand : String := ""
  LocalDebuggerCommandArguments : String := ""
  ProjectOutput : String := ""
  ProjectFiles : List (String × List String) := []
  Platform : String := ""
  Config : String := ""
  Target : String := ""
  ProjectBuildCommand : String := ""
  ProjectRebuildCommand : String := ""
deriving DecidableEq, Repr

/-- The anonymous enum of `FastbuildLinkerNode::Type`. -/
inductive LinkerNodeType where
  | EXECUTABLE
  | SHARED_LIBRARY
  | STATIC_LIBRARY
deriving DecidableEq, Repr

/-- The struct `FastbuildLinkerNode`: one link or archive step (`NodeType` is
the member `Type`). -/
structure FastbuildLinkerNode where
  NodeType : LinkerNodeType := LinkerNodeType.EXECUTABLE
  Name : String := ""
  Compiler : String := ""
  CompilerOptions : String := ""
  Linker : String := ""
  LinkerType : String := ""
  LinkerOutput : String := ""
  LinkerOptions : String := ""
  Libraries : List String := []
deriving DecidableEq, Repr

/-- The struct `FastbuildExecNode`: one command step. -/
structure FastbuildExecNode where
  Name : String := ""
  ExecExecutable : String := ""
  ExecArguments : String := ""
  ExecWorkingDir : String := ""
  ExecUseStdOutAsOutput : Bool := false
  ExecOutput : String := ""
  ExecInput : List String := []
  PreBuildDependencies : List String := []
  ExecAlways : Bool := false
  IsNoop : Bool := false
deriving DecidableEq, Repr

/-- The struct `FastbuildAliasNode`. -/
structure FastbuildAliasNode where
  Name : String := ""
  Targets : List String := []
deriving DecidableEq, Repr

/-- The struct `FastbuildTarget`: one build unit. -/
structure FastbuildTarget where
  Name : String := ""
  Variables : List (String × String) := []
  ObjectListNodes : List FastbuildObjectListNode := []
  LinkerNodes : List FastbuildLinkerNode := []
  VCXProjects : List FastbuildVCXProject := []
  PreBuildExecNodes : List FastbuildExecNode := []
  PreLinkExecNodes : List FastbuildExecNode := []
  PostBuildExecNodes : List FastbuildExecNode := []
  ExecNodes : List FastbuildExecNode := []
  AliasNodes : List FastbuildAliasNode := []
  Dependencies : List String := []
  IsGlobal : Bool := false
  IsExcluded : Bool := false
deriving DecidableEq, Repr

/-! ## The scan pass shared by both sorters

The body of the `for (auto it = ...begin(); it != ...end();)` loop is the
same text in `SortByDependencies` (cmGlobalFastbuildGenerator.h, 171-193) and
in the target-ordering loop of `WriteTargets`
(cmGlobalFastbuildGenerator.cxx, 1055-1077). -/

section Sorter

variable {α : Type} [DecidableEq α]

/-- The test `m.find(k) != m.end()` on a multimap. -/
def hasKey (m : List (α × α)) (k : α) : Bool :=
  m.any (fun e => e.1 == k)

/-- The entries of `m.equal_range(k)`. -/
def equalRange (m : List (α × α)) (k : α) : List (α × α) :=
  m.filter (fun e => e.1 == k)

/-- The innermost loop: walk `forwardDependencies.equal_range(dependent)` and
erase every entry whose value is `targetName`. -/
def eraseFromRange (forwardDependencies : List (α × α)) (dependent targetName : α) :
    List (α × α) :=
  forwardDependencies.filter (fun e => !(e.1 == dependent && e.2 == targetName))

/-- The loop over `reverseDependencies.equal_range(targetName)`: for every
dependent recorded for `targetName`, erase its forward entries pointing at
`targetName`. -/
def eraseDependents (reverseDependencies forwardDependencies : List (α × α))
    (targetName : α) : List (α × α) :=
  (equalRange reverseDependencies targetName).foldl
    (fun fwd rt => eraseFromRange fwd rt.2 targetName) forwardDependencies

/-- State of one scan: the items still in the list, the forward map and the
output built so far. -/
structure ScanState (α : Type) where
  targets : List α
  forwardDependencies : List (α × α)
  output : List α
deriving DecidableEq, Repr

/-- One full scan of the remaining list. An item with no entry in the forward
map is appended to the output and erased from the list, and the forward
entries pointing at it are erased at once, so an item later in the same scan
can already be ready. -/
def scanPass (reverseDependencies : List (α × α)) :
    List α → List (α × α) → List α → ScanState α
  | [], fwd, out => { targets := [], forwardDependencies := fwd, output := out }
  | targetName :: rest, fwd, out =>
    if hasKey fwd targetName then
      let s := scanPass reverseDependencies rest fwd out
      { s with targets := targetName :: s.targets }
    else
      scanPass reverseDependencies rest
        (eraseDependents reverseDependencies fwd targetName) (out ++ [targetName])

/-! ## SortByDependencies (cmGlobalFastbuildGenerator.h, 155-197) -/

/-- The reverse map built at the top of `SortByDependencies`: for every
entry `it`, every entry of `equal_range(it->first)` is emplaced mirrored. -/
def reverseOf (dependencies : List (α × α)) : List (α × α) :=
  dependencies.flatMap (fun it =>
    (equalRange dependencies it.1).map (fun jt => (jt.2, jt.1)))

/-- The loop `while (!source.empty())` of `SortByDependencies`; it has no
progress check. -/
def sortLoop (reverseDependencies : List (α × α)) :
    Nat → List α → List (α × α) → List α → Option (List α)
  | _, [], _, out => some out
  | 0, _ :: _, _, _ => none
  | fuel + 1, t :: ts, fwd, out =>
    let s := scanPass reverseDependencies (t :: ts) fwd out
    sortLoop reverseDependencies fuel s.targets s.forwardDependencies s.output

/-- The function `SortByDependencies(source, dependencies)`: the value left in
`source` by `std::swap(output, source)`, or `none` when the loop has not
exited after `fuel` iterations. -/
def SortByDependencies (fuel : Nat) (source : List α) (dependencies : List (α × α)) :
    Option (List α) :=
  sortLoop (reverseOf dependencies) fuel source dependencies []

/-! ## The target-ordering loop of WriteTargets (cmGlobalFastbuildGenerator.cxx, 1037-1085) -/

/-- The loop `while (!targets.empty())` of `WriteTargets`: a scan that erases
nothing flushes the remaining items to the output and clears the list. -/
def orderLoop (reverseDependencies : List (α × α)) :
    Nat → List α → List (α × α) → List α → Option (List α)
  | _, [], _, out => some out
  | 0, _ :: _, _, _ => none
  | fuel + 1, t :: ts, fwd, out =>
    let s := scanPass reverseDependencies (t :: ts) fwd out
    if (t :: ts).length = s.targets.length then
      orderLoop reverseDependencies fuel [] s.forwardDependencies (s.output ++ s.targets)
    else
      orderLoop reverseDependencies fuel s.targets s.forwardDependencies s.output

end Sorter

/-- The vector `targets` filled by the loop over `FastbuildTargets`. -/
def targetNames (FastbuildTargets : List FastbuildTarget) : List String :=
  FastbuildTargets.map (fun Target => Target.Name)

/-- The multimap `forwardDependencies` filled by the loop over `FastbuildTargets`. -/
def forwardDependenciesOf (FastbuildTargets : List FastbuildTarget) :
    List (String × String) :=
  FastbuildTargets.flatMap (fun Target =>
    Target.Dependencies.map (fun Dependency => (Target.Name, Dependency)))

/-- The multimap `reverseDependencies` filled by the loop over `FastbuildTargets`. -/
def reverseDependenciesOf (FastbuildTargets : List FastbuildTarget) :
    List (String × String) :=
  FastbuildTargets.flatMap (fun Target =>
    Target.Dependencies.map (fun Dependency => (Dependency, Target.Name)))

/-- The vector `orderedTargets` computed by `WriteTargets`, or `none` when the
loop has not exited after `fuel` iterations. -/
def orderedTargets (fuel : Nat) (FastbuildTargets : List FastbuildTarget) :
    Option (List String) :=
  orderLoop (reverseDependenciesOf FastbuildTargets) fuel
    (targetNames FastbuildTargets) (forwardDependenciesOf FastbuildTargets) []

/-! ## External collaborators -/

/-- Modelled from the spec: the collaborators that `src/` only calls.
`HashString` is `cmCryptoHash(cmCryptoHash::AlgoSHA256).HashString` (the
spec's `Hasher.digest`), `ConvertToFastbuildPath` is
`cmGlobalFastbuildGenerator::ConvertToFastbuildPath`, which forwards to
`MaybeConvertToRelativePath` of the root local generator (the spec's
`PathTools.normalize`), and `GetCMakeCommand` is
`cmSystemTools::GetCMakeCommand()`. -/
structure Collaborators where
  HashString : String → String
  ConvertToFastbuildPath : String → String
  GetCMakeCommand : String

/-- Modelled from the spec: the class `cmCustomCommand` is declared outside
`src/`; this is the resolved data of a declared custom command that the
generator reads through `GetOutputs`, `GetByproducts`, `GetDepends`,
`GetCommandLines` and `GetWorkingDirectory`. -/
structure cmCustomCommand where
  Outputs : List String := []
  Byproducts : List String := []
  Depends : List String := []
  CommandLines : List (List String) := []
  WorkingDirectory : String := ""
deriving DecidableEq, Repr

/-- The call `s.substr(0, 7)` on a digest: its first seven characters (a
digest is made of ASCII hex digits, one byte each). -/
def substr7 (s : String) : String :=
  String.mk (s.data.take 7)

/-! ## GetCustomCommandTargetName (cmFastbuildTargetGenerator.cxx, 138-166) -/

/-- The string `extras` after the loop over `mergedOutputs`: the
disambiguator followed by `"-" + ConvertToFastbuildPath(output)` for every
output and then every byproduct. -/
def customCommandExtras (env : Collaborators) (cc : cmCustomCommand) (extra : String) :
    String :=
  (cc.Outputs ++ cc.Byproducts).foldl
    (fun extras output => extras ++ ("-" ++ env.ConvertToFastbuildPath output)) extra

/-- The function `GetCustomCommandTargetName(cc, extra)`. -/
def GetCustomCommandTargetName (env : Collaborators) (cc : cmCustomCommand)
    (extra : String) : String :=
  "cc" ++ ("-" ++ substr7 (env.HashString (customCommandExtras env cc extra)))

/-! ## Object-dependency resolution of WriteTargets (cmGlobalFastbuildGenerator.cxx, 997-1035) -/

/-- The map `objectOutputs` after the first loop, as its `find` function:
every `objectOutputs[output] = Target.Name` overrides what was stored under
`output` before. -/
def objectOutputsOf (FastbuildTargets : List FastbuildTarget) : String → Option String :=
  FastbuildTargets.foldl (fun m Target =>
    Target.ObjectListNodes.foldl (fun m node =>
      node.ObjectOutputs.foldl (fun m output =>
        fun key => if key = output then some Target.Name else m key) m) m)
    (fun _ => none)

/-- The loop over `node.ObjectDependencies`: a path found in `objectOutputs`
is erased and its owner is pushed on `Target.Dependencies`; the result is the
owners pushed, in order, and the paths left, in order. -/
def resolveObjectDependencies (objectOutputs : String → Option String) :
    List String → List String × List String
  | [] => ([], [])
  | dependency :: rest =>
    let r := resolveObjectDependencies objectOutputs rest
    match objectOutputs dependency with
    | some owner => (owner :: r.1, r.2)
    | none => (r.1, dependency :: r.2)

/-- The exec node pushed for one `inputFile` of a batch that keeps
unresolved object dependencies. -/
def objectDependenciesExecNode (env : Collaborators) (nodeName : String)
    (ObjectDependencies : List String) (inputFile : String) : FastbuildExecNode :=
  let Name := "object-dependencies-" ++ substr7 (env.HashString (inputFile ++ nodeName))
  { Name := Name
    ExecExecutable := env.GetCMakeCommand
    ExecArguments := "-E touch " ++ inputFile
    ExecInput := ObjectDependencies
    ExecOutput := "dummy-" ++ Name ++ ".txt"
    ExecUseStdOutAsOutput := true }

/-- What the body of the loop over `Target.ObjectListNodes` does with one
batch. -/
structure ResolvedNode where
  node : FastbuildObjectListNode
  pushedDependencies : List String
  pushedExecNodes : List FastbuildExecNode

/-- The body of the loop over `Target.ObjectListNodes` for one batch. -/
def resolveNode (env : Collaborators) (objectOutputs : String → Option String)
    (node : FastbuildObjectListNode) : ResolvedNode :=
  let r := resolveObjectDependencies objectOutputs node.ObjectDependencies
  { node := { node with ObjectDependencies := r.2 }
    pushedDependencies := r.1
    pushedExecNodes :=
      if r.2.isEmpty then []
      else node.CompilerInputFiles.map (objectDependenciesExecNode env node.Name r.2) }

/-- The body of the loop `for (auto& [_, Target] : FastbuildTargets)`. -/
def resolveTarget (env : Collaborators) (objectOutputs : String → Option String)
    (Target : FastbuildTarget) : FastbuildTarget :=
  let rs := Target.ObjectListNodes.map (resolveNode env objectOutputs)
  { Target with
    ObjectListNodes := rs.map (fun r => r.node)
    Dependencies := Target.Dependencies ++ rs.flatMap (fun r => r.pushedDependencies)
    ExecNodes := Target.ExecNodes ++ rs.flatMap (fun r => r.pushedExecNodes) }

/-- The table after the pass "Add Object dependecies as target dependencies". -/
def addObjectDependencies (env : Collaborators) (FastbuildTargets : List FastbuildTarget) :
    List FastbuildTarget :=
  FastbuildTargets.map (resolveTarget env (objectOutputsOf FastbuildTargets))

/-- The unit declares `path` as an `ObjectOutputs` entry of one of its
compile batches. -/
def declaresObjectOutput (Target : FastbuildTarget) (path : String) : Bool :=
  Target.ObjectListNodes.any (fun node => decide (path ∈ node.ObjectOutputs))

/-! ## Custom-command de-duplication of WriteTargets (cmGlobalFastbuildGenerator.cxx, 1105-1115) -/

/-- The loop over `Target.ExecNodes`: a node whose name is already in
`allCustomCommands` is erased, any other name is inserted and the node is
kept. The result is the set afterwards and the nodes kept. -/
def dedupExecNodes : List String → List FastbuildExecNode →
    List String × List FastbuildExecNode
  | allCustomCommands, [] => (allCustomCommands, [])
  | allCustomCommands, node :: rest =>
    if node.Name ∈ allCustomCommands then
      dedupExecNodes allCustomCommands rest
    else
      let r := dedupExecNodes (node.Name :: allCustomCommands) rest
      (r.1, node :: r.2)

/-- The de-duplication over the units in emission order (the unit
`FastbuildTargets[targetName]` for each `targetName` of `orderedTargets`),
with the set `allCustomCommands` carried from one unit to the next. -/
def dedupCustomCommands : List String → List FastbuildTarget → List FastbuildTarget
  | _, [] => []
  | allCustomCommands, Target :: rest =>
    let r := dedupExecNodes allCustomCommands Target.ExecNodes
    { Target with ExecNodes := r.2 } :: dedupCustomCommands r.1 rest

/-- The command steps of the units' `ExecNodes` lists in emission order: unit
order, then list order. -/
def emittedExecNodes (units : List FastbuildTarget) : List FastbuildExecNode :=
  units.flatMap (fun Target => Target.ExecNodes)

/-- The claim's words "for each name only its first occurrence is kept, every
later occurrence is removed": keep the head and remove every later step with
the head's name. -/
def firstOccurrenceByName : List FastbuildExecNode → List FastbuildExecNode
  | [] => []
  | node :: rest => node :: (firstOccurrenceByName rest).filter (fun m => m.Name ≠ node.Name)

/-! ## Ordered sets of strings (`std::set<std::string>`) -/

/-- The call `s.insert(x)` on a `std::set<std::string>` kept as the list of
its elements in increasing order (strings compare character by character). -/
def setInsert (x : String) : List String → List String
  | [] => [x]
  | y :: ys =>
    if x.data < y.data then x :: y :: ys
    else if x = y then y :: ys
    else y :: setInsert x ys

/-- The call `s.insert(t.begin(), t.end())`. -/
def setInsertAll (s t : List String) : List String :=
  t.foldl (fun acc x => setInsert x acc) s

/-- The call `s.erase(x)` on a `std::set<std::string>`. -/
def setErase (x : String) (s : List String) : List String :=
  s.filter (fun y => y ≠ x)

/-! ## PCH reuse pass of WriteTargets (cmGlobalFastbuildGenerator.cxx, 1087-1100) -/

/-- The loop over `Target.ObjectListNodes`: a batch whose `PCHOutputFile` is
already in the set `pch` gets `PCHInputFile` and `PCHOptions` cleared, any
other batch has its `PCHOutputFile` inserted. The result is the set
afterwards and the batches. -/
def reusePCHNodes : List String → List FastbuildObjectListNode →
    List String × List FastbuildObjectListNode
  | pch, [] => (pch, [])
  | pch, objNode :: rest =>
    if objNode.PCHOutputFile ∈ pch then
      let r := reusePCHNodes pch rest
      (r.1, { objNode with PCHInputFile := "", PCHOptions := "" } :: r.2)
    else
      let r := reusePCHNodes (objNode.PCHOutputFile :: pch) rest
      (r.1, objNode :: r.2)

/-- The PCH reuse pass over the units in emission order (the unit
`FastbuildTargets[targetName]` for each `targetName` of `orderedTargets`),
with the set `pch` carried from one unit to the next. -/
def reusePrecompiledHeaders : List String → List FastbuildTarget → List FastbuildTarget
  | _, [] => []
  | pch, Target :: rest =>
    let r := reusePCHNodes pch Target.ObjectListNodes
    { Target with ObjectListNodes := r.2 } :: reusePrecompiledHeaders r.1 rest

/-- The compile batches of the units in the linear order: unit order, then
batch order inside the unit. -/
def orderedBatches (units : List FastbuildTarget) : List FastbuildObjectListNode :=
  units.flatMap (fun Target => Target.ObjectListNodes)

/-- A batch with `PCHInputFile` and `PCHOptions` cleared. -/
def clearPCHCreation (objNode : FastbuildObjectListNode) : FastbuildObjectListNode :=
  { objNode with PCHInputFile := "", PCHOptions := "" }

/-! ## AddTarget (cmGlobalFastbuildGenerator.cxx, 446-452) -/

/-- The insertion of a new key into the table kept in key order (strings
compare character by character). -/
def insertByKey (target : FastbuildTarget) : List FastbuildTarget → List FastbuildTarget
  | [] => [target]
  | T :: rest =>
    if target.Name.data < T.Name.data then target :: T :: rest
    else T :: insertByKey target rest

/-- The assignment `FastbuildTargets[target.Name] = target`: the value stored
under that key is overwritten, or the unit is inserted under its name. -/
def assignTarget (target : FastbuildTarget) (FastbuildTargets : List FastbuildTarget) :
    List FastbuildTarget :=
  if FastbuildTargets.any (fun T => T.Name == target.Name) then
    FastbuildTargets.map (fun T => if T.Name == target.Name then target else T)
  else insertByKey target FastbuildTargets

/-- The generator state that `AddTarget` touches: the messages passed to
`cmSystemTools::Error` so far, and the table. -/
structure GeneratorState where
  Errors : List String := []
  FastbuildTargets : List FastbuildTarget := []
deriving DecidableEq, Repr

/-- The function `AddTarget(target)`: a name found in the table is reported
through `cmSystemTools::Error`, which returns to the caller, and the
assignment is executed in both cases. -/
def AddTarget (state : GeneratorState) (target : FastbuildTarget) : GeneratorState :=
  let Errors :=
    if state.FastbuildTargets.any (fun T => T.Name == target.Name) then
      state.Errors ++ ["Duplicated target " ++ target.Name]
    else state.Errors
  { Errors := Errors, FastbuildTargets := assignTarget target state.FastbuildTargets }

/-! ## Emission: WriteExecs, WriteObjectLists, WriteLinker, WriteAlias
(cmGlobalFastbuildGenerator.cxx, 648-864)

The text written to the build file stream is kept as the list of the blocks
written, each with the values its lines are printed from. -/

/-- One block written to `BuildFileStream`. -/
inductive Statement where
  | TargetDefinition (targetName : String)
  | Variable (key value : String)
  | Alias (name : String) (targets : List String)
  | Exec (Exec : FastbuildExecNode) (execInput : List String)
  | ObjectList (ObjectList : FastbuildObjectListNode) (PreBuildDependencies : List String)
  | Linker (LinkerNode : FastbuildLinkerNode) (PreBuildDependencies : List String)
  | EndTarget
deriving DecidableEq, Repr

/-- The function `WriteAlias(alias, targets)`, with `name` for its first
argument: nothing is written for an empty `targets`. -/
def WriteAlias (name : String) (targets : List String) : List Statement :=
  if targets.isEmpty then [] else [Statement.Alias name targets]

/-- The vector `execInput` of `WriteExecs`: `Exec.ExecInput` followed by every
forwarded dependency not yet in it. -/
def execInputOf (Exec : FastbuildExecNode) (dependencies : List String) : List String :=
  dependencies.foldl
    (fun execInput dep => if dep ∈ execInput then execInput else execInput ++ [dep])
    Exec.ExecInput

/-- The set `preBuildDependencies` of the `IsNoop` branch of `WriteExecs`. -/
def noopDependencies (Exec : FastbuildExecNode) (dependencies : List String) : List String :=
  setInsertAll Exec.PreBuildDependencies dependencies

/-- The blocks written by the body of the loop of `WriteExecs` for one node. -/
def writeExecStatements (Exec : FastbuildExecNode) (dependencies : List String) :
    List Statement :=
  if Exec.IsNoop then WriteAlias Exec.Name (noopDependencies Exec dependencies)
  else [Statement.Exec Exec (execInputOf Exec dependencies)]

/-- The `assert(!preBuildDependencies.empty() && ...)` of the `IsNoop` branch:
the name of the node when the asserted condition is false. -/
def writeExecFailedAssert (Exec : FastbuildExecNode) (dependencies : List String) :
    List String :=
  if Exec.IsNoop && (noopDependencies Exec dependencies).isEmpty then [Exec.Name] else []

/-- What a call of `WriteExecs` does: the blocks written, the nodes whose
`assert` does not hold (with assertions compiled in, the run stops at the
first of them; otherwise it goes on as modelled), and the set returned. -/
structure WriteExecsResult where
  statements : List Statement
  failedAsserts : List String
  output : List String
deriving DecidableEq, Repr

/-- The function `WriteExecs(Execs, dependencies)`. -/
def WriteExecs (Execs : List FastbuildExecNode) (dependencies : List String) :
    WriteExecsResult :=
  let output := Execs.foldl (fun out Exec => setInsert Exec.Name out) []
  { statements := Execs.flatMap (fun Exec => writeExecStatements Exec dependencies)
    failedAsserts := Execs.flatMap (fun Exec => writeExecFailedAssert Exec dependencies)
    output := if output.isEmpty then dependencies else output }

/-- The function `WriteObjectLists(ObjectLists, dependencies)`: the blocks
written and the set returned. -/
def WriteObjectLists (ObjectLists : List FastbuildObjectListNode)
    (dependencies : List String) : List Statement × List String :=
  (ObjectLists.map (fun ObjectList =>
      Statement.ObjectList ObjectList
        (setInsertAll dependencies ObjectList.PreBuildDependencies)),
    ObjectLists.foldl (fun out ObjectList => setInsert ObjectList.Name out) [])

/-- The function `WriteLinker(LinkerNodes, dependencies)`: the blocks written
and the set returned. -/
def WriteLinker (LinkerNodes : List FastbuildLinkerNode) (dependencies : List String) :
    List Statement × List String :=
  (LinkerNodes.map (fun LinkerNode =>
      Statement.Linker LinkerNode
        (LinkerNode.Libraries.foldl (fun deps library => setErase library deps) dependencies)),
    LinkerNodes.foldl (fun out LinkerNode => setInsert LinkerNode.Name out) [])

/-! ## The emission loop of WriteTargets (cmGlobalFastbuildGenerator.cxx, 1105-1174)

The branch without `_WIN32` is the one embedded. -/

/-- The loop `for (const auto& dep : Target.Dependencies)` at 1141-1146:
`FastbuildTargets.at(dep)` throws `std::out_of_range` for a name that is not a
key of the table. -/
def insertTargetDependencies (FastbuildTargets : List FastbuildTarget) :
    List String → List String → Except String (List String)
  | [], dependencies => Except.ok dependencies
  | dep :: rest, dependencies =>
    match FastbuildTargets.find? (fun T => T.Name == dep) with
    | none => Except.error "std::out_of_range"
    | some T =>
      insertTargetDependencies FastbuildTargets rest
        (setInsert (if !T.IsGlobal then dep ++ "-products" else dep) dependencies)

/-- What the emission has done when it stops: the blocks written, the nodes
whose `assert` does not hold, and the exception that ended it, if any. -/
structure EmitResult where
  statements : List Statement
  failedAsserts : List String
  exception : Option String
deriving DecidableEq, Repr

/-- The end of the block of one unit, from the loop over `AliasNodes` on. -/
def writeTargetAliases (Target : FastbuildTarget)
    (targetNodes objectLists linked products : List String) : List Statement :=
  let targetNodes := Target.AliasNodes.foldl (fun s it => setInsert it.Name s) targetNodes
  Target.AliasNodes.flatMap (fun it => WriteAlias it.Name it.Targets) ++
    (if !Target.IsGlobal then
      (if Target.Name ∈ targetNodes then [] else WriteAlias Target.Name products) ++
        (let erased := linked.foldl (fun s link => setErase link s)
            (objectLists.foldl (fun s object => setErase object s) products)
         WriteAlias (Target.Name ++ "-products")
          (if erased.isEmpty then setInsert Target.Name erased else erased))
    else if Target.AliasNodes.isEmpty then
      (if Target.Name ∈ products then [] else WriteAlias Target.Name products)
    else [])

/-- The block of one unit: the body of the emission loop after the
de-duplication of `Target.ExecNodes`. -/
def writeTargetBlock (FastbuildTargets : List FastbuildTarget) (Target : FastbuildTarget) :
    EmitResult :=
  let header := Statement.TargetDefinition Target.Name ::
    Target.Variables.map (fun kv => Statement.Variable kv.1 kv.2)
  let preBuild := WriteExecs Target.PreBuildExecNodes []
  let execs := WriteExecs Target.ExecNodes preBuild.output
  let objectLists := WriteObjectLists Target.ObjectListNodes execs.output
  let preLink := WriteExecs Target.PreLinkExecNodes
    (if objectLists.2.isEmpty then execs.output else objectLists.2)
  let targetNodes := setInsertAll (setInsertAll (setInsertAll (setInsertAll []
    preBuild.output) execs.output) objectLists.2) preLink.output
  let written := header ++ preBuild.statements ++ execs.statements ++ objectLists.1 ++
    preLink.statements
  let asserts := preBuild.failedAsserts ++ execs.failedAsserts ++ preLink.failedAsserts
  match insertTargetDependencies FastbuildTargets Target.Dependencies preLink.output with
  | Except.error e => { statements := written, failedAsserts := asserts, exception := some e }
  | Except.ok dependencies =>
    let linked := WriteLinker Target.LinkerNodes dependencies
    let postBuild := WriteExecs Target.PostBuildExecNodes
      (if linked.2.isEmpty then dependencies else linked.2)
    let targetNodes := setInsertAll (setInsertAll targetNodes linked.2) postBuild.output
    { statements := written ++ linked.1 ++ postBuild.statements ++
        writeTargetAliases Target targetNodes objectLists.2 linked.2 postBuild.output ++
        [Statement.EndTarget]
      failedAsserts := asserts ++ postBuild.failedAsserts
      exception := none }

/-- The emission loop over the units in emission order, with the set
`allCustomCommands` carried from one unit to the next; an exception ends it. -/
def emitTargets (FastbuildTargets : List FastbuildTarget) :
    List String → List FastbuildTarget → EmitResult
  | _, [] => { statements := [], failedAsserts := [], exception := none }
  | allCustomCommands, Target :: rest =>
    let r := dedupExecNodes allCustomCommands Target.ExecNodes
    let block := writeTargetBlock FastbuildTargets { Target with ExecNodes := r.2 }
    match block.exception with
    | some _ => block
    | none =>
      let later := emitTargets FastbuildTargets r.1 rest
      { statements := block.statements ++ later.statements
        failedAsserts := block.failedAsserts ++ later.failedAsserts
        exception := later.exception }

/-- The units `FastbuildTargets[targetName]` for the names of `orderedTargets`,
which are keys of the table. -/
def unitsInOrder (FastbuildTargets : List FastbuildTarget) (orderedTargets : List String) :
    List FastbuildTarget :=
  orderedTargets.filterMap (fun targetName =>
    FastbuildTargets.find? (fun T => T.Name == targetName))

/-- The function `WriteTargets` from line 997 on, applied to the table in which
`all`, `noop` and `rebuild-bff` have been stored: object-dependency
resolution, ordering, PCH reuse and emission. The result is `none` when the
ordering loop has not exited after `fuel` iterations. -/
def writeTargetsPasses (env : Collaborators) (fuel : Nat)
    (FastbuildTargets : List FastbuildTarget) : Option EmitResult :=
  let resolved := addObjectDependencies env FastbuildTargets
  (orderedTargets fuel resolved).map (fun ordered =>
    emitTargets resolved [] (reusePrecompiledHeaders [] (unitsInOrder resolved ordered)))

/-! ## GenerateCommands (cmFastbuildTargetGenerator.cxx, 204-507)

The branch without `_WIN32` is the one embedded. The script file written for
a command is file output and is left out; the exec nodes returned are kept in
full. -/

/-- Modelled from the spec: the class `cmSourceFile` is declared outside
`src/`; a source file is known by its full path and carries the custom
command read through `GetCustomCommand`. Two pointers to source files are
equal exactly when the two values are. -/
structure cmSourceFile where
  FullPath : String := ""
  CustomCommand : cmCustomCommand := {}
deriving DecidableEq, Repr

/-- Modelled from the spec: the struct `cmSourcesWithOutput` is declared
outside `src/`; `Target` tells whether its target pointer is set. -/
structure cmSourcesWithOutput where
  Target : Bool := false
  Source : Option cmSourceFile := none

/-- Modelled from the spec: what `GenerateCommands` reads from the generator
target, the makefile, the local generator and `cmSystemTools`, all declared
outside `src/`. `GetSource path` is `none` when `Makefile->GetSource(path)` is
null and otherwise holds the `SYMBOLIC` property of the source;
`GetRealDependency dep` is the string left in `realDep`, empty when the
dependency is not a file; `CommandLine` is the text of one command with its
arguments appended. -/
structure GeneratorTargetContext where
  GetName : String := ""
  GetCurrentBinaryDirectory : String := ""
  GetCurrentSourceDirectory : String := ""
  GetHomeOutputDirectory : String := ""
  GetPreBuildCommands : List cmCustomCommand := []
  GetPreLinkCommands : List cmCustomCommand := []
  GetPostBuildCommands : List cmCustomCommand := []
  GetCustomCommands : List cmSourceFile := []
  GetSourcesWithOutput : String → cmSourcesWithOutput := fun _ => {}
  FileIsFullPath : String → Bool := fun path => path.data.head? == some '/'
  CollapseFullPath : String → String := fun path => path
  CollapseFullPathFrom : String → String → String := fun path _ => path
  GetRealDependency : String → String := fun dep => dep
  GetSource : String → Option Bool := fun _ => some false
  ReplaceString : String → String → String → String := fun source _ _ => source
  ConvertToOutputFormat : String → String := fun path => path
  CommandLine : List String → String := fun line => " ".intercalate line

/-- The function `UnescapeFastbuildVariables(string)`, lines 105-112. -/
def UnescapeFastbuildVariables (ctx : GeneratorTargetContext) (string : String) : String :=
  ctx.ReplaceString
    (ctx.ReplaceString (ctx.ReplaceString string "^" "^^") "$$" "^$")
    "FASTBUILD_DOLLAR_TAG" "$"

/-- The multimap `dependencies` passed to the sorter (lines 222-257): for every
dependency of a custom command that is the output of another custom command
of the list ("Found and not self"), an edge from the command to its producer. -/
def customCommandDependencies (ctx : GeneratorTargetContext)
    (customCommands : List cmSourceFile) : List (cmSourceFile × cmSourceFile) :=
  customCommands.flatMap (fun source =>
    source.CustomCommand.Depends.filterMap (fun dep =>
      let sources := ctx.GetSourcesWithOutput dep
      let sources :=
        if !sources.Target && sources.Source.isNone && !ctx.FileIsFullPath dep then
          ctx.GetSourcesWithOutput
            (ctx.CollapseFullPathFrom (ctx.GetCurrentBinaryDirectory ++ "/" ++ dep)
              ctx.GetHomeOutputDirectory)
        else sources
      match sources.Source with
      | none => none
      | some src =>
        match customCommands.find? (fun candidate => src == candidate) with
        | none => none
        | some command => if source ≠ command then some (source, command) else none))

/-- The vector `commands` (lines 212-264), or `none` when the sorter has not
exited after `fuel` iterations. -/
def selectCommands (ctx : GeneratorTargetContext) (fuel : Nat) (buildStep : String) :
    Option (List cmCustomCommand) :=
  if buildStep = "PreBuild" then some ctx.GetPreBuildCommands
  else if buildStep = "PreLink" then some ctx.GetPreLinkCommands
  else if buildStep = "PostBuild" then some ctx.GetPostBuildCommands
  else
    (SortByDependencies fuel ctx.GetCustomCommands
      (customCommandDependencies ctx ctx.GetCustomCommands)).map
      (fun customCommands => customCommands.map (fun source => source.CustomCommand))

/-- The string `targetName` of one command (lines 271-279), `i` being the
counter after `++i`. -/
def commandTargetName (env : Collaborators) (ctx : GeneratorTargetContext)
    (buildStep : String) (i : Nat) (cc : cmCustomCommand) : String :=
  GetCustomCommandTargetName env cc
    (if buildStep = "" then ""
     else env.ConvertToFastbuildPath (ctx.GetCurrentBinaryDirectory ++ "/" ++ ctx.GetName) ++
       ("_" ++ buildStep ++ "_" ++ toString i))

/-- The vector `inputs` (lines 280-288 and 351): one entry for every declared
dependency, empty entries included. -/
def commandInputs (ctx : GeneratorTargetContext) (cc : cmCustomCommand) : List String :=
  (cc.Depends.map ctx.GetRealDependency).map (UnescapeFastbuildVariables ctx)

/-- The vector `cmdLines` (lines 290-349): the `cd` line when the command has
at least one command line, then one line for every command line. -/
def commandCmdLines (ctx : GeneratorTargetContext) (cc : cmCustomCommand) : List String :=
  (if 0 < cc.CommandLines.length then
    ["cd " ++ ctx.ConvertToOutputFormat
      (if cc.WorkingDirectory = "" then ctx.GetCurrentBinaryDirectory else cc.WorkingDirectory)]
   else []) ++ cc.CommandLines.map ctx.CommandLine

/-- The vector `outputs` (lines 357-372): the outputs and then the byproducts
that are sources of the makefile without the `SYMBOLIC` property. -/
def commandOutputs (ctx : GeneratorTargetContext) (cc : cmCustomCommand) : List String :=
  cc.Outputs.filter (fun output => ctx.GetSource output == some false) ++
    cc.Byproducts.filter (fun output => ctx.GetSource output == some false)

/-- The string `depFilePath` of lines 464-468. -/
def depFilePathOf (ctx : GeneratorTargetContext) (dep : String) : String :=
  if ctx.FileIsFullPath dep then dep
  else ctx.CollapseFullPath (ctx.GetCurrentSourceDirectory ++ "/" ++ dep)

/-- The `std::find_if` of lines 471-477: the first command of `commands` that
lists `depFilePath` among its outputs. -/
def findProducer (ctx : GeneratorTargetContext) (commands : List cmCustomCommand)
    (dep : String) : Option cmCustomCommand :=
  commands.find? (fun command => decide (depFilePathOf ctx dep ∈ command.Outputs))

/-- The loop over `ccg.GetDepends()` at lines 463-483: for a dependency that
some command of `commands` lists among its outputs, the name
`GetCustomCommandTargetName(*command)` of the first such command is
inserted. -/
def insertProducers (env : Collaborators) (ctx : GeneratorTargetContext)
    (commands : List cmCustomCommand) (cc : cmCustomCommand)
    (PreBuildDependencies : List String) : List String :=
  cc.Depends.foldl (fun deps dep =>
    match findProducer ctx commands dep with
    | some command => setInsert (GetCustomCommandTargetName env command "") deps
    | none => deps) PreBuildDependencies

/-- The `execNode` pushed for one command (lines 353-485); `nodes` is the
vector built so far. -/
def commandExecNode (env : Collaborators) (ctx : GeneratorTargetContext)
    (buildStep : String) (commands : List cmCustomCommand)
    (nodes : List FastbuildExecNode) (i : Nat) (cc : cmCustomCommand) : FastbuildExecNode :=
  let targetName := commandTargetName env ctx buildStep i cc
  let inputs := commandInputs ctx cc
  let IsNoop := (commandCmdLines ctx cc).isEmpty
  let outputs := commandOutputs ctx cc
  let output :=
    match outputs with
    | [single] => single
    | _ => ctx.GetHomeOutputDirectory ++ "/dummy-out-" ++ targetName ++ ".txt"
  let chained :=
    match nodes.getLast? with
    | some back => if buildStep = "" then [] else setInsert back.Name []
    | none => []
  { Name := targetName
    IsNoop := IsNoop
    ExecAlways := inputs.isEmpty
    ExecUseStdOutAsOutput := !IsNoop && decide (outputs.length ≠ 1)
    ExecOutput := if IsNoop then "" else env.ConvertToFastbuildPath output
    ExecExecutable :=
      if IsNoop then ""
      else env.ConvertToFastbuildPath
        (ctx.GetCurrentBinaryDirectory ++ "/CMakeFiles" ++ "/" ++ targetName ++ ".sh")
    ExecWorkingDir :=
      if IsNoop then ""
      else if cc.WorkingDirectory = "" then ctx.GetCurrentBinaryDirectory
      else cc.WorkingDirectory
    ExecInput := (inputs.filter (fun s => s ≠ "")).map env.ConvertToFastbuildPath
    PreBuildDependencies := insertProducers env ctx commands cc chained }

/-- The nodes `noop` built by the loop at lines 487-503 for a command with
more than one output. The loop has no `push_back`: they are dropped at the
end of each iteration and are not part of the vector returned. -/
def droppedOutputNodes (env : Collaborators) (ctx : GeneratorTargetContext)
    (execNode : FastbuildExecNode) (outputs : List String) : List FastbuildExecNode :=
  if 1 < outputs.length then
    outputs.map (fun output =>
      { Name := execNode.Name ++ ("-" ++ substr7 (env.HashString output))
        PreBuildDependencies := setInsert execNode.Name []
        ExecInput := [execNode.ExecOutput]
        ExecOutput := env.ConvertToFastbuildPath output
        ExecExecutable := ctx.ConvertToOutputFormat env.GetCMakeCommand
        ExecArguments := " -E touch " ++ output
        ExecWorkingDir := execNode.ExecWorkingDir })
  else []

/-- The loop `for (const cmCustomCommand& cc : commands)` (lines 266-504):
`nodes` is the vector built so far and `i` the counter. -/
def generateNodes (env : Collaborators) (ctx : GeneratorTargetContext) (buildStep : String)
    (commands : List cmCustomCommand) :
    List cmCustomCommand → List FastbuildExecNode → Nat → List FastbuildExecNode
  | [], nodes, _ => nodes
  | cc :: rest, nodes, i =>
    let i := if buildStep = "" then i else i + 1
    generateNodes env ctx buildStep commands rest
      (nodes ++ [commandExecNode env ctx buildStep commands nodes i cc]) i

/-- The function `GenerateCommands(buildStep)`: the vector `nodes` returned, or
`none` when the sorter has not exited after `fuel` iterations. -/
def GenerateCommands (env : Collaborators) (ctx : GeneratorTargetContext) (fuel : Nat)
    (buildStep : String) : Option (List FastbuildExecNode) :=
  (selectCommands ctx fuel buildStep).map (fun commands =>
    generateNodes env ctx buildStep commands commands [] 0)

/-! ## SplitExecutableAndFlags (cmFastbuildNormalTargetGenerator.cxx, 555-594)

A `std::string` is the list of its bytes; a character outside ASCII stands
for its UTF-8 bytes, none of which is a NUL, a quote or whitespace. -/

/-- The function `isspace` of the C library in the "C" locale: the space and
the five control characters from `\t` (9) to `\r` (13). -/
def isspace (c : Char) : Bool :=
  c.toNat = 32 || (9 ≤ c.toNat && c.toNat ≤ 13)

/-- The characters read through the pointer `command.c_str()` before `*c` is
zero: those that precede the first NUL of `command`. -/
def c_str (command : String) : List Char :=
  command.data.takeWhile (fun c => c ≠ Char.ofNat 0)

/-- The loop "Skip leading whitespace": the characters from the first one
that is no whitespace on. -/
def skipLeadingWhitespace : List Char → List Char
  | [] => []
  | c :: rest => if isspace c then skipLeadingWhitespace rest else c :: rest

/-- The loop "Parse one command-line element up to an unquoted space", with
the flags `in_double` and `in_single` and the string `program` built so far;
the result is `program` and the characters from `c` on when the loop ends
(34 is the double quote, 39 the single quote). -/
def parseElement : Bool → Bool → List Char → List Char → List Char × List Char
  | _, _, program, [] => (program, [])
  | in_double, in_single, program, c :: rest =>
    if in_single then
      if c = Char.ofNat 39 then parseElement in_double false program rest
      else parseElement in_double in_single (program ++ [c]) rest
    else if in_double then
      if c = Char.ofNat 34 then parseElement false in_single program rest
      else parseElement in_double in_single (program ++ [c]) rest
    else if c = Char.ofNat 34 then parseElement true in_single program rest
    else if c = Char.ofNat 39 then parseElement in_double true program rest
    else if isspace c then (program, c :: rest)
    else parseElement in_double in_single (program ++ [c]) rest

/-- The function `SplitExecutableAndFlags(command, program, args)`: the values
left in `program`, which is appended to, and in `args`, which is assigned. -/
def SplitExecutableAndFlags (command program _args : String) : String × String :=
  let r := parseElement false false program.data (skipLeadingWhitespace (c_str command))
  (String.mk r.1, String.mk r.2)

/-! ## The head of WriteTargets (cmGlobalFastbuildGenerator.cxx, 868-995)

The branch without `_WIN32` is the one embedded. -/

/-- Modelled from the spec: what the head of `WriteTargets` reads from the
local generators, the root makefile and `cmSystemTools`, all declared outside
`src/`. `GetListFiles` holds the list files of every local generator. -/
structure RootGenerator where
  FindProgram : String → String := fun name => "/bin/" ++ name
  GetListFiles : List (List String) := []
  GetHomeOutputDirectory : String := ""
  GetSourceDirectory : String := ""
  GetBinaryDirectory : String := ""
  ConvertToOutputFormat : String → String := fun path => path

/-- The loop over `FastbuildTargets` at 872-878: the set `allNode.Targets` and
the vector `allTarget.Dependencies` after it. -/
def collectAllTargets (FastbuildTargets : List FastbuildTarget) : List String × List String :=
  FastbuildTargets.foldl (fun acc Target =>
    if !Target.IsGlobal && !Target.IsExcluded then
      (setInsert (Target.Name ++ "-products") acc.1, acc.2 ++ [Target.Name])
    else acc) ([], [])

/-- The unit `noop` built at 880-898. -/
def noopTarget (root : RootGenerator) : FastbuildTarget :=
  { Name := "noop"
    ExecNodes :=
      [{ Name := "noop", ExecExecutable := root.FindProgram "bash", ExecArguments := "-c :"
         ExecUseStdOutAsOutput := true, ExecOutput := "noop.txt" }] }

/-- The unit `allTarget` stored at 941, built from the table as it is when
`WriteTargets` is entered. -/
def allTarget (FastbuildTargets : List FastbuildTarget) : FastbuildTarget :=
  let collected := collectAllTargets FastbuildTargets
  let Targets :=
    if collected.1.isEmpty then setInsert ("noop" ++ "-products") collected.1 else collected.1
  let Dependencies := if collected.1.isEmpty then collected.2 ++ ["noop"] else collected.2
  { Name := "all"
    AliasNodes := [{ Name := "all", Targets := Targets }]
    Dependencies := Dependencies
    IsGlobal := true }

/-- The unit `rebuildBFFTarget` built at 945-994; `std::sort` followed by
`std::unique` leaves the distinct entries in increasing order. -/
def rebuildBFFTarget (env : Collaborators) (root : RootGenerator) : FastbuildTarget :=
  let outDir := root.GetHomeOutputDirectory ++ "/"
  let implicitDeps :=
    setInsertAll [] (root.GetListFiles.flatMap (fun lf => lf) ++ [outDir ++ "CMakeCache.txt"])
  { Name := "rebuild-bff"
    ExecNodes :=
      [{ Name := "rebuild-bff"
         ExecArguments :=
           root.ConvertToOutputFormat env.GetCMakeCommand ++ " -H" ++
             root.ConvertToOutputFormat root.GetSourceDirectory ++ " -B" ++
             root.ConvertToOutputFormat root.GetBinaryDirectory
         ExecInput := implicitDeps
         ExecExecutable := env.GetCMakeCommand
         ExecOutput := env.ConvertToFastbuildPath (outDir ++ "fbuild.bff") }] }

/-- The table after the head of `WriteTargets`: `noop`, then `all`, then
`rebuild-bff` are stored under their names. -/
def addSyntheticTargets (env : Collaborators) (root : RootGenerator)
    (FastbuildTargets : List FastbuildTarget) : List FastbuildTarget :=
  assignTarget (rebuildBFFTarget env root)
    (assignTarget (allTarget FastbuildTargets)
      (assignTarget (noopTarget root) FastbuildTargets))

/-- The function `WriteTargets`: what has been written to the build file
stream when the loop over `orderedTargets` ends, or `none` when the ordering
loop has not exited after `fuel` iterations. -/
def WriteTargets (env : Collaborators) (root : RootGenerator) (fuel : Nat)
    (FastbuildTargets : List FastbuildTarget) : Option EmitResult :=
  writeTargetsPasses env fuel (addSyntheticTargets env root FastbuildTargets)

/-! ## cmFastbuildUtilityTargetGenerator::Generate
(cmFastbuildUtilityTargetGenerator.cxx, 17-65) -/

/-- Modelled from the spec: the values of `cmStateEnums::TargetType`, declared
outside `src/`. -/
inductive TargetType where
  | EXECUTABLE
  | STATIC_LIBRARY
  | SHARED_LIBRARY
  | MODULE_LIBRARY
  | OBJECT_LIBRARY
  | UTILITY
  | GLOBAL_TARGET
  | INTERFACE_LIBRARY
  | UNKNOWN_LIBRARY
deriving DecidableEq, Repr

/-- Modelled from the spec: what `Generate` reads from a `cmTargetDepend`,
declared outside `src/`. -/
structure cmTargetDepend where
  GetName : String := ""
  GetType : TargetType := TargetType.UTILITY
  GetCurrentBinaryDirectory : String := ""
deriving DecidableEq, Repr

/-- Modelled from the spec: what `Generate` reads from the generator target
and the global generator besides what `GenerateCommands` reads, all declared
outside `src/`. -/
structure UtilityTargetContext where
  GetType : TargetType := TargetType.UTILITY
  GetTargetDirectDepends : List cmTargetDepend := []
  GetUtilities : List String := []
  IsExcluded : Bool := false
deriving DecidableEq, Repr

/-- The function `cmGlobalFastbuildGenerator::GetTargetName`
(cmGlobalFastbuildGenerator.cxx, 1339-1348). -/
def GetTargetName (env : Collaborators) (GetCurrentBinaryDirectory GetName : String) : String :=
  env.ConvertToFastbuildPath (GetCurrentBinaryDirectory ++ "/" ++ GetName)

/-- The vector `fastbuildTarget.Dependencies` filled at 30-51. -/
def utilityDependencies (env : Collaborators) (ctx : GeneratorTargetContext)
    (gt : UtilityTargetContext) : List String :=
  gt.GetTargetDirectDepends.filterMap (fun depTarget =>
      if depTarget.GetType = TargetType.INTERFACE_LIBRARY then none
      else if depTarget.GetType = TargetType.GLOBAL_TARGET then
        some (GetTargetName env depTarget.GetCurrentBinaryDirectory depTarget.GetName)
      else some depTarget.GetName) ++
    (if gt.GetType = TargetType.GLOBAL_TARGET then
      gt.GetUtilities.map (fun util =>
        env.ConvertToFastbuildPath (ctx.GetCurrentBinaryDirectory ++ "/" ++ util))
     else [])

/-- The unit `fastbuildTarget` that `Generate` passes to `AddTarget`, or `none`
when the sorter called by `GenerateCommands` has not exited after `fuel`
iterations. -/
def utilityFastbuildTarget (env : Collaborators) (ctx : GeneratorTargetContext)
    (gt : UtilityTargetContext) (fuel : Nat) : Option FastbuildTarget :=
  (GenerateCommands env ctx fuel "PreBuild").bind (fun PreBuildExecNodes =>
  (GenerateCommands env ctx fuel "PreLink").bind (fun PreLinkExecNodes =>
  (GenerateCommands env ctx fuel "PostBuild").bind (fun PostBuildExecNodes =>
  (GenerateCommands env ctx fuel "").map (fun ExecNodes =>
    { Name :=
        if gt.GetType = TargetType.GLOBAL_TARGET then
          GetTargetName env ctx.GetCurrentBinaryDirectory ctx.GetName
        else ctx.GetName
      Dependencies := utilityDependencies env ctx gt
      PreBuildExecNodes := PreBuildExecNodes
      PreLinkExecNodes := PreLinkExecNodes
      PostBuildExecNodes := PostBuildExecNodes
      ExecNodes := ExecNodes
      IsGlobal := decide (gt.GetType = TargetType.GLOBAL_TARGET)
      IsExcluded := gt.IsExcluded }))))

/-- The function `cmFastbuildUtilityTargetGenerator::Generate`: the generator
state after the unit has gone through `AddTarget` (the local generator
forwards it to the global one). -/
def cmFastbuildUtilityTargetGenerator.Generate (env : Collaborators)
    (ctx : GeneratorTargetContext) (gt : UtilityTargetContext) (fuel : Nat)
    (state : GeneratorState) : Option GeneratorState :=
  (utilityFastbuildTarget env ctx gt fuel).map (AddTarget state)

/-! ## Specification predicates for the ordering claims -/

/-- Every occurrence of an item in `l` has all the prerequisites that the
edge list `E` records for it strictly before it. -/
def DepsBefore {α : Type} (E : List (α × α)) (l : List α) : Prop :=
  ∀ pre u post, l = pre ++ u :: post → ∀ d, (u, d) ∈ E → d ∈ pre

/-- The unit-level dependency relation of a target table: the unit named `a`
lists `b` among its `Dependencies`. -/
def DependsOn (FastbuildTargets : List FastbuildTarget) (a b : String) : Prop :=
  ∃ Target ∈ FastbuildTargets, Target.Name = a ∧ b ∈ Target.Dependencies

/-- Every name in the `PreBuildDependencies` of a node of the list is the
`Name` of a node that occurs earlier in the list. -/
def DependenciesDefinedEarlier (nodes : List FastbuildExecNode) : Prop :=
  ∀ pre node post, nodes = pre ++ node :: post →
    ∀ d ∈ node.PreBuildDependencies, d ∈ pre.map (fun n => n.Name)

/-- The name under which a block makes a node or an alias known: the argument
of `WriteCommand` (for a link step whose `Name` is its `LinkerOutput` the
argument is empty and the node is known by that output). -/
def emittedName : Statement → Option String
  | Statement.Alias name _ => some name
  | Statement.Exec Exec _ => some Exec.Name
  | Statement.ObjectList ObjectList _ => some ObjectList.Name
  | Statement.Linker LinkerNode _ => some LinkerNode.Name
  | _ => none

/-- The statements written inside the block opened for `targetName`: those
between its `TargetDefinition` and the next `EndTarget`. -/
def blockOf (targetName : String) (statements : List Statement) : List Statement :=
  ((statements.dropWhile (fun s => s ≠ Statement.TargetDefinition targetName)).drop 1).takeWhile
    (fun s => s ≠ Statement.EndTarget)

/-- The names of the units of the table that have no dependencies, in table
order. -/
def unitsWithoutDependencies (FastbuildTargets : List FastbuildTarget) : List String :=
  (FastbuildTargets.filter (fun Target => Target.Dependencies.isEmpty)).map
    (fun Target => Target.Name)

/-! ## Concrete inputs used to exercise the theorems -/

/-- A table of three units: `A` depends on `C`, `C` depends on `B`. -/
def chainTable : List FastbuildTarget :=
  [{ Name := "A", Dependencies := ["C"] }, { Name := "B" },
   { Name := "C", Dependencies := ["B"] }]

/-- A table of three units on one cycle: `A` to `B` to `C` to `A`. -/
def cycleTable : List FastbuildTarget :=
  [{ Name := "A", Dependencies := ["B"] }, { Name := "B", Dependencies := ["C"] },
   { Name := "C", Dependencies := ["A"] }]

/-- Two units whose only command steps share the name `cc-0123456` and
differ in executable and output. -/
def collisionUnits : List FastbuildTarget :=
  [{ Name := "T1"
     ExecNodes := [{ Name := "cc-0123456", ExecExecutable := "gen-a.sh", ExecOutput := "a.txt" }] },
   { Name := "T2"
     ExecNodes := [{ Name := "cc-0123456", ExecExecutable := "gen-b.sh", ExecOutput := "b.txt" }] }]

/-- Stand-ins for the collaborators, used to evaluate the passes: the digest
and the path converter return their argument. -/
def plainCollaborators : Collaborators :=
  { HashString := fun s => s, ConvertToFastbuildPath := fun s => s, GetCMakeCommand := "cmake" }

/-- A table in which a batch of `app` declares three extra dependencies, one
of which (`gen/version.h`) is an object output of `gen`. -/
def objectTable : List FastbuildTarget :=
  [{ Name := "app"
     ObjectListNodes :=
       [{ Name := "CXX_ObjectGroup_app-1", CompilerInputFiles := ["main.cpp"]
          ObjectDependencies := ["hand/config.h", "gen/version.h", "hand/notes.txt"] }] },
   { Name := "gen"
     ObjectListNodes :=
       [{ Name := "CXX_ObjectGroup_gen-1", ObjectOutputs := ["gen/version.h"] }] }]

/-- A custom command with the same merged paths as `commandGenA`, declared as
two outputs, and with another command line and an input. -/
def commandGenB : cmCustomCommand :=
  { Outputs := ["out/a.c", "out/a.h"], Depends := ["in.txt"], CommandLines := [["other"]] }

/-- Three units in emission order whose first batches all declare the PCH
output `pch/stdafx.pch`; the last unit has a second batch without PCH. -/
def pchUnits : List FastbuildTarget :=
  [{ Name := "core"
     ObjectListNodes :=
       [{ Name := "CXX_core-1", PCHInputFile := "stdafx.cpp", PCHOutputFile := "pch/stdafx.pch"
          PCHOptions := "/Yc" }] },
   { Name := "net"
     ObjectListNodes :=
       [{ Name := "CXX_net-1", PCHInputFile := "stdafx.cpp", PCHOutputFile := "pch/stdafx.pch"
          PCHOptions := "/Yc" }] },
   { Name := "ui"
     ObjectListNodes :=
       [{ Name := "CXX_ui-1", PCHInputFile := "stdafx.cpp", PCHOutputFile := "pch/stdafx.pch"
          PCHOptions := "/Yc" },
        { Name := "C_ui-2" }] }]

/-- A table, with `all`, `noop` and `rebuild-bff` stored, in which the units
`A` and `B` depend on the name `ghost`, which is no key of the table. -/
def ghostTable : List FastbuildTarget :=
  [{ Name := "A", Dependencies := ["ghost"] },
   { Name := "B", Dependencies := ["ghost"] },
   { Name := "all", IsGlobal := true, Dependencies := ["A", "B"]
     AliasNodes := [{ Name := "all", Targets := ["A-products", "B-products"] }] },
   { Name := "noop"
     ExecNodes := [{ Name := "noop", ExecExecutable := "/bin/bash", ExecArguments := "-c :"
                     ExecUseStdOutAsOutput := true, ExecOutput := "noop.txt" }] },
   { Name := "rebuild-bff"
     ExecNodes := [{ Name := "rebuild-bff", ExecExecutable := "cmake"
                     ExecArguments := "cmake -H/src -B/bld"
                     ExecInput := ["/bld/CMakeCache.txt", "/src/CMakeLists.txt"]
                     ExecOutput := "fbuild.bff" }] }]

/-- The names of the units whose block has been opened, in order. -/
def openedTargets (statements : List Statement) : List String :=
  statements.filterMap (fun s =>
    match s with
    | Statement.TargetDefinition targetName => some targetName
    | _ => none)

/-- The source file of a custom command that lists its own output
`/src/gen.c` among its dependencies. -/
def selfDependentSource : cmSourceFile :=
  { FullPath := "/bld/CMakeFiles/gen.c.rule"
    CustomCommand :=
      { Outputs := ["/src/gen.c"], Depends := ["/src/gen.c"], CommandLines := [["gen", "gen.c"]] } }

/-- A generator target `app` whose only custom command is that of
`selfDependentSource`. -/
def selfDependentContext : GeneratorTargetContext :=
  { GetName := "app", GetCurrentBinaryDirectory := "/bld", GetCurrentSourceDirectory := "/src"
    GetHomeOutputDirectory := "/bld"
    GetCustomCommands := [selfDependentSource]
    GetSourcesWithOutput := fun path =>
      if path = "/src/gen.c" then { Source := some selfDependentSource } else {} }

/-- The source file of a custom command with the two outputs `/bld/a.c` and
`/bld/a.h`. -/
def twoOutputSource : cmSourceFile :=
  { FullPath := "/bld/CMakeFiles/a.c.rule"
    CustomCommand :=
      { Outputs := ["/bld/a.c", "/bld/a.h"], Depends := ["/src/a.idl"]
        CommandLines := [["idl", "a.idl"]] } }

/-- A generator target `app` whose only custom command is that of
`twoOutputSource`; both outputs are sources without the `SYMBOLIC` property. -/
def twoOutputContext : GeneratorTargetContext :=
  { GetName := "app", GetCurrentBinaryDirectory := "/bld", GetCurrentSourceDirectory := "/src"
    GetHomeOutputDirectory := "/bld"
    GetCustomCommands := [twoOutputSource]
    GetSourcesWithOutput := fun path =>
      if path = "/bld/a.c" ∨ path = "/bld/a.h" then { Source := some twoOutputSource } else {} }

/-- A generator target `app` whose only custom command depends on the
utility target `docs` alone; a utility target is no file, so
`GetRealDependency` leaves `realDep` empty for it. -/
def utilityDependencyContext : GeneratorTargetContext :=
  { GetName := "app", GetCurrentBinaryDirectory := "/bld", GetCurrentSourceDirectory := "/src"
    GetHomeOutputDirectory := "/bld"
    GetCustomCommands :=
      [{ FullPath := "/bld/CMakeFiles/stamp.txt.rule"
         CustomCommand :=
           { Outputs := ["/bld/stamp.txt"], Depends := ["docs"]
             CommandLines := [["touch", "stamp.txt"]] } }]
    GetSourcesWithOutput := fun path => if path = "docs" then { Target := true } else {}
    GetRealDependency := fun dep => if dep = "docs" then "" else dep }

/-- A generator state in which a unit `app` is registered. -/
def registeredState : GeneratorState :=
  { FastbuildTargets := [{ Name := "app", Dependencies := ["first"] }, { Name := "lib" }] }

/-- A table in which `b` and `c` have no dependencies, `a` waits for `c`, and
`d` and `e` wait for each other. -/
def tieTable : List FastbuildTarget :=
  [{ Name := "a", Dependencies := ["c"] }, { Name := "b" }, { Name := "c" },
   { Name := "d", Dependencies := ["e"] }, { Name := "e", Dependencies := ["d", "b"] }]

/-- A table as it is when `WriteTargets` is entered: two units to build, one
excluded unit and the global unit of a subdirectory. -/
def registeredTable : List FastbuildTarget :=
  [{ Name := "app", Dependencies := ["lib"] },
   { Name := "docs", IsExcluded := true },
   { Name := "lib" },
   { Name := "sub/all", IsGlobal := true, Dependencies := ["noop"]
     AliasNodes := [{ Name := "sub/all", Targets := ["noop-products"] }] }]

/-- Stand-ins for the collaborators in which the digest of a string is the
string read backwards, so that the counter of a build step shows in the name. -/
def reversingCollaborators : Collaborators :=
  { HashString := fun s => String.mk s.data.reverse, ConvertToFastbuildPath := fun s => s
    GetCMakeCommand := "cmake" }

/-- A generator target `app` with three `POST_BUILD` commands, the last of
which has no command line. -/
def postBuildContext : GeneratorTargetContext :=
  { GetName := "app", GetCurrentBinaryDirectory := "/bld", GetCurrentSourceDirectory := "/src"
    GetHomeOutputDirectory := "/bld"
    GetPostBuildCommands :=
      [{ CommandLines := [["strip", "app"]] }, { CommandLines := [["sign", "app"]] }, {}] }

/-- The generator target of `add_custom_target(docs)`: no command, no
dependency, so no custom command is attached to it. -/
def bareUtilityContext : GeneratorTargetContext :=
  { GetName := "docs", GetCurrentBinaryDirectory := "/bld", GetCurrentSourceDirectory := "/src"
    GetHomeOutputDirectory := "/bld" }

/-- The generator target of `add_custom_target(docs DEPENDS /src/README.md)`:
its custom command has the symbolic output `/bld/CMakeFiles/docs`, one file
dependency and no command line. -/
def dependsOnlyContext : GeneratorTargetContext :=
  { GetName := "docs", GetCurrentBinaryDirectory := "/bld", GetCurrentSourceDirectory := "/src"
    GetHomeOutputDirectory := "/bld"
    GetCustomCommands :=
      [{ FullPath := "/bld/CMakeFiles/docs.rule"
         CustomCommand := { Outputs := ["/bld/CMakeFiles/docs"], Depends := ["/src/README.md"] } }]
    GetSourcesWithOutput := fun _ => {}
    GetSource := fun path => if path = "/bld/CMakeFiles/docs" then some true else some false }

/-- The step that `GenerateCommands` returns for the custom command of
`dependsOnlyContext` with the stand-in digest of `plainCollaborators`. -/
def dependsOnlyNode : FastbuildExecNode :=
  { Name := "cc--/bld/C", ExecInput := ["/src/README.md"], IsNoop := true }

/-- The root generator of a project in `/src` built in `/bld`. -/
def plainRoot : RootGenerator :=
  { GetListFiles := [["/src/CMakeLists.txt"]], GetHomeOutputDirectory := "/bld"
    GetSourceDirectory := "/src", GetBinaryDirectory := "/bld" }

/-- The rank used to show that `chainTable` has no cycle. -/
def chainRank (name : String) : Nat :=
  if name = "A" then 2 else if name = "C" then 1 else 0

/-! ## Properties of the scan pass -/

section SorterLemmas

variable {α : Type} [DecidableEq α]

theorem hasKey_iff (m : List (α × α)) (k : α) :
    hasKey m k = true ↔ ∃ v, (k, v) ∈ m := by
  unfold hasKey
  rw [List.any_eq_true]
  constructor
  · rintro ⟨⟨a, b⟩, hmem, hk⟩
    have : a = k := by simpa using hk
    subst this
    exact ⟨b, hmem⟩
  · rintro ⟨v, hmem⟩
    exact ⟨(k, v), hmem, by simp⟩

theorem mem_eraseFromRange (fwd : List (α × α)) (d t : α) (e : α × α) :
    e ∈ eraseFromRange fwd d t ↔ e ∈ fwd ∧ ¬ (e.1 = d ∧ e.2 = t) := by
  unfold eraseFromRange
  simp only [List.mem_filter, Bool.not_eq_true', Bool.and_eq_false_iff, beq_eq_false_iff_ne,
    ne_eq, not_and_or]

theorem mem_foldl_eraseFromRange (rs fwd : List (α × α)) (t : α) (e : α × α) :
    e ∈ rs.foldl (fun f rt => eraseFromRange f rt.2 t) fwd ↔
      e ∈ fwd ∧ ¬ (e.2 = t ∧ ∃ rt ∈ rs, rt.2 = e.1) := by
  induction rs generalizing fwd with
  | nil => simp
  | cons r rs ih =>
    rw [List.foldl_cons, ih, mem_eraseFromRange]
    constructor
    · rintro ⟨⟨hmem, h1⟩, h2⟩
      refine ⟨hmem, ?_⟩
      rintro ⟨ht, rt, hrt, hrt2⟩
      rcases List.mem_cons.mp hrt with rfl | hrt
      · exact h1 ⟨hrt2.symm, ht⟩
      · exact h2 ⟨ht, rt, hrt, hrt2⟩
    · rintro ⟨hmem, h⟩
      refine ⟨⟨hmem, ?_⟩, ?_⟩
      · rintro ⟨h1, ht⟩
        exact h ⟨ht, r, List.mem_cons_self _ _, h1.symm⟩
      · rintro ⟨ht, rt, hrt, hrt2⟩
        exact h ⟨ht, rt, List.mem_cons_of_mem _ hrt, hrt2⟩

theorem mem_eraseDependents (rev fwd : List (α × α)) (t : α) (e : α × α) :
    e ∈ eraseDependents rev fwd t ↔ e ∈ fwd ∧ ¬ (e.2 = t ∧ (t, e.1) ∈ rev) := by
  unfold eraseDependents
  rw [mem_foldl_eraseFromRange]
  apply and_congr_right
  intro _
  apply not_congr
  apply and_congr_right
  intro _
  unfold equalRange
  constructor
  · rintro ⟨⟨a, b⟩, hrt, hrt2⟩
    rw [List.mem_filter] at hrt
    have ha : a = t := by simpa using hrt.2
    simp only at hrt2
    subst ha; subst hrt2
    exact hrt.1
  · intro h
    exact ⟨(t, e.1), by simp [List.mem_filter, h], rfl⟩

theorem scanPass_perm (rev : List (α × α)) (ts : List α) (fwd : List (α × α)) (out : List α) :
    ((scanPass rev ts fwd out).output ++ (scanPass rev ts fwd out).targets).Perm (out ++ ts) := by
  induction ts generalizing fwd out with
  | nil => simp [scanPass]
  | cons t ts ih =>
    unfold scanPass
    split
    · simp only
      have h := ih fwd out
      exact (List.perm_middle.trans (List.Perm.cons t h)).trans List.perm_middle.symm
    · have h := ih (eraseDependents rev fwd t) (out ++ [t])
      simpa using h

theorem scanPass_length_le (rev : List (α × α)) (ts : List α) (fwd : List (α × α))
    (out : List α) : (scanPass rev ts fwd out).targets.length ≤ ts.length := by
  induction ts generalizing fwd out with
  | nil => simp [scanPass]
  | cons t ts ih =>
    unfold scanPass
    split
    · simpa using ih fwd out
    · have h := ih (eraseDependents rev fwd t) (out ++ [t])
      simp only [List.length_cons]
      omega

/-- A scan in which every item still has a forward entry changes nothing. -/
theorem scanPass_stuck (rev : List (α × α)) (ts : List α) (fwd : List (α × α))
    (out : List α) (h : ∀ t ∈ ts, hasKey fwd t = true) :
    scanPass rev ts fwd out = { targets := ts, forwardDependencies := fwd, output := out } := by
  induction ts with
  | nil => simp [scanPass]
  | cons t ts ih =>
    unfold scanPass
    rw [if_pos (h t (List.mem_cons_self _ _))]
    simp only
    rw [ih (fun x hx => h x (List.mem_cons_of_mem _ hx))]

/-- A scan over a list holding a ready item erases at least one item. -/
theorem scanPass_length_lt (rev : List (α × α)) (ts : List α) (fwd : List (α × α))
    (out : List α) (h : ∃ t ∈ ts, hasKey fwd t = false) :
    (scanPass rev ts fwd out).targets.length < ts.length := by
  induction ts with
  | nil => obtain ⟨t, ht, _⟩ := h; cases ht
  | cons t ts ih =>
    unfold scanPass
    split
    · rename_i hk
      obtain ⟨x, hx, hxk⟩ := h
      rcases List.mem_cons.mp hx with rfl | hx
      · rw [hk] at hxk; cases hxk
      · simpa using ih ⟨x, hx, hxk⟩
    · have := scanPass_length_le rev ts (eraseDependents rev fwd t) (out ++ [t])
      simp only [List.length_cons]
      omega

/-- A scan that erases nothing saw a forward entry for every item. -/
theorem scanPass_length_eq (rev : List (α × α)) (ts : List α) (fwd : List (α × α))
    (out : List α) (h : ts.length = (scanPass rev ts fwd out).targets.length) :
    ∀ t ∈ ts, hasKey fwd t = true := by
  intro t ht
  by_contra hk
  have := scanPass_length_lt rev ts fwd out ⟨t, ht, by simpa using hk⟩
  omega

end SorterLemmas

section OrderLemmas

variable {α : Type}

theorem DepsBefore.nil (E : List (α × α)) : DepsBefore E [] := by
  intro pre u post h
  cases pre <;> cases h

theorem DepsBefore.concat {E : List (α × α)} {out : List α} {t : α}
    (hout : DepsBefore E out) (ht : ∀ d, (t, d) ∈ E → d ∈ out) :
    DepsBefore E (out ++ [t]) := by
  intro pre u post h d hd
  rcases List.eq_nil_or_concat post with rfl | ⟨post1, x, rfl⟩
  · have h2 : out ++ [t] = pre ++ [u] := h
    obtain ⟨h3, h4⟩ := List.append_inj' h2 rfl
    have : t = u := by simpa using h4
    subst this; subst h3
    exact ht d hd
  · have h2 : out ++ [t] = (pre ++ u :: post1) ++ [x] := by
      rw [h]; simp
    obtain ⟨h3, _⟩ := List.append_inj' h2 rfl
    exact hout pre u post1 h3 d hd

/-- A relation that decreases a rank has no cycle. -/
theorem acyclic_of_rank {β : Type} (R : β → β → Prop) (rank : β → Nat)
    (h : ∀ a b, R a b → rank b < rank a) : ∀ x, ¬ Relation.TransGen R x x := by
  have key : ∀ a b, Relation.TransGen R a b → rank b < rank a := by
    intro a b hab
    induction hab with
    | single h1 => exact h _ _ h1
    | tail _ h2 ih => exact lt_trans (h _ _ h2) ih
  intro x hx
  exact lt_irrefl _ (key x x hx)

/-- In a non-empty list, an acyclic relation leaves an item with no successor
in the list. -/
theorem exists_no_successor {β : Type} (R : β → β → Prop)
    (hacyc : ∀ x, ¬ Relation.TransGen R x x) (l : List β) (hl : l ≠ []) :
    ∃ t ∈ l, ∀ d ∈ l, ¬ R t d := by
  have key : ∃ t ∈ l, ∀ d ∈ l, ¬ Relation.TransGen R t d := by
    induction l with
    | nil => exact absurd rfl hl
    | cons a l ih =>
      by_cases hnil : l = []
      · subst hnil
        refine ⟨a, List.mem_cons_self _ _, ?_⟩
        intro d hd
        have : d = a := by simpa using hd
        subst this
        exact hacyc d
      · obtain ⟨t, ht, hmin⟩ := ih hnil
        by_cases hta : Relation.TransGen R t a
        · refine ⟨a, List.mem_cons_self _ _, ?_⟩
          intro d hd had
          rcases List.mem_cons.mp hd with rfl | hd
          · exact hacyc d had
          · exact hmin d hd (hta.trans had)
        · refine ⟨t, List.mem_cons_of_mem _ ht, ?_⟩
          intro d hd
          rcases List.mem_cons.mp hd with rfl | hd
          · exact hta
          · exact hmin d hd
  obtain ⟨t, ht, hmin⟩ := key
  exact ⟨t, ht, fun d hd hR => hmin d hd (Relation.TransGen.single hR)⟩

variable [DecidableEq α]

/-- The scan keeps the forward map equal to the edges whose prerequisite has
not been output, and keeps the output ordered. -/
theorem scanPass_invariant (E rev : List (α × α)) (hmirror : ∀ e ∈ E, (e.2, e.1) ∈ rev)
    (ts : List α) (fwd : List (α × α)) (out : List α)
    (hfwd : ∀ e, e ∈ fwd ↔ e ∈ E ∧ e.2 ∉ out) (hord : DepsBefore E out) :
    (∀ e, e ∈ (scanPass rev ts fwd out).forwardDependencies ↔
        e ∈ E ∧ e.2 ∉ (scanPass rev ts fwd out).output) ∧
      DepsBefore E (scanPass rev ts fwd out).output := by
  induction ts generalizing fwd out with
  | nil => exact ⟨hfwd, hord⟩
  | cons t ts ih =>
    unfold scanPass
    split
    · exact ih fwd out hfwd hord
    · rename_i hk
      apply ih
      · intro e
        rw [mem_eraseDependents, hfwd]
        constructor
        · rintro ⟨⟨hE, hout⟩, hne⟩
          refine ⟨hE, ?_⟩
          intro hmem
          rcases List.mem_append.mp hmem with h | h
          · exact hout h
          · have het : e.2 = t := by simpa using h
            exact hne ⟨het, het ▸ hmirror e hE⟩
        · rintro ⟨hE, hout⟩
          refine ⟨⟨hE, fun h => hout (List.mem_append_left _ h)⟩, ?_⟩
          rintro ⟨het, _⟩
          exact hout (List.mem_append_right _ (by simp [het]))
      · apply DepsBefore.concat hord
        intro d hd
        by_contra hdout
        apply hk
        rw [hasKey_iff]
        exact ⟨d, (hfwd (t, d)).mpr ⟨hd, hdout⟩⟩

theorem orderLoop_nil (rev : List (α × α)) (fuel : Nat) (fwd : List (α × α)) (out : List α) :
    orderLoop rev fuel [] fwd out = some out := by
  cases fuel <;> rfl

/-- More fuel does not change a result of the ordering loop. -/
theorem orderLoop_fuel_succ (rev : List (α × α)) (fuel : Nat) (ts : List α)
    (fwd : List (α × α)) (out res : List α)
    (h : orderLoop rev fuel ts fwd out = some res) :
    orderLoop rev (fuel + 1) ts fwd out = some res := by
  induction fuel generalizing ts fwd out with
  | zero =>
    cases ts with
    | nil => rw [orderLoop_nil] at h ⊢; exact h
    | cons t ts => simp [orderLoop] at h
  | succ n ih =>
    cases ts with
    | nil => rw [orderLoop_nil] at h ⊢; exact h
    | cons t ts =>
      rw [orderLoop] at h ⊢
      split
      · rename_i hlen
        rw [if_pos hlen] at h
        rw [orderLoop_nil] at h ⊢; exact h
      · rename_i hlen
        rw [if_neg hlen] at h
        exact ih _ _ _ h

theorem orderLoop_fuel_add (rev : List (α × α)) (fuel k : Nat) (ts : List α)
    (fwd : List (α × α)) (out res : List α)
    (h : orderLoop rev fuel ts fwd out = some res) :
    orderLoop rev (fuel + k) ts fwd out = some res := by
  induction k with
  | zero => exact h
  | succ k ih => exact orderLoop_fuel_succ rev (fuel + k) ts fwd out res ih

/-- The ordering loop exits within as many iterations as there are items, and
its result is a permutation of the output so far followed by the items. -/
theorem orderLoop_perm (rev : List (α × α)) (fuel : Nat) (ts : List α)
    (fwd : List (α × α)) (out : List α) (hfuel : ts.length ≤ fuel) :
    ∃ res, orderLoop rev fuel ts fwd out = some res ∧ res.Perm (out ++ ts) := by
  induction fuel generalizing ts fwd out with
  | zero =>
    have : ts = [] := List.length_eq_zero.mp (Nat.le_zero.mp hfuel)
    subst this
    exact ⟨out, rfl, by simp⟩
  | succ n ih =>
    cases ts with
    | nil => exact ⟨out, rfl, by simp⟩
    | cons t ts =>
      rw [orderLoop]
      split
      · rw [orderLoop_nil]
        exact ⟨_, rfl, scanPass_perm rev (t :: ts) fwd out⟩
      · rename_i hlen
        have hle := scanPass_length_le rev (t :: ts) fwd out
        have hlt : (scanPass rev (t :: ts) fwd out).targets.length ≤ n := by
          have : (scanPass rev (t :: ts) fwd out).targets.length ≠ (t :: ts).length :=
            fun h => hlen h.symm
          have h2 : (t :: ts).length ≤ n + 1 := hfuel
          omega
        obtain ⟨res, hres, hperm⟩ := ih _ (scanPass rev (t :: ts) fwd out).forwardDependencies
          (scanPass rev (t :: ts) fwd out).output hlt
        exact ⟨res, hres, hperm.trans (scanPass_perm rev (t :: ts) fwd out)⟩

/-- On an acyclic relation whose prerequisites are all items, the ordering
loop outputs every item after its prerequisites. -/
theorem orderLoop_depsBefore (E rev : List (α × α)) (names : List α)
    (hmirror : ∀ e ∈ E, (e.2, e.1) ∈ rev) (hmodel : ∀ e ∈ E, e.2 ∈ names)
    (hacyc : ∀ x, ¬ Relation.TransGen (fun a b => (a, b) ∈ E) x x)
    (fuel : Nat) (ts : List α) (fwd : List (α × α)) (out : List α)
    (hfuel : ts.length ≤ fuel) (hperm : (out ++ ts).Perm names)
    (hfwd : ∀ e, e ∈ fwd ↔ e ∈ E ∧ e.2 ∉ out) (hord : DepsBefore E out) :
    ∃ res, orderLoop rev fuel ts fwd out = some res ∧ DepsBefore E res := by
  induction fuel generalizing ts fwd out with
  | zero =>
    have : ts = [] := List.length_eq_zero.mp (Nat.le_zero.mp hfuel)
    subst this
    exact ⟨out, rfl, hord⟩
  | succ n ih =>
    cases ts with
    | nil => exact ⟨out, rfl, hord⟩
    | cons t ts =>
      rw [orderLoop]
      have hinv := scanPass_invariant E rev hmirror (t :: ts) fwd out hfwd hord
      have hp := scanPass_perm rev (t :: ts) fwd out
      split
      · rename_i hlen
        exfalso
        have hall := scanPass_length_eq rev (t :: ts) fwd out hlen
        obtain ⟨t0, ht0, hmin⟩ := exists_no_successor (fun a b => (a, b) ∈ E) hacyc (t :: ts)
          (List.cons_ne_nil _ _)
        obtain ⟨v, hv⟩ := (hasKey_iff fwd t0).mp (hall t0 ht0)
        obtain ⟨hvE, hvout⟩ := (hfwd (t0, v)).mp hv
        have hvn : v ∈ out ++ (t :: ts) := hperm.mem_iff.mpr (hmodel _ hvE)
        rcases List.mem_append.mp hvn with h | h
        · exact hvout h
        · exact hmin v h hvE
      · rename_i hlen
        have hle := scanPass_length_le rev (t :: ts) fwd out
        have hlt : (scanPass rev (t :: ts) fwd out).targets.length ≤ n := by
          have : (scanPass rev (t :: ts) fwd out).targets.length ≠ (t :: ts).length :=
            fun h => hlen h.symm
          have h2 : (t :: ts).length ≤ n + 1 := hfuel
          omega
        exact ih _ _ _ hlt (hp.trans hperm) hinv.1 hinv.2

end OrderLemmas

/-! ## The target-ordering loop on a target table -/

theorem mem_forwardDependenciesOf (T : List FastbuildTarget) (a b : String) :
    (a, b) ∈ forwardDependenciesOf T ↔ DependsOn T a b := by
  unfold forwardDependenciesOf DependsOn
  simp only [List.mem_flatMap, List.mem_map, Prod.mk.injEq]
  constructor
  · rintro ⟨u, hu, d, hd, rfl, rfl⟩
    exact ⟨u, hu, rfl, hd⟩
  · rintro ⟨u, hu, rfl, hd⟩
    exact ⟨u, hu, b, hd, rfl, rfl⟩

theorem mem_reverseDependenciesOf (T : List FastbuildTarget) (a b : String) :
    (b, a) ∈ reverseDependenciesOf T ↔ DependsOn T a b := by
  unfold reverseDependenciesOf DependsOn
  simp only [List.mem_flatMap, List.mem_map, Prod.mk.injEq]
  constructor
  · rintro ⟨u, hu, d, hd, rfl, rfl⟩
    exact ⟨u, hu, rfl, hd⟩
  · rintro ⟨u, hu, rfl, hd⟩
    exact ⟨u, hu, b, hd, rfl, rfl⟩

theorem hasKey_forwardDependenciesOf (T : List FastbuildTarget) (Target : FastbuildTarget)
    (hT : Target ∈ T) (hdeps : Target.Dependencies ≠ []) :
    hasKey (forwardDependenciesOf T) Target.Name = true := by
  rw [hasKey_iff]
  obtain ⟨d, hd⟩ := List.exists_mem_of_ne_nil _ hdeps
  exact ⟨d, (mem_forwardDependenciesOf T _ _).mpr ⟨Target, hT, rfl, hd⟩⟩

/-- C1: when every unit-level dependency names a unit of the table and the
dependency relation has no cycle, the target-ordering loop of `WriteTargets`
exits and, at every place where a unit occurs in `orderedTargets`, each of its
dependencies has already occurred. -/
theorem orderedTargets_dependencies_first (FastbuildTargets : List FastbuildTarget)
    (hmodel : ∀ Target ∈ FastbuildTargets, ∀ d ∈ Target.Dependencies,
      d ∈ targetNames FastbuildTargets)
    (hacyclic : ∀ x, ¬ Relation.TransGen (DependsOn FastbuildTargets) x x) :
    ∃ ordered,
      (∀ fuel, FastbuildTargets.length ≤ fuel →
        orderedTargets fuel FastbuildTargets = some ordered) ∧
      ∀ Target ∈ FastbuildTargets, ∀ d ∈ Target.Dependencies,
        Target.Name ∈ ordered ∧
          ∀ pre post, ordered = pre ++ Target.Name :: post → d ∈ pre := by
  have hlen : (targetNames FastbuildTargets).length ≤ FastbuildTargets.length := by
    simp [targetNames]
  have hE : ∀ x, ¬ Relation.TransGen
      (fun a b => (a, b) ∈ forwardDependenciesOf FastbuildTargets) x x := by
    intro x hx
    exact hacyclic x (Relation.TransGen.mono
      (fun a b h => (mem_forwardDependenciesOf FastbuildTargets a b).mp h) hx)
  obtain ⟨ordered, hres, hord⟩ := orderLoop_depsBefore
    (forwardDependenciesOf FastbuildTargets) (reverseDependenciesOf FastbuildTargets)
    (targetNames FastbuildTargets)
    (fun e he => (mem_reverseDependenciesOf FastbuildTargets e.1 e.2).mpr
      ((mem_forwardDependenciesOf FastbuildTargets e.1 e.2).mp he))
    (fun e he => by
      obtain ⟨u, hu, _, hd⟩ := (mem_forwardDependenciesOf FastbuildTargets e.1 e.2).mp he
      exact hmodel u hu _ hd)
    hE FastbuildTargets.length (targetNames FastbuildTargets)
    (forwardDependenciesOf FastbuildTargets) [] hlen (by simp) (by simp) (DepsBefore.nil _)
  obtain ⟨res2, hres2, hperm⟩ := orderLoop_perm (reverseDependenciesOf FastbuildTargets)
    FastbuildTargets.length (targetNames FastbuildTargets)
    (forwardDependenciesOf FastbuildTargets) [] hlen
  have heq : res2 = ordered := Option.some.inj (hres2.symm.trans hres)
  subst heq
  refine ⟨res2, ?_, ?_⟩
  · intro fuel hfuel
    obtain ⟨k, rfl⟩ := Nat.exists_eq_add_of_le hfuel
    exact orderLoop_fuel_add _ _ k _ _ _ _ hres
  · intro Target hT d hd
    refine ⟨hperm.mem_iff.mpr (by simpa [targetNames] using ⟨Target, hT, rfl⟩), ?_⟩
    intro pre post hsplit
    exact hord pre Target.Name post hsplit d
      ((mem_forwardDependenciesOf FastbuildTargets _ _).mpr ⟨Target, hT, rfl, hd⟩)

/-- C2: for every target table with distinct keys and every dependency
relation, the target-ordering loop of `WriteTargets` exits within as many
iterations as there are units, with the same result whatever further fuel is
given, and `orderedTargets` is a permutation of the unit names in which every
unit name occurs exactly once. -/
theorem orderedTargets_permutation (FastbuildTargets : List FastbuildTarget)
    (hkeys : (targetNames FastbuildTargets).Nodup) :
    ∃ ordered,
      (∀ fuel, FastbuildTargets.length ≤ fuel →
        orderedTargets fuel FastbuildTargets = some ordered) ∧
      ordered.Perm (targetNames FastbuildTargets) ∧
      ∀ Target ∈ FastbuildTargets, ordered.count Target.Name = 1 := by
  have hlen : (targetNames FastbuildTargets).length ≤ FastbuildTargets.length := by
    simp [targetNames]
  obtain ⟨ordered, hres, hperm⟩ := orderLoop_perm (reverseDependenciesOf FastbuildTargets)
    FastbuildTargets.length (targetNames FastbuildTargets)
    (forwardDependenciesOf FastbuildTargets) [] hlen
  have hperm2 : ordered.Perm (targetNames FastbuildTargets) := by simpa using hperm
  refine ⟨ordered, ?_, hperm2, ?_⟩
  · intro fuel hfuel
    obtain ⟨k, rfl⟩ := Nat.exists_eq_add_of_le hfuel
    exact orderLoop_fuel_add _ _ k _ _ _ _ hres
  · intro Target hT
    rw [hperm2.count_eq]
    exact List.count_eq_one_of_mem hkeys (by simpa [targetNames] using ⟨Target, hT, rfl⟩)

/-- C4: in the target-ordering loop of `WriteTargets`, a scan that finds a
forward entry for every remaining unit ends the loop with the output so far
followed by the remaining units in their current order; in particular, when
every unit of the table has at least one dependency, `orderedTargets` is the
input order. -/
theorem orderedTargets_flush (FastbuildTargets : List FastbuildTarget) :
    (∀ (fuel : Nat) (targets : List String) (forwardDependencies : List (String × String))
        (output : List String),
        (∀ t ∈ targets, hasKey forwardDependencies t = true) →
        orderLoop (reverseDependenciesOf FastbuildTargets) (fuel + 1) targets
          forwardDependencies output = some (output ++ targets)) ∧
      ((∀ Target ∈ FastbuildTargets, Target.Dependencies ≠ []) →
        ∀ fuel, orderedTargets (fuel + 1) FastbuildTargets =
          some (targetNames FastbuildTargets)) := by
  have part1 : ∀ (fuel : Nat) (targets : List String)
      (forwardDependencies : List (String × String)) (output : List String),
      (∀ t ∈ targets, hasKey forwardDependencies t = true) →
      orderLoop (reverseDependenciesOf FastbuildTargets) (fuel + 1) targets
        forwardDependencies output = some (output ++ targets) := by
    intro fuel targets fwd out hall
    cases targets with
    | nil => rw [orderLoop_nil]; simp
    | cons t ts =>
      rw [orderLoop, scanPass_stuck _ _ _ _ hall]
      simp only [if_true]
      rw [orderLoop_nil]
  refine ⟨part1, ?_⟩
  intro hdeps fuel
  unfold orderedTargets
  rw [part1]
  · simp
  · intro t ht
    obtain ⟨Target, hT, rfl⟩ : ∃ Target ∈ FastbuildTargets, Target.Name = t := by
      simpa [targetNames] using ht
    exact hasKey_forwardDependenciesOf FastbuildTargets Target hT (hdeps Target hT)

theorem chainTable_acyclic : ∀ x, ¬ Relation.TransGen (DependsOn chainTable) x x := by
  apply acyclic_of_rank _ chainRank
  rintro a b ⟨u, hu, rfl, hb⟩
  simp only [chainTable, List.mem_cons, List.mem_singleton, List.not_mem_nil, or_false] at hu
  rcases hu with rfl | rfl | rfl
  · have : b = "C" := by simpa using hb
    subst this; decide
  · simp at hb
  · have : b = "B" := by simpa using hb
    subst this; decide

/-- Witness of C1 on `chainTable`. -/
theorem orderedTargets_dependencies_first_witness :
    (∀ Target ∈ chainTable, ∀ d ∈ Target.Dependencies, d ∈ targetNames chainTable) ∧
    (∀ x, ¬ Relation.TransGen (DependsOn chainTable) x x) ∧
    ∃ ordered,
      (∀ fuel, chainTable.length ≤ fuel → orderedTargets fuel chainTable = some ordered) ∧
      ∀ Target ∈ chainTable, ∀ d ∈ Target.Dependencies,
        Target.Name ∈ ordered ∧
          ∀ pre post, ordered = pre ++ Target.Name :: post → d ∈ pre :=
  ⟨by decide, chainTable_acyclic,
    orderedTargets_dependencies_first chainTable (by decide) chainTable_acyclic⟩

/-- Witness of C2 on the cyclic table `cycleTable`. -/
theorem orderedTargets_permutation_witness :
    (targetNames cycleTable).Nodup ∧
    ∃ ordered,
      (∀ fuel, cycleTable.length ≤ fuel → orderedTargets fuel cycleTable = some ordered) ∧
      ordered.Perm (targetNames cycleTable) ∧
      ∀ Target ∈ cycleTable, ordered.count Target.Name = 1 :=
  ⟨by decide, orderedTargets_permutation cycleTable (by decide)⟩

/-- Witness of C4 on the cyclic table `cycleTable`. -/
theorem orderedTargets_flush_witness :
    (∀ Target ∈ cycleTable, Target.Dependencies ≠ []) ∧
    orderedTargets 1 cycleTable = some ["A", "B", "C"] ∧
    orderLoop (reverseDependenciesOf cycleTable) 1 ["C", "A"]
      [("C", "A"), ("A", "B")] ["B"] = some (["B"] ++ ["C", "A"]) :=
  ⟨by decide, (orderedTargets_flush cycleTable).2 (by decide) 0,
    (orderedTargets_flush cycleTable).1 0 ["C", "A"] [("C", "A"), ("A", "B")] ["B"]
      (by decide)⟩

/-! ## SortByDependencies -/

section SortLemmas

variable {α : Type} [DecidableEq α]

theorem sortLoop_nil (rev : List (α × α)) (fuel : Nat) (fwd : List (α × α)) (out : List α) :
    sortLoop rev fuel [] fwd out = some out := by
  cases fuel <;> rfl

/-- When every remaining item has a forward entry, the loop of
`SortByDependencies` repeats the same scan for ever. -/
theorem sortLoop_stuck (rev : List (α × α)) (fuel : Nat) (t : α) (ts : List α)
    (fwd : List (α × α)) (out : List α) (h : ∀ x ∈ t :: ts, hasKey fwd x = true) :
    sortLoop rev fuel (t :: ts) fwd out = none := by
  induction fuel with
  | zero => rfl
  | succ n ih =>
    rw [sortLoop, scanPass_stuck rev (t :: ts) fwd out h]
    exact ih

end SortLemmas

/-- C3: on the 3-cycle `A` to `B` to `C` to `A` the loop of `SortByDependencies`
has not exited after any number of iterations: the sorter does not terminate
and leaves no permutation in `source`. -/
theorem SortByDependencies_cycle_never_exits :
    ∀ fuel, SortByDependencies fuel ["A", "B", "C"]
      [("A", "B"), ("B", "C"), ("C", "A")] = none := by
  intro fuel
  unfold SortByDependencies
  exact sortLoop_stuck _ fuel "A" ["B", "C"] _ [] (by decide)

/-- C5: `SortByDependencies` applied to `[C, B, A]` with the edges `C` to `B`
and `B` to `A` exits after three scans and leaves `[A, B, C]` in `source`,
whatever further fuel is given. -/
theorem SortByDependencies_chain :
    ∀ fuel, SortByDependencies (fuel + 3) ["C", "B", "A"] [("C", "B"), ("B", "A")] =
      some ["A", "B", "C"] := by
  intro fuel
  have h : SortByDependencies (fuel + 3) ["C", "B", "A"] [("C", "B"), ("B", "A")] =
      sortLoop (reverseOf [("C", "B"), ("B", "A")]) fuel [] [] ["A", "B", "C"] := by
    rfl
  rw [h, sortLoop_nil]

section SortCycle

variable {α : Type} [DecidableEq α]

/-- A scan never erases an item of a set `S` whose members all have a
prerequisite in `S`, and it keeps every edge pointing into `S`. -/
theorem scanPass_blocked (deps rev : List (α × α)) (S : α → Prop)
    (hS : ∀ y, S y → ∃ z, S z ∧ (y, z) ∈ deps)
    (ts : List α) (fwd : List (α × α)) (out : List α)
    (hfwd : ∀ e ∈ deps, S e.2 → e ∈ fwd) :
    (∀ x ∈ ts, S x → x ∈ (scanPass rev ts fwd out).targets) ∧
      ∀ e ∈ deps, S e.2 → e ∈ (scanPass rev ts fwd out).forwardDependencies := by
  induction ts generalizing fwd out with
  | nil =>
    exact ⟨fun x hx => absurd hx (List.not_mem_nil x), hfwd⟩
  | cons t ts ih =>
    unfold scanPass
    split
    · obtain ⟨h1, h2⟩ := ih fwd out hfwd
      refine ⟨?_, h2⟩
      intro x hx hSx
      rcases List.mem_cons.mp hx with rfl | hx
      · exact List.mem_cons_self _ _
      · exact List.mem_cons_of_mem _ (h1 x hx hSx)
    · rename_i hk
      have hnot : ¬ S t := by
        intro hSt
        obtain ⟨z, hSz, hz⟩ := hS t hSt
        exact hk ((hasKey_iff fwd t).mpr ⟨z, hfwd (t, z) hz hSz⟩)
      obtain ⟨h1, h2⟩ := ih (eraseDependents rev fwd t) (out ++ [t]) (by
        intro e he hSe
        rw [mem_eraseDependents]
        exact ⟨hfwd e he hSe, fun h => hnot (h.1 ▸ hSe)⟩)
      refine ⟨?_, h2⟩
      intro x hx hSx
      rcases List.mem_cons.mp hx with rfl | hx
      · exact absurd hSx hnot
      · exact h1 x hx hSx

theorem sortLoop_blocked (deps rev : List (α × α)) (S : α → Prop)
    (hS : ∀ y, S y → ∃ z, S z ∧ (y, z) ∈ deps) (fuel : Nat)
    (ts : List α) (fwd : List (α × α)) (out : List α)
    (hts : ∃ x ∈ ts, S x) (hfwd : ∀ e ∈ deps, S e.2 → e ∈ fwd) :
    sortLoop rev fuel ts fwd out = none := by
  induction fuel generalizing ts fwd out with
  | zero =>
    cases ts with
    | nil => obtain ⟨x, hx, _⟩ := hts; cases hx
    | cons t ts => rfl
  | succ n ih =>
    cases ts with
    | nil => obtain ⟨x, hx, _⟩ := hts; cases hx
    | cons t ts =>
      rw [sortLoop]
      obtain ⟨h1, h2⟩ := scanPass_blocked deps rev S hS (t :: ts) fwd out hfwd
      obtain ⟨x, hx, hSx⟩ := hts
      exact ih _ _ _ ⟨x, h1 x hx hSx, hSx⟩ h2

/-- Whenever an item of `source` lies on a cycle of `dependencies`, the loop of
`SortByDependencies` has not exited after any number of iterations. -/
theorem SortByDependencies_none_of_cycle (source : List α) (dependencies : List (α × α))
    (x : α) (hx : x ∈ source)
    (hcycle : Relation.TransGen (fun a b => (a, b) ∈ dependencies) x x) :
    ∀ fuel, SortByDependencies fuel source dependencies = none := by
  intro fuel
  unfold SortByDependencies
  apply sortLoop_blocked dependencies (reverseOf dependencies)
    (fun y => Relation.TransGen (fun a b => (a, b) ∈ dependencies) x y ∧
      Relation.TransGen (fun a b => (a, b) ∈ dependencies) y x)
  · rintro y ⟨hxy, hyx⟩
    obtain ⟨z, hyz, hzx⟩ := Relation.TransGen.head'_iff.mp hyx
    refine ⟨z, ⟨hxy.tail hyz, ?_⟩, hyz⟩
    rcases Relation.reflTransGen_iff_eq_or_transGen.mp hzx with h | h
    · rw [← h]; exact hcycle
    · exact h
  · exact ⟨x, hx, hcycle, hcycle⟩
  · intro e he _
    exact he

end SortCycle

/-! ## Custom-command de-duplication -/

theorem dedupExecNodes_snd (seen : List String) (l : List FastbuildExecNode) :
    (dedupExecNodes seen l).2 = (firstOccurrenceByName l).filter (fun m => m.Name ∉ seen) := by
  induction l generalizing seen with
  | nil => rfl
  | cons n rest ih =>
    unfold dedupExecNodes
    split
    · rename_i hmem
      rw [ih, firstOccurrenceByName, List.filter_cons_of_neg (by simpa using hmem),
        List.filter_filter]
      apply List.filter_congr
      intro m _
      by_cases hm : m.Name ∈ seen
      · simp [hm]
      · have : m.Name ≠ n.Name := fun h => hm (h ▸ hmem)
        simp [hm, this]
    · rename_i hmem
      simp only
      rw [ih, firstOccurrenceByName, List.filter_cons_of_pos (by simpa using hmem),
        List.filter_filter]
      congr 1
      apply List.filter_congr
      intro m _
      by_cases h1 : m.Name = n.Name <;> by_cases h2 : m.Name ∈ seen <;> simp [h1, h2]

theorem mem_dedupExecNodes_fst (seen : List String) (l : List FastbuildExecNode) (x : String) :
    x ∈ (dedupExecNodes seen l).1 ↔ x ∈ seen ∨ x ∈ l.map (fun m => m.Name) := by
  induction l generalizing seen with
  | nil => simp [dedupExecNodes]
  | cons n rest ih =>
    unfold dedupExecNodes
    split
    · rename_i hmem
      rw [ih]
      simp only [List.map_cons, List.mem_cons]
      constructor
      · rintro (h | h)
        · exact Or.inl h
        · exact Or.inr (Or.inr h)
      · rintro (h | h | h)
        · exact Or.inl h
        · exact Or.inl (h ▸ hmem)
        · exact Or.inr h
    · simp only
      rw [ih]
      simp only [List.map_cons, List.mem_cons]
      tauto

theorem firstOccurrenceByName_append (l1 l2 : List FastbuildExecNode) :
    firstOccurrenceByName (l1 ++ l2) =
      firstOccurrenceByName l1 ++
        (firstOccurrenceByName l2).filter (fun m => m.Name ∉ l1.map (fun k => k.Name)) := by
  induction l1 with
  | nil => simp [firstOccurrenceByName]
  | cons n l1 ih =>
    rw [List.cons_append, firstOccurrenceByName, ih, List.filter_append, List.filter_filter,
      firstOccurrenceByName, List.cons_append]
    congr 2
    apply List.filter_congr
    intro m _
    by_cases h1 : m.Name = n.Name <;>
      by_cases h2 : m.Name ∈ l1.map (fun k => k.Name) <;> simp [h1, h2]

theorem firstOccurrenceByName_sublist (l : List FastbuildExecNode) :
    (firstOccurrenceByName l).Sublist l := by
  induction l with
  | nil => exact List.Sublist.slnil
  | cons n rest ih =>
    rw [firstOccurrenceByName]
    exact List.Sublist.cons₂ n ((List.filter_sublist _).trans ih)

theorem firstOccurrenceByName_nodup (l : List FastbuildExecNode) :
    ((firstOccurrenceByName l).map (fun m => m.Name)).Nodup := by
  induction l with
  | nil => simp [firstOccurrenceByName]
  | cons n rest ih =>
    rw [firstOccurrenceByName, List.map_cons, List.nodup_cons]
    constructor
    · intro h
      obtain ⟨m, hm, hname⟩ := List.mem_map.mp h
      have := (List.mem_filter.mp hm).2
      simp [hname] at this
    · exact ih.sublist ((List.filter_sublist _).map _)

theorem mem_firstOccurrenceByName (l : List FastbuildExecNode) (n : FastbuildExecNode) :
    n ∈ firstOccurrenceByName l ↔ l.find? (fun m => m.Name == n.Name) = some n := by
  induction l with
  | nil => simp [firstOccurrenceByName]
  | cons a rest ih =>
    rw [firstOccurrenceByName, List.mem_cons, List.mem_filter, ih]
    by_cases h : a.Name = n.Name
    · rw [List.find?_cons_of_pos _ (by simpa using h)]
      constructor
      · rintro (rfl | ⟨_, h2⟩)
        · rfl
        · simp [h] at h2
      · intro h2
        exact Or.inl (Option.some.inj h2).symm
    · rw [List.find?_cons_of_neg _ (by simpa using h)]
      constructor
      · rintro (rfl | ⟨h2, _⟩)
        · exact absurd rfl h
        · exact h2
      · intro h2
        exact Or.inr ⟨h2, by simpa using fun h3 => h h3.symm⟩

theorem emittedExecNodes_dedupCustomCommands (seen : List String) (units : List FastbuildTarget) :
    emittedExecNodes (dedupCustomCommands seen units) =
      (firstOccurrenceByName (emittedExecNodes units)).filter (fun m => m.Name ∉ seen) := by
  induction units generalizing seen with
  | nil => rfl
  | cons U rest ih =>
    have h1 : emittedExecNodes (U :: rest) = U.ExecNodes ++ emittedExecNodes rest := by
      simp [emittedExecNodes]
    have h2 : emittedExecNodes (dedupCustomCommands seen (U :: rest)) =
        (dedupExecNodes seen U.ExecNodes).2 ++
          emittedExecNodes (dedupCustomCommands (dedupExecNodes seen U.ExecNodes).1 rest) := by
      simp [emittedExecNodes, dedupCustomCommands]
    rw [h2, h1, ih, dedupExecNodes_snd, firstOccurrenceByName_append, List.filter_append,
      List.filter_filter]
    congr 1
    apply List.filter_congr
    intro m _
    have := mem_dedupExecNodes_fst seen U.ExecNodes m.Name
    by_cases hs : m.Name ∈ seen <;> by_cases hu : m.Name ∈ U.ExecNodes.map (fun k => k.Name) <;>
      simp [this, hs, hu]

theorem dedupCustomCommands_units (seen : List String) (units : List FastbuildTarget) :
    List.Forall₂ (fun U V => V.ExecNodes.Sublist U.ExecNodes ∧
      V = { U with ExecNodes := V.ExecNodes }) units (dedupCustomCommands seen units) := by
  induction units generalizing seen with
  | nil => exact List.Forall₂.nil
  | cons U rest ih =>
    rw [dedupCustomCommands]
    refine List.Forall₂.cons ⟨?_, rfl⟩ (ih _)
    simp only
    rw [dedupExecNodes_snd]
    exact (List.filter_sublist _).trans (firstOccurrenceByName_sublist _)

/-- C6: after the de-duplication pass over the units in emission order, the
names of the command steps left in the units' `ExecNodes` lists are pairwise
distinct; the steps left are exactly the first occurrence of each name in
emission order, in their original relative order; a step is left exactly when
it is the first step bearing its name; and each unit only loses steps of its
own `ExecNodes` list, nothing else of the unit changing. -/
theorem dedupCustomCommands_first_occurrence (units : List FastbuildTarget) :
    ((emittedExecNodes (dedupCustomCommands [] units)).map (fun m => m.Name)).Nodup ∧
    emittedExecNodes (dedupCustomCommands [] units) =
      firstOccurrenceByName (emittedExecNodes units) ∧
    (emittedExecNodes (dedupCustomCommands [] units)).Sublist (emittedExecNodes units) ∧
    (∀ n, n ∈ emittedExecNodes (dedupCustomCommands [] units) ↔
      (emittedExecNodes units).find? (fun m => m.Name == n.Name) = some n) ∧
    List.Forall₂ (fun U V => V.ExecNodes.Sublist U.ExecNodes ∧
      V = { U with ExecNodes := V.ExecNodes }) units (dedupCustomCommands [] units) := by
  have h : emittedExecNodes (dedupCustomCommands [] units) =
      firstOccurrenceByName (emittedExecNodes units) := by
    rw [emittedExecNodes_dedupCustomCommands]
    simp
  rw [h]
  exact ⟨firstOccurrenceByName_nodup _, rfl, firstOccurrenceByName_sublist _,
    fun n => mem_firstOccurrenceByName _ n, dedupCustomCommands_units [] units⟩

/-- C9, as the code behaves: on `collisionUnits` the pass keeps the step of
`T1` and erases the step of `T2`, which has the same name and another
executable and output. -/
theorem dedupCustomCommands_absorbs_collision :
    dedupCustomCommands [] collisionUnits =
      [{ Name := "T1"
         ExecNodes :=
           [{ Name := "cc-0123456", ExecExecutable := "gen-a.sh", ExecOutput := "a.txt" }] },
       { Name := "T2", ExecNodes := [] }] ∧
    ({ Name := "cc-0123456", ExecExecutable := "gen-b.sh", ExecOutput := "b.txt" } :
      FastbuildExecNode) ∈ emittedExecNodes collisionUnits ∧
    ({ Name := "cc-0123456", ExecExecutable := "gen-b.sh", ExecOutput := "b.txt" } :
      FastbuildExecNode) ∉ emittedExecNodes (dedupCustomCommands [] collisionUnits) := by
  decide

/-- C9, amended: the pass compares names only. When a step is the first one
bearing its name in emission order, it is kept, and every later step with
that name and a different content is erased as its duplicate. -/
theorem dedupCustomCommands_name_only (units : List FastbuildTarget)
    (pre post : List FastbuildExecNode) (first later : FastbuildExecNode)
    (hsplit : emittedExecNodes units = pre ++ first :: post)
    (hfirst : first.Name ∉ pre.map (fun m => m.Name))
    (_hlater : later ∈ post) (hname : later.Name = first.Name) (hcontent : later ≠ first) :
    first ∈ emittedExecNodes (dedupCustomCommands [] units) ∧
      later ∉ emittedExecNodes (dedupCustomCommands [] units) := by
  have h : emittedExecNodes (dedupCustomCommands [] units) =
      firstOccurrenceByName (emittedExecNodes units) := by
    rw [emittedExecNodes_dedupCustomCommands]
    simp
  have hfind : ∀ n : FastbuildExecNode, n.Name = first.Name →
      (emittedExecNodes units).find? (fun m => m.Name == n.Name) = some first := by
    intro n hn
    rw [hsplit, List.find?_append, hn]
    have hpre : pre.find? (fun m => m.Name == first.Name) = none := by
      rw [List.find?_eq_none]
      intro m hm hmn
      exact hfirst (List.mem_map.mpr ⟨m, hm, by simpa using hmn⟩)
    rw [hpre]
    simp
  rw [h, mem_firstOccurrenceByName, mem_firstOccurrenceByName, hfind first rfl,
    hfind later hname]
  exact ⟨rfl, fun h2 => hcontent (Option.some.inj h2).symm⟩

/-- Witness of the amended C9 on `collisionUnits`. -/
theorem dedupCustomCommands_name_only_witness :
    ({ Name := "cc-0123456", ExecExecutable := "gen-a.sh", ExecOutput := "a.txt" } :
      FastbuildExecNode) ∈ emittedExecNodes (dedupCustomCommands [] collisionUnits) ∧
    ({ Name := "cc-0123456", ExecExecutable := "gen-b.sh", ExecOutput := "b.txt" } :
      FastbuildExecNode) ∉ emittedExecNodes (dedupCustomCommands [] collisionUnits) :=
  dedupCustomCommands_name_only collisionUnits []
    [{ Name := "cc-0123456", ExecExecutable := "gen-b.sh", ExecOutput := "b.txt" }]
    { Name := "cc-0123456", ExecExecutable := "gen-a.sh", ExecOutput := "a.txt" }
    { Name := "cc-0123456", ExecExecutable := "gen-b.sh", ExecOutput := "b.txt" }
    (by decide) (by decide) (by decide) (by decide) (by decide)

/-! ## GetCustomCommandTargetName -/

theorem string_append_left_cancel (a b c : String) (h : a ++ b = a ++ c) : b = c := by
  have h2 := congrArg String.data h
  simp only [String.data_append] at h2
  exact String.ext (List.append_cancel_left h2)

theorem string_append_right_cancel (a b c : String) (h : a ++ c = b ++ c) : a = b := by
  have h2 := congrArg String.data h
  simp only [String.data_append] at h2
  exact String.ext (List.append_cancel_right h2)

/-- The string appended to the disambiguator for a list of converted paths. -/
theorem foldl_extras_eq (conv : String → String) (l : List String) (extra : String) :
    l.foldl (fun extras output => extras ++ ("-" ++ conv output)) extra =
      extra ++ l.foldl (fun extras output => extras ++ ("-" ++ conv output)) "" := by
  induction l generalizing extra with
  | nil => simp
  | cons x l ih =>
    rw [List.foldl_cons, ih, List.foldl_cons, ih ("" ++ ("-" ++ conv x))]
    simp [String.append_assoc]

theorem customCommandExtras_eq_map (env : Collaborators) (cc : cmCustomCommand)
    (extra : String) :
    customCommandExtras env cc extra =
      ((cc.Outputs ++ cc.Byproducts).map env.ConvertToFastbuildPath).foldl
        (fun extras path => extras ++ ("-" ++ path)) extra := by
  unfold customCommandExtras
  rw [List.foldl_map]

theorem char_finite : Finite Char := by
  apply Finite.of_injective (fun c : Char => c.val.val)
  intro a b h
  exact Char.ext (UInt32.ext (congrArg Fin.val h))

theorem substr7_length (s : String) : (substr7 s).data.length ≤ 7 := by
  simp [substr7]

/-- Every map from strings to seven-character truncations sends two
different strings to the same value. -/
theorem substr7_collision (f : String → String) :
    ∃ p q : String, p ≠ q ∧ substr7 (f p) = substr7 (f q) := by
  haveI := char_finite
  haveI : Finite {l : List Char // l.length ≤ 7} := (List.finite_length_le Char 7).to_subtype
  obtain ⟨p, q, hne, heq⟩ := Finite.exists_ne_map_eq_of_infinite
    (fun p : String => (⟨(substr7 (f p)).data, substr7_length (f p)⟩ :
      {l : List Char // l.length ≤ 7}))
  exact ⟨p, q, hne, String.ext (congrArg Subtype.val heq)⟩

/-- C8, as the code behaves: whatever the digest and the path converter are,
some command with a single output and some different replacement path get
the same identity string. -/
theorem GetCustomCommandTargetName_collision :
    ¬ ∃ env : Collaborators, ∀ (cc : cmCustomCommand) (extra : String) (i : Nat)
        (path : String), i < cc.Outputs.length → cc.Outputs[i]? ≠ some path →
        GetCustomCommandTargetName env { cc with Outputs := cc.Outputs.set i path } extra ≠
          GetCustomCommandTargetName env cc extra := by
  rintro ⟨env, hclaim⟩
  obtain ⟨p, q, hne, heq⟩ := substr7_collision
    (fun p => env.HashString (customCommandExtras env { Outputs := [p] } ""))
  apply hclaim { Outputs := [p] } "" 0 q (by simp) (by simpa using hne)
  simp only [GetCustomCommandTargetName, List.set_cons_zero]
  rw [heq]

/-- The same holds for paths that stay different after conversion, whenever
the path converter takes infinitely many values. -/
theorem GetCustomCommandTargetName_collision_converted (env : Collaborators)
    (hrange : (Set.range env.ConvertToFastbuildPath).Infinite) :
    ∃ p q : String, env.ConvertToFastbuildPath p ≠ env.ConvertToFastbuildPath q ∧
      GetCustomCommandTargetName env { Outputs := [p] } "" =
        GetCustomCommandTargetName env { Outputs := [q] } "" := by
  haveI := char_finite
  haveI : Finite {l : List Char // l.length ≤ 7} := (List.finite_length_le Char 7).to_subtype
  haveI : Infinite (Set.range env.ConvertToFastbuildPath) := hrange.to_subtype
  obtain ⟨⟨y1, p, hp⟩, ⟨y2, q, hq⟩, hne, heq⟩ := Finite.exists_ne_map_eq_of_infinite
    (fun y : Set.range env.ConvertToFastbuildPath =>
      (⟨(substr7 (env.HashString ("" ++ ("-" ++ y.1)))).data, substr7_length _⟩ :
        {l : List Char // l.length ≤ 7}))
  refine ⟨p, q, ?_, ?_⟩
  · intro h
    apply hne
    apply Subtype.ext
    simp only
    rw [← hp, ← hq, h]
  · have h2 : substr7 (env.HashString ("" ++ ("-" ++ y1))) =
        substr7 (env.HashString ("" ++ ("-" ++ y2))) := String.ext (congrArg Subtype.val heq)
    simp only [GetCustomCommandTargetName, customCommandExtras, List.append_nil,
      List.foldl_cons, List.foldl_nil]
    rw [hp, hq, h2]

theorem customCommandExtras_split (env : Collaborators) (A B : List String) (x : String)
    (byproducts : List String) (deps : List String) (cmds : List (List String))
    (wd extra : String) :
    customCommandExtras env
        { Outputs := A ++ x :: B, Byproducts := byproducts, Depends := deps,
          CommandLines := cmds, WorkingDirectory := wd } extra =
      (A.foldl (fun extras output => extras ++ ("-" ++ env.ConvertToFastbuildPath output)) extra
        ++ ("-" ++ env.ConvertToFastbuildPath x)) ++
        (B ++ byproducts).foldl
          (fun extras output => extras ++ ("-" ++ env.ConvertToFastbuildPath output)) "" := by
  unfold customCommandExtras
  rw [List.append_assoc, List.foldl_append, List.cons_append, List.foldl_cons, foldl_extras_eq]

/-- C8, amended: replacing one output path by a path whose converted form
differs changes the string that is hashed, and the identity string changes
exactly when the first seven characters of the two digests differ. -/
theorem GetCustomCommandTargetName_replace_output (env : Collaborators)
    (cc : cmCustomCommand) (extra : String) (i : Nat) (path : String)
    (hi : i < cc.Outputs.length)
    (hpath : env.ConvertToFastbuildPath path ≠ env.ConvertToFastbuildPath (cc.Outputs.get ⟨i, hi⟩)) :
    customCommandExtras env { cc with Outputs := cc.Outputs.set i path } extra ≠
        customCommandExtras env cc extra ∧
      (GetCustomCommandTargetName env { cc with Outputs := cc.Outputs.set i path } extra ≠
          GetCustomCommandTargetName env cc extra ↔
        substr7 (env.HashString
            (customCommandExtras env { cc with Outputs := cc.Outputs.set i path } extra)) ≠
          substr7 (env.HashString (customCommandExtras env cc extra))) := by
  constructor
  · obtain ⟨outs, byp, deps, cmds, wd⟩ := cc
    simp only at hi hpath ⊢
    have hset : outs.set i path = outs.take i ++ path :: outs.drop (i + 1) := by
      rw [List.set_eq_take_append_cons_drop, if_pos hi]
    have hget : outs = outs.take i ++ outs.get ⟨i, hi⟩ :: outs.drop (i + 1) := by
      conv_lhs => rw [← List.take_append_drop i outs]
      rw [List.drop_eq_getElem_cons hi]
      rfl
    intro heq
    rw [hset] at heq
    conv_rhs at heq => rw [hget]
    rw [customCommandExtras_split, customCommandExtras_split] at heq
    have h1 := string_append_right_cancel _ _ _ heq
    have h2 := string_append_left_cancel _ _ _ h1
    exact hpath (string_append_left_cancel _ _ _ h2)
  · unfold GetCustomCommandTargetName
    constructor
    · intro h h2
      exact h (by rw [h2])
    · intro h h2
      exact h (string_append_left_cancel _ _ _ (string_append_left_cancel _ _ _ h2))


/-- Witness of the amended C8: the second output of `commandGenB` replaced. -/
theorem GetCustomCommandTargetName_replace_output_witness :
    customCommandExtras plainCollaborators
        { commandGenB with Outputs := commandGenB.Outputs.set 1 "out/b.h" } "" ≠
      customCommandExtras plainCollaborators commandGenB "" ∧
    (GetCustomCommandTargetName plainCollaborators
        { commandGenB with Outputs := commandGenB.Outputs.set 1 "out/b.h" } "" ≠
        GetCustomCommandTargetName plainCollaborators commandGenB "" ↔
      substr7 (plainCollaborators.HashString (customCommandExtras plainCollaborators
          { commandGenB with Outputs := commandGenB.Outputs.set 1 "out/b.h" } "")) ≠
        substr7 (plainCollaborators.HashString
          (customCommandExtras plainCollaborators commandGenB ""))) :=
  GetCustomCommandTargetName_replace_output plainCollaborators commandGenB "" 1 "out/b.h"
    (by decide) (by decide)

/-! ## Object-dependency resolution -/

theorem foldl_outputs_apply (name : String) (outs : List String) (m : String → Option String)
    (key : String) :
    (outs.foldl (fun m output => fun key => if key = output then some name else m key) m) key =
      if key ∈ outs then some name else m key := by
  induction outs generalizing m with
  | nil => simp
  | cons o outs ih =>
    rw [List.foldl_cons, ih]
    by_cases h1 : key ∈ outs
    · simp [h1]
    · by_cases h2 : key = o <;> simp [h1, h2]

theorem foldl_nodes_apply (name : String) (nodes : List FastbuildObjectListNode)
    (m : String → Option String) (key : String) :
    (nodes.foldl (fun m node =>
      node.ObjectOutputs.foldl (fun m output => fun key => if key = output then some name else m key)
        m) m) key =
      if nodes.any (fun node => decide (key ∈ node.ObjectOutputs)) then some name else m key := by
  induction nodes generalizing m with
  | nil => simp
  | cons n nodes ih =>
    rw [List.foldl_cons, ih, foldl_outputs_apply]
    by_cases h1 : nodes.any (fun node => decide (key ∈ node.ObjectOutputs)) = true
    · simp [h1]
    · by_cases h2 : key ∈ n.ObjectOutputs <;> simp [h1, h2]

theorem foldl_targets_apply (T : List FastbuildTarget) (m : String → Option String)
    (key : String) :
    (T.foldl (fun m Target =>
      Target.ObjectListNodes.foldl (fun m node =>
        node.ObjectOutputs.foldl (fun m output =>
          fun key => if key = output then some Target.Name else m key) m) m) m) key =
      match T.reverse.find? (fun Target => declaresObjectOutput Target key) with
      | some owner => some owner.Name
      | none => m key := by
  induction T generalizing m with
  | nil => simp
  | cons X T ih =>
    rw [List.foldl_cons, ih, List.reverse_cons, List.find?_append]
    cases hfind : T.reverse.find? (fun Target => declaresObjectOutput Target key) with
    | some owner => simp
    | none =>
      simp only [Option.none_or]
      rw [foldl_nodes_apply]
      by_cases hX : declaresObjectOutput X key = true
      · have hX2 := hX
        unfold declaresObjectOutput at hX2
        simp [List.find?, hX, hX2]
      · have hX2 := hX
        unfold declaresObjectOutput at hX2
        simp [List.find?, hX, hX2]

/-- The output index resolves a path to the last unit, in table order, that
declares it as an object output. -/
theorem objectOutputsOf_eq (T : List FastbuildTarget) (key : String) :
    objectOutputsOf T key =
      (T.reverse.find? (fun Target => declaresObjectOutput Target key)).map
        (fun owner => owner.Name) := by
  unfold objectOutputsOf
  rw [foldl_targets_apply]
  cases T.reverse.find? (fun Target => declaresObjectOutput Target key) <;> rfl

theorem objectOutputsOf_eq_none (T : List FastbuildTarget) (key : String) :
    objectOutputsOf T key = none ↔ ∀ Target ∈ T, declaresObjectOutput Target key = false := by
  rw [objectOutputsOf_eq, Option.map_eq_none', List.find?_eq_none]
  simp

theorem objectOutputsOf_eq_some (T : List FastbuildTarget) (key name : String)
    (h : objectOutputsOf T key = some name) :
    ∃ owner ∈ T, owner.Name = name ∧ declaresObjectOutput owner key = true := by
  rw [objectOutputsOf_eq, Option.map_eq_some'] at h
  obtain ⟨owner, hfind, hname⟩ := h
  exact ⟨owner, by simpa using List.mem_of_find?_eq_some hfind, hname,
    @List.find?_some _ (fun Target => declaresObjectOutput Target key) _ _ hfind⟩

theorem resolveObjectDependencies_snd (oo : String → Option String) (l : List String) :
    (resolveObjectDependencies oo l).2 = l.filter (fun path => (oo path).isNone) := by
  induction l with
  | nil => rfl
  | cons d rest ih =>
    unfold resolveObjectDependencies
    cases h : oo d <;> simp [h, ih]

theorem resolveObjectDependencies_fst (oo : String → Option String) (l : List String) :
    (resolveObjectDependencies oo l).1 = l.filterMap oo := by
  induction l with
  | nil => rfl
  | cons d rest ih =>
    unfold resolveObjectDependencies
    cases h : oo d <;> simp [h, ih]

/-- C10: after the object-dependency resolution pass, the table has the same
units and each unit the same compile batches, in order; the
`ObjectDependencies` left in a batch are the declared paths that no unit
declares as an `ObjectOutputs` entry, in their original order, none of them
resolved by the output index; and for every declared path that some unit
declares as an output, the unit that the index gives for it declares it and
has been pushed on the `Dependencies` of the batch's unit, behind the
dependencies the unit already had. -/
theorem addObjectDependencies_resolved (env : Collaborators)
    (FastbuildTargets : List FastbuildTarget) :
    List.Forall₂ (fun Target Resolved =>
      Resolved.Name = Target.Name ∧
      Target.Dependencies <+: Resolved.Dependencies ∧
      List.Forall₂ (fun node resolved =>
        resolved.ObjectDependencies = node.ObjectDependencies.filter
          (fun path => !FastbuildTargets.any (fun Owner => declaresObjectOutput Owner path)) ∧
        (∀ path ∈ resolved.ObjectDependencies, objectOutputsOf FastbuildTargets path = none) ∧
        (∀ path ∈ node.ObjectDependencies,
          (∃ Owner ∈ FastbuildTargets, declaresObjectOutput Owner path = true) →
          path ∉ resolved.ObjectDependencies ∧
          ∃ Owner ∈ FastbuildTargets, declaresObjectOutput Owner path = true ∧
            objectOutputsOf FastbuildTargets path = some Owner.Name ∧
            Owner.Name ∈ Resolved.Dependencies))
        Target.ObjectListNodes Resolved.ObjectListNodes)
      FastbuildTargets (addObjectDependencies env FastbuildTargets) := by
  unfold addObjectDependencies
  rw [List.forall₂_map_right_iff, List.forall₂_same]
  intro Target _
  refine ⟨rfl, ⟨_, rfl⟩, ?_⟩
  simp only [resolveTarget, List.map_map]
  rw [List.forall₂_map_right_iff, List.forall₂_same]
  intro node hnode
  have hfilter : (resolveNode env (objectOutputsOf FastbuildTargets) node).node.ObjectDependencies =
      node.ObjectDependencies.filter
        (fun path => !FastbuildTargets.any (fun Owner => declaresObjectOutput Owner path)) := by
    simp only [resolveNode, resolveObjectDependencies_snd]
    apply List.filter_congr
    intro path _
    by_cases h : objectOutputsOf FastbuildTargets path = none
    · have h2 := (objectOutputsOf_eq_none FastbuildTargets path).mp h
      have h3 : FastbuildTargets.any (fun Owner => declaresObjectOutput Owner path) = false := by
        simpa using h2
      simp [h, h3]
    · have h2 : ¬ ∀ Target ∈ FastbuildTargets, declaresObjectOutput Target path = false :=
        fun h3 => h ((objectOutputsOf_eq_none FastbuildTargets path).mpr h3)
      have h3 : FastbuildTargets.any (fun Owner => declaresObjectOutput Owner path) = true := by
        simpa using h2
      obtain ⟨x, hx⟩ := Option.ne_none_iff_exists'.mp h
      simp [hx, h3]
  refine ⟨hfilter, ?_, ?_⟩
  · simp only [Function.comp, resolveNode, resolveObjectDependencies_snd]
    intro path hpath
    have := (List.mem_filter.mp hpath).2
    simpa using this
  · intro path hpath ⟨Owner, hOwner, hdecl⟩
    have hsome : objectOutputsOf FastbuildTargets path ≠ none := by
      intro h
      have := (objectOutputsOf_eq_none FastbuildTargets path).mp h Owner hOwner
      rw [hdecl] at this
      cases this
    obtain ⟨name, hname⟩ := Option.ne_none_iff_exists'.mp hsome
    obtain ⟨X, hX, hXname, hXdecl⟩ := objectOutputsOf_eq_some FastbuildTargets path name hname
    refine ⟨?_, X, hX, hXdecl, by rw [hname, hXname], ?_⟩
    · simp only [Function.comp, resolveNode, resolveObjectDependencies_snd]
      intro hmem
      have := (List.mem_filter.mp hmem).2
      rw [hname] at this
      simp at this
    · apply List.mem_append_right
      rw [List.mem_flatMap]
      refine ⟨resolveNode env (objectOutputsOf FastbuildTargets) node,
        List.mem_map.mpr ⟨node, hnode, rfl⟩, ?_⟩
      simp only [resolveNode, resolveObjectDependencies_fst]
      rw [List.mem_filterMap]
      exact ⟨path, hpath, by rw [hname, hXname]⟩


/-- Witness of C10 on `objectTable`: the pass evaluated, and the theorem at
this table. -/
theorem addObjectDependencies_resolved_witness :
    (addObjectDependencies plainCollaborators objectTable).map
        (fun Target => (Target.Name, Target.Dependencies,
          Target.ObjectListNodes.map (fun node => node.ObjectDependencies))) =
      [("app", ["gen"], [["hand/config.h", "hand/notes.txt"]]), ("gen", [], [[]])] ∧
    List.Forall₂ (fun Target Resolved =>
      Resolved.Name = Target.Name ∧
      Target.Dependencies <+: Resolved.Dependencies ∧
      List.Forall₂ (fun node resolved =>
        resolved.ObjectDependencies = node.ObjectDependencies.filter
          (fun path => !objectTable.any (fun Owner => declaresObjectOutput Owner path)) ∧
        (∀ path ∈ resolved.ObjectDependencies, objectOutputsOf objectTable path = none) ∧
        (∀ path ∈ node.ObjectDependencies,
          (∃ Owner ∈ objectTable, declaresObjectOutput Owner path = true) →
          path ∉ resolved.ObjectDependencies ∧
          ∃ Owner ∈ objectTable, declaresObjectOutput Owner path = true ∧
            objectOutputsOf objectTable path = some Owner.Name ∧
            Owner.Name ∈ Resolved.Dependencies))
        Target.ObjectListNodes Resolved.ObjectListNodes)
      objectTable (addObjectDependencies plainCollaborators objectTable) :=
  ⟨by decide, addObjectDependencies_resolved plainCollaborators objectTable⟩

/-! ## C11: where the resolved owner goes -/

theorem resolveNode_PreBuildDependencies (env : Collaborators)
    (oo : String → Option String) (node : FastbuildObjectListNode) :
    (resolveNode env oo node).node.PreBuildDependencies = node.PreBuildDependencies := rfl

/-- C11, as the code behaves: on `objectTable` the batch of `app` declares a
dependency on `gen/version.h`, an object output of `gen`; after the pass
`gen` is in the `Dependencies` of the unit `app`, and the batch's own
`PreBuildDependencies` are still empty. -/
theorem addObjectDependencies_not_in_PreBuildDependencies :
    (addObjectDependencies plainCollaborators objectTable).map
        (fun Target => (Target.Name, Target.Dependencies,
          Target.ObjectListNodes.map (fun node => node.PreBuildDependencies))) =
      [("app", ["gen"], [[]]), ("gen", [], [[]])] ∧
    (∃ X ∈ objectTable, X.Name = "gen" ∧ declaresObjectOutput X "gen/version.h" = true) ∧
    (∃ Target ∈ objectTable, Target.Name = "app" ∧
      ∃ node ∈ Target.ObjectListNodes, "gen/version.h" ∈ node.ObjectDependencies) := by
  decide

/-- C11, amended: after the object-dependency resolution of `WriteTargets`, a
batch that declares a dependency on a path declared as an object output has
the unit that the output index gives for the path (the declaring unit itself
when only one name declares it) in the `Dependencies` of its own unit; the
batch's `PreBuildDependencies` are unchanged; and when every declared path is
a declared object output, the batch's residual `ObjectDependencies` are
empty. -/
theorem addObjectDependencies_unit_dependency (env : Collaborators)
    (FastbuildTargets : List FastbuildTarget) :
    List.Forall₂ (fun Target Resolved =>
      List.Forall₂ (fun node resolved =>
        resolved.PreBuildDependencies = node.PreBuildDependencies ∧
        (∀ path ∈ node.ObjectDependencies, ∀ X ∈ FastbuildTargets,
          declaresObjectOutput X path = true →
          (∃ Owner ∈ FastbuildTargets, declaresObjectOutput Owner path = true ∧
            objectOutputsOf FastbuildTargets path = some Owner.Name ∧
            Owner.Name ∈ Resolved.Dependencies) ∧
          ((∀ Y ∈ FastbuildTargets, declaresObjectOutput Y path = true → Y.Name = X.Name) →
            X.Name ∈ Resolved.Dependencies)) ∧
        ((∀ path ∈ node.ObjectDependencies,
            ∃ X ∈ FastbuildTargets, declaresObjectOutput X path = true) →
          resolved.ObjectDependencies = []))
        Target.ObjectListNodes Resolved.ObjectListNodes)
      FastbuildTargets (addObjectDependencies env FastbuildTargets) := by
  unfold addObjectDependencies
  rw [List.forall₂_map_right_iff, List.forall₂_same]
  intro Target _
  simp only [resolveTarget, List.map_map]
  rw [List.forall₂_map_right_iff, List.forall₂_same]
  intro node hnode
  have howner : ∀ path ∈ node.ObjectDependencies, ∀ X ∈ FastbuildTargets,
      declaresObjectOutput X path = true →
      ∃ Owner ∈ FastbuildTargets, declaresObjectOutput Owner path = true ∧
        objectOutputsOf FastbuildTargets path = some Owner.Name ∧
        Owner.Name ∈ Target.Dependencies ++
          (Target.ObjectListNodes.map (resolveNode env (objectOutputsOf FastbuildTargets))).flatMap
            (fun r => r.pushedDependencies) := by
    intro path hpath X hX hdecl
    have hsome : objectOutputsOf FastbuildTargets path ≠ none := by
      intro h
      have := (objectOutputsOf_eq_none FastbuildTargets path).mp h X hX
      rw [hdecl] at this
      cases this
    obtain ⟨name, hname⟩ := Option.ne_none_iff_exists'.mp hsome
    obtain ⟨Owner, hOwner, hOname, hOdecl⟩ :=
      objectOutputsOf_eq_some FastbuildTargets path name hname
    refine ⟨Owner, hOwner, hOdecl, by rw [hname, hOname], ?_⟩
    apply List.mem_append_right
    rw [List.mem_flatMap]
    refine ⟨resolveNode env (objectOutputsOf FastbuildTargets) node,
      List.mem_map.mpr ⟨node, hnode, rfl⟩, ?_⟩
    simp only [resolveNode, resolveObjectDependencies_fst]
    rw [List.mem_filterMap]
    exact ⟨path, hpath, by rw [hname, hOname]⟩
  refine ⟨rfl, ?_, ?_⟩
  · intro path hpath X hX hdecl
    obtain ⟨Owner, hOwner, hOdecl, hindex, hmem⟩ := howner path hpath X hX hdecl
    refine ⟨⟨Owner, hOwner, hOdecl, hindex, hmem⟩, ?_⟩
    intro honly
    rw [← honly Owner hOwner hOdecl]
    exact hmem
  · intro hall
    simp only [Function.comp, resolveNode, resolveObjectDependencies_snd]
    rw [List.filter_eq_nil_iff]
    intro path hpath
    obtain ⟨X, hX, hdecl⟩ := hall path hpath
    have hsome : objectOutputsOf FastbuildTargets path ≠ none := by
      intro h
      have := (objectOutputsOf_eq_none FastbuildTargets path).mp h X hX
      rw [hdecl] at this
      cases this
    obtain ⟨name, hname⟩ := Option.ne_none_iff_exists'.mp hsome
    simp [hname]

/-- Witness of the amended C11 on `objectTable`. -/
theorem addObjectDependencies_unit_dependency_witness :
    (∃ X ∈ objectTable, declaresObjectOutput X "gen/version.h" = true) ∧
    List.Forall₂ (fun Target Resolved =>
      List.Forall₂ (fun node resolved =>
        resolved.PreBuildDependencies = node.PreBuildDependencies ∧
        (∀ path ∈ node.ObjectDependencies, ∀ X ∈ objectTable,
          declaresObjectOutput X path = true →
          (∃ Owner ∈ objectTable, declaresObjectOutput Owner path = true ∧
            objectOutputsOf objectTable path = some Owner.Name ∧
            Owner.Name ∈ Resolved.Dependencies) ∧
          ((∀ Y ∈ objectTable, declaresObjectOutput Y path = true → Y.Name = X.Name) →
            X.Name ∈ Resolved.Dependencies)) ∧
        ((∀ path ∈ node.ObjectDependencies,
            ∃ X ∈ objectTable, declaresObjectOutput X path = true) →
          resolved.ObjectDependencies = []))
        Target.ObjectListNodes Resolved.ObjectListNodes)
      objectTable (addObjectDependencies plainCollaborators objectTable) :=
  ⟨by decide, addObjectDependencies_unit_dependency plainCollaborators objectTable⟩

/-! ## PCH reuse pass -/

theorem reusePCHNodes_cons_pos (pch : List String) (b : FastbuildObjectListNode)
    (l : List FastbuildObjectListNode) (h : b.PCHOutputFile ∈ pch) :
    reusePCHNodes pch (b :: l) =
      ((reusePCHNodes pch l).1, clearPCHCreation b :: (reusePCHNodes pch l).2) := by
  rw [reusePCHNodes, if_pos h]
  rfl

theorem reusePCHNodes_cons_neg (pch : List String) (b : FastbuildObjectListNode)
    (l : List FastbuildObjectListNode) (h : b.PCHOutputFile ∉ pch) :
    reusePCHNodes pch (b :: l) =
      ((reusePCHNodes (b.PCHOutputFile :: pch) l).1,
        b :: (reusePCHNodes (b.PCHOutputFile :: pch) l).2) := by
  rw [reusePCHNodes, if_neg h]

theorem reusePCHNodes_append (pch : List String) (l1 l2 : List FastbuildObjectListNode) :
    reusePCHNodes pch (l1 ++ l2) =
      ((reusePCHNodes (reusePCHNodes pch l1).1 l2).1,
        (reusePCHNodes pch l1).2 ++ (reusePCHNodes (reusePCHNodes pch l1).1 l2).2) := by
  induction l1 generalizing pch with
  | nil => simp [reusePCHNodes]
  | cons b l1 ih =>
    rw [List.cons_append]
    by_cases h : b.PCHOutputFile ∈ pch
    · rw [reusePCHNodes_cons_pos pch b (l1 ++ l2) h, reusePCHNodes_cons_pos pch b l1 h, ih]
      rfl
    · rw [reusePCHNodes_cons_neg pch b (l1 ++ l2) h, reusePCHNodes_cons_neg pch b l1 h, ih]
      rfl

theorem mem_reusePCHNodes_fst (pch : List String) (l : List FastbuildObjectListNode)
    (x : String) :
    x ∈ (reusePCHNodes pch l).1 ↔ x ∈ pch ∨ x ∈ l.map (fun b => b.PCHOutputFile) := by
  induction l generalizing pch with
  | nil => simp [reusePCHNodes]
  | cons b l ih =>
    unfold reusePCHNodes
    split
    · rename_i hmem
      simp only
      rw [ih]
      simp only [List.map_cons, List.mem_cons]
      constructor
      · rintro (h | h)
        · exact Or.inl h
        · exact Or.inr (Or.inr h)
      · rintro (h | h | h)
        · exact Or.inl h
        · exact Or.inl (h ▸ hmem)
        · exact Or.inr h
    · simp only
      rw [ih]
      simp only [List.map_cons, List.mem_cons]
      tauto

theorem reusePCHNodes_length (pch : List String) (l : List FastbuildObjectListNode) :
    (reusePCHNodes pch l).2.length = l.length := by
  induction l generalizing pch with
  | nil => rfl
  | cons b l ih =>
    unfold reusePCHNodes
    split <;> simp [ih]

theorem reusePCHNodes_PCHOutputFile (pch : List String) (l : List FastbuildObjectListNode) :
    ∀ b ∈ (reusePCHNodes pch l).2, b.PCHOutputFile ∈ l.map (fun c => c.PCHOutputFile) := by
  induction l generalizing pch with
  | nil => intro b hb; simp [reusePCHNodes] at hb
  | cons c l ih =>
    intro b hb
    unfold reusePCHNodes at hb
    split at hb
    · rcases List.mem_cons.mp hb with rfl | hb
      · simp
      · exact List.mem_cons_of_mem _ (ih _ b hb)
    · rcases List.mem_cons.mp hb with rfl | hb
      · simp
      · exact List.mem_cons_of_mem _ (ih _ b hb)

/-- A batch whose PCH output is already in the set comes out cleared. -/
theorem reusePCHNodes_cleared (pch : List String) (l : List FastbuildObjectListNode) :
    ∀ b ∈ (reusePCHNodes pch l).2, b.PCHOutputFile ∈ pch →
      b.PCHInputFile = "" ∧ b.PCHOptions = "" := by
  induction l generalizing pch with
  | nil => intro b hb; simp [reusePCHNodes] at hb
  | cons c l ih =>
    intro b hb hpch
    unfold reusePCHNodes at hb
    split at hb
    · rcases List.mem_cons.mp hb with rfl | hb
      · exact ⟨rfl, rfl⟩
      · exact ih _ b hb hpch
    · rename_i hc
      rcases List.mem_cons.mp hb with rfl | hb
      · exact absurd hpch hc
      · exact ih _ b hb (List.mem_cons_of_mem _ hpch)

/-- The batch at each place after the loop: cleared when its PCH output is in
the set or occurs earlier in the list, untouched otherwise. -/
theorem reusePCHNodes_split (pch : List String) (pre post : List FastbuildObjectListNode)
    (b : FastbuildObjectListNode) :
    (reusePCHNodes pch (pre ++ b :: post)).2 =
      (reusePCHNodes pch pre).2 ++
        (if b.PCHOutputFile ∈ pch ∨ b.PCHOutputFile ∈ pre.map (fun c => c.PCHOutputFile)
          then clearPCHCreation b else b) ::
        (reusePCHNodes (b.PCHOutputFile :: (reusePCHNodes pch pre).1) post).2 := by
  rw [reusePCHNodes_append]
  simp only
  congr 1
  have hmem := mem_reusePCHNodes_fst pch pre b.PCHOutputFile
  rw [reusePCHNodes]
  by_cases h : b.PCHOutputFile ∈ (reusePCHNodes pch pre).1
  · rw [if_pos h, if_pos (hmem.mp h)]
    simp only [clearPCHCreation]
    congr 1
    -- the set with the output repeated has the same members
    have key : ∀ (s t : List String) (l : List FastbuildObjectListNode),
        (∀ x, x ∈ s ↔ x ∈ t) → (reusePCHNodes s l).2 = (reusePCHNodes t l).2 := by
      intro s t l
      induction l generalizing s t with
      | nil => intro _; rfl
      | cons c l ih =>
        intro hst
        rw [reusePCHNodes, reusePCHNodes]
        by_cases hc : c.PCHOutputFile ∈ s
        · rw [if_pos hc, if_pos ((hst _).mp hc)]
          simp only
          rw [ih s t hst]
        · rw [if_neg hc, if_neg (fun h2 => hc ((hst _).mpr h2))]
          simp only
          rw [ih (c.PCHOutputFile :: s) (c.PCHOutputFile :: t)
            (fun x => by simp only [List.mem_cons, hst])]
    apply key
    intro x
    simp only [List.mem_cons]
    constructor
    · intro hx; exact Or.inr hx
    · rintro (rfl | hx)
      · exact h
      · exact hx
  · rw [if_neg h, if_neg (fun h2 => h (hmem.mpr h2))]

theorem orderedBatches_reusePrecompiledHeaders (pch : List String)
    (units : List FastbuildTarget) :
    orderedBatches (reusePrecompiledHeaders pch units) =
      (reusePCHNodes pch (orderedBatches units)).2 := by
  induction units generalizing pch with
  | nil => rfl
  | cons U rest ih =>
    have h1 : orderedBatches (U :: rest) = U.ObjectListNodes ++ orderedBatches rest := by
      simp [orderedBatches]
    have h2 : orderedBatches (reusePrecompiledHeaders pch (U :: rest)) =
        (reusePCHNodes pch U.ObjectListNodes).2 ++
          orderedBatches (reusePrecompiledHeaders (reusePCHNodes pch U.ObjectListNodes).1 rest) := by
      simp [orderedBatches, reusePrecompiledHeaders]
    rw [h2, h1, ih, reusePCHNodes_append]

/-- The first element of a list that satisfies a predicate. -/
theorem exists_first_split {β : Type} (p : β → Prop) (l : List β) (h : ∃ x ∈ l, p x) :
    ∃ pre x post, l = pre ++ x :: post ∧ p x ∧ ∀ y ∈ pre, ¬ p y := by
  induction l with
  | nil => obtain ⟨x, hx, _⟩ := h; cases hx
  | cons a l ih =>
    by_cases ha : p a
    · exact ⟨[], a, l, rfl, ha, fun y hy => absurd hy (List.not_mem_nil y)⟩
    · obtain ⟨x, hx, hpx⟩ := h
      rcases List.mem_cons.mp hx with rfl | hx
      · exact absurd hpx ha
      · obtain ⟨pre, y, post, hsplit, hy, hpre⟩ := ih ⟨x, hx, hpx⟩
        refine ⟨a :: pre, y, post, by rw [hsplit]; rfl, hy, ?_⟩
        intro z hz
        rcases List.mem_cons.mp hz with rfl | hz
        · exact ha
        · exact hpre z hz

/-- C12: after the PCH reuse pass over the units in emission order, for every
PCH output path declared by at least one compile batch, all declaring batches
starting with non-empty `PCHInputFile` and `PCHOptions`, the linear sequence
of batches splits around one batch with that `PCHOutputFile` whose two fields
are still non-empty, and every other batch with that `PCHOutputFile` has both
fields empty; so exactly one batch with that output has a non-empty field. -/
theorem reusePrecompiledHeaders_single_creator (units : List FastbuildTarget) (path : String)
    (hdeclared : ∃ b ∈ orderedBatches units, b.PCHOutputFile = path)
    (hfields : ∀ b ∈ orderedBatches units, b.PCHOutputFile = path →
      b.PCHInputFile ≠ "" ∧ b.PCHOptions ≠ "") :
    ∃ pre keeper post,
      orderedBatches (reusePrecompiledHeaders [] units) = pre ++ keeper :: post ∧
      keeper.PCHOutputFile = path ∧ keeper.PCHInputFile ≠ "" ∧ keeper.PCHOptions ≠ "" ∧
      (∀ b ∈ pre ++ post, b.PCHOutputFile = path →
        b.PCHInputFile = "" ∧ b.PCHOptions = "") ∧
      (orderedBatches (reusePrecompiledHeaders [] units)).countP
        (fun b => b.PCHOutputFile = path ∧ (b.PCHInputFile ≠ "" ∨ b.PCHOptions ≠ "")) = 1 := by
  obtain ⟨pre, b, post, hsplit, hb, hpre⟩ :=
    exists_first_split (fun b => b.PCHOutputFile = path) _ hdeclared
  have hbnot : ¬ (b.PCHOutputFile ∈ ([] : List String) ∨
      b.PCHOutputFile ∈ pre.map (fun c => c.PCHOutputFile)) := by
    rintro (h | h)
    · cases h
    · obtain ⟨c, hc, hcb⟩ := List.mem_map.mp h
      exact hpre c hc (hcb.trans hb)
  have hafter : orderedBatches (reusePrecompiledHeaders [] units) =
      (reusePCHNodes [] pre).2 ++ b ::
        (reusePCHNodes (b.PCHOutputFile :: (reusePCHNodes [] pre).1) post).2 := by
    rw [orderedBatches_reusePrecompiledHeaders, hsplit, reusePCHNodes_split, if_neg hbnot]
  have hbmem : b ∈ orderedBatches units := by rw [hsplit]; simp
  have hothers : ∀ c ∈ (reusePCHNodes [] pre).2 ++
      (reusePCHNodes (b.PCHOutputFile :: (reusePCHNodes [] pre).1) post).2,
      c.PCHOutputFile = path → c.PCHInputFile = "" ∧ c.PCHOptions = "" := by
    intro c hc hcpath
    rcases List.mem_append.mp hc with h | h
    · exfalso
      obtain ⟨d, hd, hdc⟩ := List.mem_map.mp (reusePCHNodes_PCHOutputFile [] pre c h)
      exact hpre d hd (hdc.trans hcpath)
    · exact reusePCHNodes_cleared _ post c h (by rw [hcpath, hb]; exact List.mem_cons_self _ _)
  refine ⟨_, b, _, hafter, hb, (hfields b hbmem hb).1, (hfields b hbmem hb).2, hothers, ?_⟩
  rw [hafter, List.countP_append, List.countP_cons]
  have hzero : ∀ l : List FastbuildObjectListNode,
      (∀ c ∈ l, c.PCHOutputFile = path → c.PCHInputFile = "" ∧ c.PCHOptions = "") →
      l.countP (fun b => b.PCHOutputFile = path ∧ (b.PCHInputFile ≠ "" ∨ b.PCHOptions ≠ "")) = 0 := by
    intro l hl
    rw [List.countP_eq_zero]
    intro c hc
    simp only [decide_eq_true_eq, not_and, not_or, not_not]
    intro hcp
    exact hl c hc hcp
  rw [hzero _ (fun c hc => hothers c (List.mem_append_left _ hc)),
    hzero _ (fun c hc => hothers c (List.mem_append_right _ hc))]
  simp [hb, (hfields b hbmem hb).1]

/-- Witness of C12 on `pchUnits`. -/
theorem reusePrecompiledHeaders_single_creator_witness :
    (∃ b ∈ orderedBatches pchUnits, b.PCHOutputFile = "pch/stdafx.pch") ∧
    (∀ b ∈ orderedBatches pchUnits, b.PCHOutputFile = "pch/stdafx.pch" →
      b.PCHInputFile ≠ "" ∧ b.PCHOptions ≠ "") ∧
    ∃ pre keeper post,
      orderedBatches (reusePrecompiledHeaders [] pchUnits) = pre ++ keeper :: post ∧
      keeper.PCHOutputFile = "pch/stdafx.pch" ∧ keeper.PCHInputFile ≠ "" ∧
      keeper.PCHOptions ≠ "" ∧
      (∀ b ∈ pre ++ post, b.PCHOutputFile = "pch/stdafx.pch" →
        b.PCHInputFile = "" ∧ b.PCHOptions = "") ∧
      (orderedBatches (reusePrecompiledHeaders [] pchUnits)).countP
        (fun b => b.PCHOutputFile = "pch/stdafx.pch" ∧
          (b.PCHInputFile ≠ "" ∨ b.PCHOptions ≠ "")) = 1 :=
  ⟨by decide, by decide,
    reusePrecompiledHeaders_single_creator pchUnits "pch/stdafx.pch" (by decide) (by decide)⟩

/-- C13: in the PCH reuse pass, the batch at each place of the linear order
(unit order, then batch order inside the unit) is left as it was, with its
`PCHInputFile` and `PCHOptions`, when no earlier batch has its
`PCHOutputFile`, and has both fields cleared when an earlier batch has it. -/
theorem reusePrecompiledHeaders_first_keeps (units : List FastbuildTarget)
    (pre post : List FastbuildObjectListNode) (b : FastbuildObjectListNode)
    (hsplit : orderedBatches units = pre ++ b :: post) :
    ∃ pre2 post2,
      orderedBatches (reusePrecompiledHeaders [] units) =
        pre2 ++ (if b.PCHOutputFile ∈ pre.map (fun c => c.PCHOutputFile)
          then clearPCHCreation b else b) :: post2 ∧
      pre2.length = pre.length ∧ post2.length = post.length := by
  refine ⟨(reusePCHNodes [] pre).2,
    (reusePCHNodes (b.PCHOutputFile :: (reusePCHNodes [] pre).1) post).2, ?_,
    reusePCHNodes_length _ _, reusePCHNodes_length _ _⟩
  rw [orderedBatches_reusePrecompiledHeaders, hsplit, reusePCHNodes_split]
  simp

/-- Witness of C13 on `pchUnits`: the batch of `net` is the second one with
its PCH output. -/
theorem reusePrecompiledHeaders_first_keeps_witness :
    ∃ pre2 post2,
      orderedBatches (reusePrecompiledHeaders [] pchUnits) =
        pre2 ++ clearPCHCreation
          { Name := "CXX_net-1", PCHInputFile := "stdafx.cpp"
            PCHOutputFile := "pch/stdafx.pch", PCHOptions := "/Yc" } :: post2 ∧
      pre2.length = 1 ∧ post2.length = 2 :=
  reusePrecompiledHeaders_first_keeps pchUnits
    [{ Name := "CXX_core-1", PCHInputFile := "stdafx.cpp", PCHOutputFile := "pch/stdafx.pch"
       PCHOptions := "/Yc" }]
    [{ Name := "CXX_ui-1", PCHInputFile := "stdafx.cpp", PCHOutputFile := "pch/stdafx.pch"
       PCHOptions := "/Yc" },
     { Name := "C_ui-2" }]
    { Name := "CXX_net-1", PCHInputFile := "stdafx.cpp", PCHOutputFile := "pch/stdafx.pch"
      PCHOptions := "/Yc" }
    (by decide)

/-! ## AddTarget -/

theorem mem_insertByKey (target T : FastbuildTarget) (l : List FastbuildTarget) :
    T ∈ insertByKey target l ↔ T = target ∨ T ∈ l := by
  induction l with
  | nil => simp [insertByKey]
  | cons U rest ih =>
    unfold insertByKey
    split
    · simp
    · simp only [List.mem_cons, ih]
      tauto

theorem any_name_iff (l : List FastbuildTarget) (name : String) :
    l.any (fun T => T.Name == name) = true ↔ ∃ T ∈ l, T.Name = name := by
  simp [List.any_eq_true]

/-- C17, as the code behaves: `AddTarget` called on `registeredState` with a
second unit named `app` reports the duplicate and returns a state in which
the unit stored under `app` is the second one. -/
theorem AddTarget_replaces_duplicate :
    AddTarget registeredState { Name := "app", Dependencies := ["second"] } =
      { Errors := ["Duplicated target app"]
        FastbuildTargets := [{ Name := "app", Dependencies := ["second"] }, { Name := "lib" }] } ∧
    ({ Name := "app", Dependencies := ["first"] } : FastbuildTarget) ∈
      registeredState.FastbuildTargets ∧
    ({ Name := "app", Dependencies := ["first"] } : FastbuildTarget) ∉
      (AddTarget registeredState { Name := "app", Dependencies := ["second"] }).FastbuildTargets := by
  decide

/-- C17, amended: `AddTarget` called with a unit whose name is already in the
table reports `Duplicated target <name>` and goes on: in both cases it
returns, the unit is stored under its name, every unit stored under that name
is the new one, and the units with other names are kept; when the name is
not in the table nothing is reported. -/
theorem AddTarget_reports_and_overwrites (state : GeneratorState) (target : FastbuildTarget) :
    ((∃ T ∈ state.FastbuildTargets, T.Name = target.Name) →
      (AddTarget state target).Errors =
        state.Errors ++ ["Duplicated target " ++ target.Name]) ∧
    ((¬ ∃ T ∈ state.FastbuildTargets, T.Name = target.Name) →
      (AddTarget state target).Errors = state.Errors) ∧
    target ∈ (AddTarget state target).FastbuildTargets ∧
    (∀ T ∈ (AddTarget state target).FastbuildTargets, T.Name = target.Name → T = target) ∧
    (∀ T : FastbuildTarget, T.Name ≠ target.Name →
      (T ∈ (AddTarget state target).FastbuildTargets ↔ T ∈ state.FastbuildTargets)) := by
  have hany := any_name_iff state.FastbuildTargets target.Name
  refine ⟨?_, ?_, ?_, ?_, ?_⟩
  · intro h
    simp only [AddTarget]
    rw [if_pos (hany.mpr h)]
  · intro h
    simp only [AddTarget]
    rw [if_neg (fun h2 => h (hany.mp h2))]
  · simp only [AddTarget, assignTarget]
    split
    · rename_i h
      obtain ⟨T, hT, hname⟩ := hany.mp h
      rw [List.mem_map]
      exact ⟨T, hT, by simp [hname]⟩
    · rw [mem_insertByKey]
      exact Or.inl rfl
  · intro T hT hname
    simp only [AddTarget, assignTarget] at hT
    split at hT
    · rw [List.mem_map] at hT
      obtain ⟨U, _, hU⟩ := hT
      by_cases hUn : U.Name = target.Name
      · simp only [hUn, beq_self_eq_true, if_true] at hU
        exact hU.symm
      · have : (U.Name == target.Name) = false := by simpa using hUn
        simp only [this, Bool.false_eq_true, if_false] at hU
        exact absurd (hU ▸ hname) hUn
    · rename_i h
      rw [mem_insertByKey] at hT
      rcases hT with rfl | hT
      · rfl
      · exact absurd (hany.mpr ⟨T, hT, hname⟩) h
  · intro T hname
    simp only [AddTarget, assignTarget]
    split
    · rw [List.mem_map]
      constructor
      · rintro ⟨U, hU, hUT⟩
        by_cases hUn : U.Name = target.Name
        · simp only [hUn, beq_self_eq_true, if_true] at hUT
          exact absurd (hUT ▸ rfl) hname
        · have : (U.Name == target.Name) = false := by simpa using hUn
          simp only [this, Bool.false_eq_true, if_false] at hUT
          exact hUT ▸ hU
      · intro hT
        refine ⟨T, hT, ?_⟩
        have : (T.Name == target.Name) = false := by simpa using hname
        simp [this]
    · rw [mem_insertByKey]
      constructor
      · rintro (rfl | hT)
        · exact absurd rfl hname
        · exact hT
      · intro hT
        exact Or.inr hT

/-- Witness of the amended C17 on `registeredState`. -/
theorem AddTarget_reports_and_overwrites_witness :
    (∃ T ∈ registeredState.FastbuildTargets, T.Name = "app") ∧
    (AddTarget registeredState { Name := "app", Dependencies := ["second"] }).Errors =
      registeredState.Errors ++ ["Duplicated target " ++ "app"] ∧
    (¬ ∃ T ∈ registeredState.FastbuildTargets, T.Name = "tool") ∧
    (AddTarget registeredState { Name := "tool" }).Errors = registeredState.Errors :=
  ⟨by decide,
    (AddTarget_reports_and_overwrites registeredState
      { Name := "app", Dependencies := ["second"] }).1 (by decide),
    by decide,
    (AddTarget_reports_and_overwrites registeredState { Name := "tool" }).2.1 (by decide)⟩

/-! ## Sets of strings -/

theorem mem_setInsert (x y : String) (s : List String) :
    y ∈ setInsert x s ↔ y = x ∨ y ∈ s := by
  induction s with
  | nil => simp [setInsert]
  | cons z zs ih =>
    unfold setInsert
    split
    · simp
    · split
      · rename_i hxz
        simp only [List.mem_cons]
        constructor
        · intro h; exact Or.inr h
        · rintro (h | h)
          · exact Or.inl (h.trans hxz)
          · exact h
      · simp only [List.mem_cons, ih]
        tauto

theorem setInsert_ne_nil (x : String) (s : List String) : setInsert x s ≠ [] := by
  intro h
  have : x ∈ setInsert x s := (mem_setInsert x x s).mpr (Or.inl rfl)
  rw [h] at this
  cases this

/-! ## WriteExecs -/

theorem find?_name_eq_none (T : List FastbuildTarget) (name : String) :
    T.find? (fun U => U.Name == name) = none ↔ name ∉ targetNames T := by
  rw [List.find?_eq_none]
  simp only [targetNames, List.mem_map, not_exists, not_and, beq_iff_eq]

theorem insertTargetDependencies_ok (T : List FastbuildTarget) (deps : List String)
    (s : List String) (h : ∀ dep ∈ deps, dep ∈ targetNames T) :
    ∃ dependencies, insertTargetDependencies T deps s = Except.ok dependencies := by
  induction deps generalizing s with
  | nil => exact ⟨s, rfl⟩
  | cons d rest ih =>
    unfold insertTargetDependencies
    cases hfind : T.find? (fun U => U.Name == d) with
    | none =>
      exact absurd (h d (List.mem_cons_self _ _)) ((find?_name_eq_none T d).mp hfind)
    | some U => exact ih _ (fun dep hdep => h dep (List.mem_cons_of_mem _ hdep))

theorem insertTargetDependencies_error (T : List FastbuildTarget) (deps : List String)
    (s : List String) (h : ∃ dep ∈ deps, dep ∉ targetNames T) :
    insertTargetDependencies T deps s = Except.error "std::out_of_range" := by
  induction deps generalizing s with
  | nil => obtain ⟨dep, hdep, _⟩ := h; cases hdep
  | cons d rest ih =>
    unfold insertTargetDependencies
    cases hfind : T.find? (fun U => U.Name == d) with
    | none => rfl
    | some U =>
      obtain ⟨dep, hdep, hnot⟩ := h
      rcases List.mem_cons.mp hdep with rfl | hdep
      · have := (find?_name_eq_none T dep).mpr hnot
        rw [hfind] at this
        cases this
      · exact ih _ ⟨dep, hdep, hnot⟩

theorem writeTargetBlock_exception_none (T : List FastbuildTarget) (Target : FastbuildTarget)
    (h : ∀ dep ∈ Target.Dependencies, dep ∈ targetNames T) :
    (writeTargetBlock T Target).exception = none := by
  unfold writeTargetBlock
  simp only
  obtain ⟨d, hd⟩ := insertTargetDependencies_ok T Target.Dependencies
    (WriteExecs Target.PreLinkExecNodes
      (if (WriteObjectLists Target.ObjectListNodes
          (WriteExecs Target.ExecNodes (WriteExecs Target.PreBuildExecNodes []).output).output).2.isEmpty
        then (WriteExecs Target.ExecNodes (WriteExecs Target.PreBuildExecNodes []).output).output
        else (WriteObjectLists Target.ObjectListNodes
          (WriteExecs Target.ExecNodes
            (WriteExecs Target.PreBuildExecNodes []).output).output).2)).output h
  rw [hd]

theorem writeTargetBlock_exception_some (T : List FastbuildTarget) (Target : FastbuildTarget)
    (h : ∃ dep ∈ Target.Dependencies, dep ∉ targetNames T) :
    (writeTargetBlock T Target).exception = some "std::out_of_range" := by
  unfold writeTargetBlock
  simp only
  rw [insertTargetDependencies_error T Target.Dependencies _ h]

theorem emitTargets_exception_none (T : List FastbuildTarget) (seen : List String)
    (units : List FastbuildTarget)
    (h : ∀ U ∈ units, ∀ dep ∈ U.Dependencies, dep ∈ targetNames T) :
    (emitTargets T seen units).exception = none := by
  induction units generalizing seen with
  | nil => rfl
  | cons U rest ih =>
    unfold emitTargets
    simp only
    have hU : (writeTargetBlock T
        { U with ExecNodes := (dedupExecNodes seen U.ExecNodes).2 }).exception = none :=
      writeTargetBlock_exception_none T _ (h U (List.mem_cons_self _ _))
    split
    · rename_i e he
      rw [hU] at he
      cases he
    · exact ih _ (fun V hV => h V (List.mem_cons_of_mem _ hV))

theorem emitTargets_exception_some (T : List FastbuildTarget) (seen : List String)
    (units : List FastbuildTarget)
    (h : ∃ U ∈ units, ∃ dep ∈ U.Dependencies, dep ∉ targetNames T) :
    (emitTargets T seen units).exception = some "std::out_of_range" := by
  induction units generalizing seen with
  | nil => obtain ⟨U, hU, _⟩ := h; cases hU
  | cons U rest ih =>
    unfold emitTargets
    simp only
    by_cases hU : ∃ dep ∈ U.Dependencies, dep ∉ targetNames T
    · have hblock : (writeTargetBlock T
          { U with ExecNodes := (dedupExecNodes seen U.ExecNodes).2 }).exception =
          some "std::out_of_range" := writeTargetBlock_exception_some T _ hU
      split
      · exact hblock
      · rename_i he
        rw [hblock] at he
        cases he
    · have hblock : (writeTargetBlock T
          { U with ExecNodes := (dedupExecNodes seen U.ExecNodes).2 }).exception = none :=
        writeTargetBlock_exception_none T _ (by
          intro dep hdep
          by_contra hnot
          exact hU ⟨dep, hdep, hnot⟩)
      split
      · rename_i e he
        rw [hblock] at he
        cases he
      · obtain ⟨V, hV, hVdep⟩ := h
        rcases List.mem_cons.mp hV with rfl | hV
        · exact absurd hVdep hU
        · exact ih _ ⟨V, hV, hVdep⟩

/-- Nothing is emitted for the units that follow a unit holding an unresolved
reference. -/
theorem emitTargets_stops (T : List FastbuildTarget) (seen : List String)
    (pre post : List FastbuildTarget) (U : FastbuildTarget)
    (hU : ∃ dep ∈ U.Dependencies, dep ∉ targetNames T) :
    emitTargets T seen (pre ++ U :: post) = emitTargets T seen (pre ++ [U]) := by
  induction pre generalizing seen with
  | nil =>
    have hblock : (writeTargetBlock T
        { U with ExecNodes := (dedupExecNodes seen U.ExecNodes).2 }).exception =
        some "std::out_of_range" := writeTargetBlock_exception_some T _ hU
    simp only [List.nil_append]
    rw [emitTargets, emitTargets]
    simp only [hblock]
  | cons P pre ih =>
    simp only [List.cons_append]
    rw [emitTargets, emitTargets]
    simp only
    rw [ih]

theorem targetNames_addObjectDependencies (env : Collaborators) (T : List FastbuildTarget) :
    targetNames (addObjectDependencies env T) = targetNames T := by
  simp [targetNames, addObjectDependencies, resolveTarget, Function.comp]

theorem length_addObjectDependencies (env : Collaborators) (T : List FastbuildTarget) :
    (addObjectDependencies env T).length = T.length := by
  simp [addObjectDependencies]

/-- The owners pushed by the object-dependency resolution are names of units
of the table. -/
theorem pushedDependencies_named (env : Collaborators) (T : List FastbuildTarget)
    (node : FastbuildObjectListNode) :
    ∀ dep ∈ (resolveNode env (objectOutputsOf T) node).pushedDependencies,
      dep ∈ targetNames T := by
  intro dep hdep
  simp only [resolveNode, resolveObjectDependencies_fst, List.mem_filterMap] at hdep
  obtain ⟨path, _, hpath⟩ := hdep
  obtain ⟨owner, howner, hname, _⟩ := objectOutputsOf_eq_some T path dep hpath
  exact List.mem_map.mpr ⟨owner, howner, hname⟩

theorem resolveTarget_dependencies (env : Collaborators) (T : List FastbuildTarget)
    (U : FastbuildTarget) :
    (∀ dep ∈ (resolveTarget env (objectOutputsOf T) U).Dependencies, dep ∈ targetNames T) ↔
      ∀ dep ∈ U.Dependencies, dep ∈ targetNames T := by
  simp only [resolveTarget, List.mem_append, List.mem_flatMap, List.mem_map]
  constructor
  · intro h dep hdep
    exact h dep (Or.inl hdep)
  · rintro h dep (hdep | ⟨r, ⟨node, _, rfl⟩, hdep⟩)
    · exact h dep hdep
    · exact pushedDependencies_named env T node dep hdep

theorem reusePrecompiledHeaders_dependencies (pch : List String) (units : List FastbuildTarget) :
    (reusePrecompiledHeaders pch units).map (fun U => U.Dependencies) =
      units.map (fun U => U.Dependencies) := by
  induction units generalizing pch with
  | nil => rfl
  | cons U rest ih =>
    rw [reusePrecompiledHeaders]
    simp only [List.map_cons]
    rw [ih]

theorem mem_unitsInOrder (R : List FastbuildTarget) (ordered : List String)
    (hkeys : (targetNames R).Nodup) (hperm : ordered.Perm (targetNames R))
    (V : FastbuildTarget) : V ∈ unitsInOrder R ordered ↔ V ∈ R := by
  unfold unitsInOrder
  rw [List.mem_filterMap]
  constructor
  · rintro ⟨name, _, hfind⟩
    exact List.mem_of_find?_eq_some hfind
  · intro hV
    refine ⟨V.Name, hperm.mem_iff.mpr (List.mem_map.mpr ⟨V, hV, rfl⟩), ?_⟩
    cases hfind : R.find? (fun U => U.Name == V.Name) with
    | none =>
      have := (find?_name_eq_none R V.Name).mp hfind
      exact absurd (List.mem_map.mpr ⟨V, hV, rfl⟩) this
    | some W =>
      have hW : W ∈ R := List.mem_of_find?_eq_some hfind
      have hname : W.Name = V.Name := by
        have := @List.find?_some _ (fun U : FastbuildTarget => U.Name == V.Name) _ _ hfind
        simpa using this
      have := List.inj_on_of_nodup_map hkeys hW hV hname
      rw [this]

/-- C18, as the code behaves: on `ghostTable`, whose units `A` and `B` depend
on the name `ghost`, the ordering gives every unit a place, and the emission
ends with `std::out_of_range` inside the block of `A`: the blocks of `B` and
`all` are never opened. -/
theorem writeTargetsPasses_aborts_on_unresolved :
    orderedTargets 5 (addObjectDependencies plainCollaborators ghostTable) =
      some ["noop", "rebuild-bff", "A", "B", "all"] ∧
    (writeTargetsPasses plainCollaborators 5 ghostTable).map
        (fun r => (r.exception, openedTargets r.statements)) =
      some (some "std::out_of_range", ["noop", "rebuild-bff", "A"]) := by
  decide

/-- C18, amended: a unit-level dependency on a name that is not in the table
does not stop the ordering, but it ends the emission: whatever fuel of at
least the number of units is given, `WriteTargets` ends with the exception
`std::out_of_range` (thrown by `FastbuildTargets.at`) exactly when some unit
depends on a name that is no key of the table, and then nothing is emitted
for the units that follow the first such unit; when every dependency names a
unit, no exception ends the emission. -/
theorem writeTargetsPasses_unresolved (env : Collaborators)
    (FastbuildTargets : List FastbuildTarget)
    (hkeys : (targetNames FastbuildTargets).Nodup) :
    ∃ ordered result,
      (∀ fuel, FastbuildTargets.length ≤ fuel →
        orderedTargets fuel (addObjectDependencies env FastbuildTargets) = some ordered ∧
        writeTargetsPasses env fuel FastbuildTargets = some result) ∧
      ordered.Perm (targetNames FastbuildTargets) ∧
      ((∃ U ∈ FastbuildTargets, ∃ dep ∈ U.Dependencies, dep ∉ targetNames FastbuildTargets) →
        result.exception = some "std::out_of_range") ∧
      ((∀ U ∈ FastbuildTargets, ∀ dep ∈ U.Dependencies, dep ∈ targetNames FastbuildTargets) →
        result.exception = none) ∧
      (∀ (seen : List String) (pre post : List FastbuildTarget) (U : FastbuildTarget),
        (∃ dep ∈ U.Dependencies, dep ∉ targetNames FastbuildTargets) →
        emitTargets (addObjectDependencies env FastbuildTargets) seen (pre ++ U :: post) =
          emitTargets (addObjectDependencies env FastbuildTargets) seen (pre ++ [U])) := by
  have hnames := targetNames_addObjectDependencies env FastbuildTargets
  have hlen : (targetNames (addObjectDependencies env FastbuildTargets)).length ≤
      FastbuildTargets.length := by
    rw [hnames]; simp [targetNames]
  obtain ⟨ordered, hres, hperm⟩ := orderLoop_perm
    (reverseDependenciesOf (addObjectDependencies env FastbuildTargets))
    FastbuildTargets.length (targetNames (addObjectDependencies env FastbuildTargets))
    (forwardDependenciesOf (addObjectDependencies env FastbuildTargets)) [] hlen
  have hperm2 : ordered.Perm (targetNames (addObjectDependencies env FastbuildTargets)) := by
    simpa using hperm
  have hordered : ∀ fuel, FastbuildTargets.length ≤ fuel →
      orderedTargets fuel (addObjectDependencies env FastbuildTargets) = some ordered := by
    intro fuel hfuel
    obtain ⟨k, rfl⟩ := Nat.exists_eq_add_of_le hfuel
    exact orderLoop_fuel_add _ _ k _ _ _ _ hres
  have hkeys2 : (targetNames (addObjectDependencies env FastbuildTargets)).Nodup := by
    rw [hnames]; exact hkeys
  -- the units handed to the emission loop hold an unresolved reference exactly
  -- when a unit of the table does
  have hunits : (∃ V ∈ reusePrecompiledHeaders []
        (unitsInOrder (addObjectDependencies env FastbuildTargets) ordered),
        ∃ dep ∈ V.Dependencies, dep ∉ targetNames (addObjectDependencies env FastbuildTargets)) ↔
      ∃ U ∈ FastbuildTargets, ∃ dep ∈ U.Dependencies, dep ∉ targetNames FastbuildTargets := by
    have hmap := reusePrecompiledHeaders_dependencies []
      (unitsInOrder (addObjectDependencies env FastbuildTargets) ordered)
    have step1 : (∃ V ∈ reusePrecompiledHeaders []
          (unitsInOrder (addObjectDependencies env FastbuildTargets) ordered),
          ∃ dep ∈ V.Dependencies, dep ∉ targetNames (addObjectDependencies env FastbuildTargets)) ↔
        ∃ V ∈ unitsInOrder (addObjectDependencies env FastbuildTargets) ordered,
          ∃ dep ∈ V.Dependencies,
            dep ∉ targetNames (addObjectDependencies env FastbuildTargets) := by
      constructor
      · rintro ⟨V, hV, hdep⟩
        have : V.Dependencies ∈ (reusePrecompiledHeaders []
            (unitsInOrder (addObjectDependencies env FastbuildTargets) ordered)).map
            (fun U => U.Dependencies) := List.mem_map.mpr ⟨V, hV, rfl⟩
        rw [hmap] at this
        obtain ⟨W, hW, hWV⟩ := List.mem_map.mp this
        exact ⟨W, hW, by
          have h3 : W.Dependencies = V.Dependencies := hWV
          rw [h3]; exact hdep⟩
      · rintro ⟨V, hV, hdep⟩
        have : V.Dependencies ∈ (unitsInOrder (addObjectDependencies env FastbuildTargets)
            ordered).map (fun U => U.Dependencies) := List.mem_map.mpr ⟨V, hV, rfl⟩
        rw [← hmap] at this
        obtain ⟨W, hW, hWV⟩ := List.mem_map.mp this
        exact ⟨W, hW, by
          have h3 : W.Dependencies = V.Dependencies := hWV
          rw [h3]; exact hdep⟩
    rw [step1]
    constructor
    · rintro ⟨V, hV, hdep⟩
      rw [mem_unitsInOrder _ _ hkeys2 hperm2] at hV
      obtain ⟨U, hU, rfl⟩ := List.mem_map.mp hV
      by_contra hnone
      have hall : ∀ dep ∈ U.Dependencies, dep ∈ targetNames FastbuildTargets := by
        intro dep hd
        by_contra hnot
        exact hnone ⟨U, hU, dep, hd, hnot⟩
      obtain ⟨dep, hd, hnot⟩ := hdep
      rw [hnames] at hnot
      exact hnot ((resolveTarget_dependencies env FastbuildTargets U).mpr hall dep hd)
    · rintro ⟨U, hU, dep, hd, hnot⟩
      refine ⟨resolveTarget env (objectOutputsOf FastbuildTargets) U, ?_, dep, ?_, ?_⟩
      · rw [mem_unitsInOrder _ _ hkeys2 hperm2]
        exact List.mem_map.mpr ⟨U, hU, rfl⟩
      · simp only [resolveTarget]
        exact List.mem_append_left _ hd
      · rw [hnames]; exact hnot
  refine ⟨ordered, emitTargets (addObjectDependencies env FastbuildTargets) []
    (reusePrecompiledHeaders []
      (unitsInOrder (addObjectDependencies env FastbuildTargets) ordered)), ?_, ?_, ?_, ?_, ?_⟩
  · intro fuel hfuel
    refine ⟨hordered fuel hfuel, ?_⟩
    simp only [writeTargetsPasses, hordered fuel hfuel, Option.map_some']
  · rw [← hnames]; exact hperm2
  · intro h
    exact emitTargets_exception_some _ _ _ (hunits.mpr h)
  · intro h
    apply emitTargets_exception_none
    intro V hV dep hdep
    by_contra hnot
    obtain ⟨U, hU, d, hd, hdnot⟩ := hunits.mp ⟨V, hV, dep, hdep, hnot⟩
    exact hdnot (h U hU d hd)
  · intro seen pre post U hU
    apply emitTargets_stops
    rw [hnames]
    exact hU

/-- Witness of the amended C18 on `ghostTable`. -/
theorem writeTargetsPasses_unresolved_witness :
    (targetNames ghostTable).Nodup ∧
    (∃ U ∈ ghostTable, ∃ dep ∈ U.Dependencies, dep ∉ targetNames ghostTable) ∧
    ∃ ordered result,
      (∀ fuel, ghostTable.length ≤ fuel →
        orderedTargets fuel (addObjectDependencies plainCollaborators ghostTable) =
          some ordered ∧
        writeTargetsPasses plainCollaborators fuel ghostTable = some result) ∧
      ordered.Perm (targetNames ghostTable) ∧
      ((∃ U ∈ ghostTable, ∃ dep ∈ U.Dependencies, dep ∉ targetNames ghostTable) →
        result.exception = some "std::out_of_range") ∧
      ((∀ U ∈ ghostTable, ∀ dep ∈ U.Dependencies, dep ∈ targetNames ghostTable) →
        result.exception = none) ∧
      (∀ (seen : List String) (pre post : List FastbuildTarget) (U : FastbuildTarget),
        (∃ dep ∈ U.Dependencies, dep ∉ targetNames ghostTable) →
        emitTargets (addObjectDependencies plainCollaborators ghostTable) seen
            (pre ++ U :: post) =
          emitTargets (addObjectDependencies plainCollaborators ghostTable) seen
            (pre ++ [U])) :=
  ⟨by decide, by decide, writeTargetsPasses_unresolved plainCollaborators ghostTable (by decide)⟩

/-! ## GenerateCommands -/

/-- The sorter is never given an edge from a custom command to itself. -/
theorem customCommandDependencies_no_self (ctx : GeneratorTargetContext)
    (customCommands : List cmSourceFile) :
    ∀ e ∈ customCommandDependencies ctx customCommands, e.1 ≠ e.2 := by
  intro e he
  simp only [customCommandDependencies, List.mem_flatMap, List.mem_filterMap] at he
  obtain ⟨source, _, dep, _, hsome⟩ := he
  split at hsome
  · cases hsome
  · split at hsome
    · cases hsome
    · split at hsome
      · rename_i hne
        cases hsome
        exact hne
      · cases hsome

theorem mem_insertProducers (env : Collaborators) (ctx : GeneratorTargetContext)
    (commands : List cmCustomCommand) (cc : cmCustomCommand) (init : List String)
    (name : String) :
    name ∈ insertProducers env ctx commands cc init ↔
      name ∈ init ∨ ∃ dep ∈ cc.Depends, ∃ command,
        findProducer ctx commands dep = some command ∧
        name = GetCustomCommandTargetName env command "" := by
  unfold insertProducers
  generalize cc.Depends = deps
  induction deps generalizing init with
  | nil => simp
  | cons d rest ih =>
    rw [List.foldl_cons, ih]
    cases hd : findProducer ctx commands d with
    | none =>
      simp only
      constructor
      · rintro (h | ⟨dep, hdep, command, hfind, hname⟩)
        · exact Or.inl h
        · exact Or.inr ⟨dep, List.mem_cons_of_mem _ hdep, command, hfind, hname⟩
      · rintro (h | ⟨dep, hdep, command, hfind, hname⟩)
        · exact Or.inl h
        · rcases List.mem_cons.mp hdep with rfl | hdep
          · rw [hd] at hfind; cases hfind
          · exact Or.inr ⟨dep, hdep, command, hfind, hname⟩
    | some producer =>
      simp only
      rw [mem_setInsert]
      constructor
      · rintro ((h | h) | ⟨dep, hdep, command, hfind, hname⟩)
        · exact Or.inr ⟨d, List.mem_cons_self _ _, producer, hd, h⟩
        · exact Or.inl h
        · exact Or.inr ⟨dep, List.mem_cons_of_mem _ hdep, command, hfind, hname⟩
      · rintro (h | ⟨dep, hdep, command, hfind, hname⟩)
        · exact Or.inl (Or.inr h)
        · rcases List.mem_cons.mp hdep with rfl | hdep
          · rw [hd] at hfind
            cases hfind
            exact Or.inl (Or.inl hname)
          · exact Or.inr ⟨dep, hdep, command, hfind, hname⟩

/-- Outside the build steps, a command that is the first of the list to
declare one of its own dependencies as an output gets its own name in its
`PreBuildDependencies`. -/
theorem commandExecNode_self_dependency (env : Collaborators) (ctx : GeneratorTargetContext)
    (commands : List cmCustomCommand) (nodes : List FastbuildExecNode) (i : Nat)
    (cc : cmCustomCommand) (dep : String) (hdep : dep ∈ cc.Depends)
    (hfind : findProducer ctx commands dep = some cc) :
    (commandExecNode env ctx "" commands nodes i cc).Name ∈
      (commandExecNode env ctx "" commands nodes i cc).PreBuildDependencies := by
  simp only [commandExecNode, commandTargetName, if_true]
  rw [mem_insertProducers]
  exact Or.inr ⟨dep, hdep, cc, hfind, rfl⟩

theorem generateNodes_eq (env : Collaborators) (ctx : GeneratorTargetContext)
    (buildStep : String) (commands rest : List cmCustomCommand)
    (nodes : List FastbuildExecNode) (i : Nat) :
    ∃ added, generateNodes env ctx buildStep commands rest nodes i = nodes ++ added ∧
      List.Forall₂ (fun cc node => ∃ before j,
        node = commandExecNode env ctx buildStep commands before j cc) rest added := by
  induction rest generalizing nodes i with
  | nil => exact ⟨[], by simp [generateNodes], List.Forall₂.nil⟩
  | cons cc rest ih =>
    rw [generateNodes]
    obtain ⟨added, hadded, hrel⟩ := ih
      (nodes ++ [commandExecNode env ctx buildStep commands nodes
        (if buildStep = "" then i else i + 1) cc])
      (if buildStep = "" then i else i + 1)
    refine ⟨commandExecNode env ctx buildStep commands nodes
      (if buildStep = "" then i else i + 1) cc :: added, ?_, ?_⟩
    · rw [hadded]; simp
    · exact List.Forall₂.cons ⟨nodes, _, rfl⟩ hrel

/-- The vector returned has one node for every command, whatever the number
of outputs of the commands. -/
theorem generateNodes_length (env : Collaborators) (ctx : GeneratorTargetContext)
    (buildStep : String) (commands : List cmCustomCommand) :
    (generateNodes env ctx buildStep commands commands [] 0).length = commands.length := by
  obtain ⟨added, hadded, hrel⟩ := generateNodes_eq env ctx buildStep commands commands [] 0
  rw [hadded, List.nil_append, hrel.length_eq]

/-- C14: on a custom command that lists its own output `/src/gen.c` among its
dependencies, no edge is passed to the sorter, and the node returned by
`GenerateCommands` has its own `Name` in its `PreBuildDependencies`. -/
theorem GenerateCommands_self_dependency :
    customCommandDependencies selfDependentContext selfDependentContext.GetCustomCommands = [] ∧
    GenerateCommands plainCollaborators selfDependentContext 1 "" =
      some [{ Name := "cc--/src/g"
              ExecExecutable := "/bld/CMakeFiles/cc--/src/g.sh"
              ExecWorkingDir := "/bld"
              ExecOutput := "/src/gen.c"
              ExecInput := ["/src/gen.c"]
              PreBuildDependencies := ["cc--/src/g"] }] ∧
    ∃ nodes, GenerateCommands plainCollaborators selfDependentContext 1 "" = some nodes ∧
      ∃ node ∈ nodes, node.Name ∈ node.PreBuildDependencies := by
  refine ⟨by decide, by decide, _, rfl, ?_⟩
  decide

/-- C15: on the same custom command, the only node returned by
`GenerateCommands` names itself in its `PreBuildDependencies`, a name that no
earlier node of the list defines. -/
theorem GenerateCommands_dependency_not_earlier :
    ∃ nodes, GenerateCommands plainCollaborators selfDependentContext 1 "" = some nodes ∧
      nodes.length = 1 ∧ ¬ DependenciesDefinedEarlier nodes := by
  refine ⟨_, rfl, by decide, ?_⟩
  intro h
  have h2 := h [] _ [] rfl "cc--/src/g" (by decide)
  simp at h2

/-- C16: for a custom command with the two outputs `/bld/a.c` and `/bld/a.h`,
both kept in the vector `outputs`, `GenerateCommands` returns the producing
step alone: the two nodes built for the outputs are not in the list. -/
theorem GenerateCommands_two_outputs_single_node :
    commandOutputs twoOutputContext twoOutputSource.CustomCommand = ["/bld/a.c", "/bld/a.h"] ∧
    ∃ node, GenerateCommands plainCollaborators twoOutputContext 1 "" = some [node] ∧
      (droppedOutputNodes plainCollaborators twoOutputContext node
        ["/bld/a.c", "/bld/a.h"]).length = 2 ∧
      ∀ dropped ∈ droppedOutputNodes plainCollaborators twoOutputContext node
        ["/bld/a.c", "/bld/a.h"], dropped ∉ [node] := by
  refine ⟨by decide, _, rfl, by decide, by decide⟩

theorem commandExecNode_ExecAlways (env : Collaborators) (ctx : GeneratorTargetContext)
    (buildStep : String) (commands : List cmCustomCommand) (nodes : List FastbuildExecNode)
    (i : Nat) (cc : cmCustomCommand) :
    (commandExecNode env ctx buildStep commands nodes i cc).ExecAlways = cc.Depends.isEmpty := by
  simp only [commandExecNode, commandInputs]
  cases cc.Depends <;> rfl

theorem commandExecNode_ExecInput_nil (env : Collaborators) (ctx : GeneratorTargetContext)
    (buildStep : String) (commands : List cmCustomCommand) (nodes : List FastbuildExecNode)
    (i : Nat) (cc : cmCustomCommand) :
    (commandExecNode env ctx buildStep commands nodes i cc).ExecInput = [] ↔
      ∀ dep ∈ cc.Depends, UnescapeFastbuildVariables ctx (ctx.GetRealDependency dep) = "" := by
  simp only [commandExecNode, commandInputs, List.map_eq_nil_iff, List.filter_eq_nil_iff,
    List.mem_map, decide_eq_true_eq, not_not]
  constructor
  · intro h dep hdep
    exact h _ ⟨ctx.GetRealDependency dep, ⟨dep, hdep, rfl⟩, rfl⟩
  · rintro h _ ⟨_, ⟨dep, hdep, rfl⟩, rfl⟩
    exact h dep hdep

/-- C19, as the code behaves: the custom command of
`utilityDependencyContext` declares the input `docs`, which is no file; its
node has `ExecAlways` false and an empty `ExecInput`. -/
theorem GenerateCommands_ExecAlways_false_without_input :
    ∃ node, GenerateCommands plainCollaborators utilityDependencyContext 1 "" =
        some [node] ∧
      node.ExecAlways = false ∧ node.ExecInput = [] := by
  refine ⟨_, rfl, by decide, by decide⟩

/-- C19, amended: for every exec node returned by `GenerateCommands`,
`ExecAlways` is true exactly when the command declares no input (its
dependency list is empty); `ExecInput` is then empty too, and `ExecInput` is
empty exactly when every declared input resolves to an empty path, which
also happens with `ExecAlways` false. -/
theorem GenerateCommands_ExecAlways (env : Collaborators) (ctx : GeneratorTargetContext)
    (fuel : Nat) (buildStep : String) (nodes : List FastbuildExecNode)
    (hnodes : GenerateCommands env ctx fuel buildStep = some nodes) :
    ∃ commands, selectCommands ctx fuel buildStep = some commands ∧
      List.Forall₂ (fun cc node =>
        node.ExecAlways = cc.Depends.isEmpty ∧
        (node.ExecAlways = true → node.ExecInput = []) ∧
        (node.ExecInput = [] ↔
          ∀ dep ∈ cc.Depends,
            UnescapeFastbuildVariables ctx (ctx.GetRealDependency dep) = "")) commands nodes := by
  unfold GenerateCommands at hnodes
  cases hsel : selectCommands ctx fuel buildStep with
  | none => rw [hsel] at hnodes; cases hnodes
  | some commands =>
    rw [hsel] at hnodes
    simp only [Option.map_some', Option.some.injEq] at hnodes
    refine ⟨commands, rfl, ?_⟩
    obtain ⟨added, hadded, hrel⟩ := generateNodes_eq env ctx buildStep commands commands [] 0
    rw [hadded, List.nil_append] at hnodes
    subst hnodes
    refine hrel.imp ?_
    rintro cc node ⟨before, j, rfl⟩
    refine ⟨commandExecNode_ExecAlways _ _ _ _ _ _ _, ?_, commandExecNode_ExecInput_nil _ _ _ _ _ _ _⟩
    intro halways
    rw [commandExecNode_ExecAlways] at halways
    rw [commandExecNode_ExecInput_nil]
    intro dep hdep
    have : cc.Depends = [] := List.isEmpty_iff.mp halways
    rw [this] at hdep
    cases hdep

/-- Witness of the amended C19 on `utilityDependencyContext`. -/
theorem GenerateCommands_ExecAlways_witness :
    ∃ nodes, GenerateCommands plainCollaborators utilityDependencyContext 1 "" =
        some nodes ∧
      ∃ commands, selectCommands utilityDependencyContext 1 "" = some commands ∧
        List.Forall₂ (fun cc node =>
          node.ExecAlways = cc.Depends.isEmpty ∧
          (node.ExecAlways = true → node.ExecInput = []) ∧
          (node.ExecInput = [] ↔
            ∀ dep ∈ cc.Depends,
              UnescapeFastbuildVariables utilityDependencyContext
                (utilityDependencyContext.GetRealDependency dep) = "")) commands nodes :=
  ⟨_, rfl, GenerateCommands_ExecAlways plainCollaborators utilityDependencyContext 1 ""
    _ rfl⟩

/-! ## Tie-breaking in the target-ordering loop -/

section ReadyOrder

variable {α : Type} [DecidableEq α]

/-- Erasing forward entries never gives an item a forward entry. -/
theorem hasKey_eraseDependents (rev fwd : List (α × α)) (t x : α)
    (h : hasKey (eraseDependents rev fwd t) x = true) : hasKey fwd x = true := by
  rw [hasKey_iff] at h ⊢
  obtain ⟨v, hv⟩ := h
  exact ⟨v, ((mem_eraseDependents rev fwd t (x, v)).mp hv).1⟩

/-- A scan appends to the output, and what it appends holds the items that had
no forward entry when the scan began, in their order in the list. -/
theorem scanPass_ready_sublist (rev : List (α × α)) (ts : List α) (fwd : List (α × α))
    (out : List α) :
    ∃ ext, (scanPass rev ts fwd out).output = out ++ ext ∧
      (ts.filter (fun t => !hasKey fwd t)).Sublist ext := by
  induction ts generalizing fwd out with
  | nil => exact ⟨[], by simp [scanPass], by simp⟩
  | cons t ts ih =>
    unfold scanPass
    split
    · rename_i hk
      obtain ⟨ext, h1, h2⟩ := ih fwd out
      refine ⟨ext, h1, ?_⟩
      rw [List.filter_cons_of_neg (by simp [hk])]
      exact h2
    · rename_i hk
      obtain ⟨ext, h1, h2⟩ := ih (eraseDependents rev fwd t) (out ++ [t])
      refine ⟨t :: ext, by rw [h1]; simp, ?_⟩
      rw [List.filter_cons_of_pos (by simp [hk])]
      apply List.Sublist.cons₂
      refine List.Sublist.trans ?_ h2
      apply List.monotone_filter_right
      intro x hx
      have hx2 : hasKey fwd x = false := by simpa using hx
      have : hasKey (eraseDependents rev fwd t) x = false := by
        by_contra hne
        have h3 := hasKey_eraseDependents rev fwd t x (by simpa using hne)
        rw [hx2] at h3
        cases h3
      simp [this]

/-- The ordering loop only appends to the output. -/
theorem orderLoop_extends (rev : List (α × α)) (fuel : Nat) (ts : List α)
    (fwd : List (α × α)) (out res : List α)
    (h : orderLoop rev fuel ts fwd out = some res) : ∃ ext, res = out ++ ext := by
  induction fuel generalizing ts fwd out with
  | zero =>
    cases ts with
    | nil => rw [orderLoop_nil] at h; exact ⟨[], by simpa using (Option.some.inj h).symm⟩
    | cons t ts => simp [orderLoop] at h
  | succ n ih =>
    cases ts with
    | nil => rw [orderLoop_nil] at h; exact ⟨[], by simpa using (Option.some.inj h).symm⟩
    | cons t ts =>
      rw [orderLoop] at h
      obtain ⟨ext, hext, _⟩ := scanPass_ready_sublist rev (t :: ts) fwd out
      split at h
      · rw [orderLoop_nil] at h
        refine ⟨ext ++ (scanPass rev (t :: ts) fwd out).targets, ?_⟩
        rw [← Option.some.inj h, hext, List.append_assoc]
      · obtain ⟨ext2, hext2⟩ := ih _ _ _ h
        exact ⟨ext ++ ext2, by rw [hext2, hext, List.append_assoc]⟩

/-- The items with no forward entry at the start are found in the result of
the ordering loop in their order in the list. -/
theorem orderLoop_ready_sublist (rev : List (α × α)) (fuel : Nat) (ts : List α)
    (fwd : List (α × α)) (res : List α)
    (h : orderLoop rev fuel ts fwd [] = some res) :
    (ts.filter (fun t => !hasKey fwd t)).Sublist res := by
  cases fuel with
  | zero =>
    cases ts with
    | nil => simp
    | cons t ts => simp [orderLoop] at h
  | succ n =>
    cases ts with
    | nil => simp
    | cons t ts =>
      rw [orderLoop] at h
      obtain ⟨ext, hext, hsub⟩ := scanPass_ready_sublist rev (t :: ts) fwd []
      split at h
      · rw [orderLoop_nil] at h
        rw [← Option.some.inj h, hext]
        exact hsub.trans (by simp)
      · obtain ⟨ext2, hext2⟩ := orderLoop_extends _ _ _ _ _ _ h
        rw [hext2, hext]
        exact hsub.trans (by simp)

/-- In a list without repetition, the members of a sublist are met in the
order of the sublist. -/
theorem filter_mem_of_sublist {l1 l2 : List α} (hsub : l1.Sublist l2) (hnodup : l2.Nodup) :
    l2.filter (fun x => decide (x ∈ l1)) = l1 := by
  induction hsub with
  | slnil => rfl
  | cons a hs ih =>
    rename_i k1 k2
    have ha : a ∉ k1 := fun h => (List.nodup_cons.mp hnodup).1 (hs.subset h)
    rw [List.filter_cons_of_neg (by simpa using ha)]
    exact ih (List.nodup_cons.mp hnodup).2
  | cons₂ a hs ih =>
    rename_i k1 k2
    rw [List.filter_cons_of_pos (by simp)]
    congr 1
    rw [← ih (List.nodup_cons.mp hnodup).2]
    apply List.filter_congr
    intro x hx
    have hxa : x ≠ a := fun h => (List.nodup_cons.mp hnodup).1 (h ▸ hx)
    have ih2 := ih (List.nodup_cons.mp hnodup).2
    rw [ih2]
    simp [hxa]

end ReadyOrder

theorem readyNames_eq (T : List FastbuildTarget) (hkeys : (targetNames T).Nodup) :
    (targetNames T).filter (fun t => !hasKey (forwardDependenciesOf T) t) =
      unitsWithoutDependencies T := by
  unfold targetNames unitsWithoutDependencies
  rw [List.filter_map]
  congr 1
  apply List.filter_congr
  intro U hU
  simp only [Function.comp]
  cases hdeps : U.Dependencies with
  | nil =>
    have : hasKey (forwardDependenciesOf T) U.Name = false := by
      by_contra hne
      have hk : hasKey (forwardDependenciesOf T) U.Name = true := by simpa using hne
      rw [hasKey_iff] at hk
      obtain ⟨d, hd⟩ := hk
      obtain ⟨V, hV, hname, hdV⟩ := (mem_forwardDependenciesOf T _ _).mp hd
      have hVU : V = U := List.inj_on_of_nodup_map hkeys hV hU hname
      rw [hVU, hdeps] at hdV
      cases hdV
    simp [this]
  | cons d ds =>
    have := hasKey_forwardDependenciesOf T U hU (by rw [hdeps]; simp)
    simp [this]

/-- C21: in a table with distinct keys, whatever the dependencies of the other
units are, the units that have no dependencies occur in `orderedTargets` in
their order in the table: restricted to their names, `orderedTargets` is the
list of these names in table order. -/
theorem orderedTargets_ties_keep_input_order (FastbuildTargets : List FastbuildTarget)
    (hkeys : (targetNames FastbuildTargets).Nodup) :
    ∃ ordered,
      (∀ fuel, FastbuildTargets.length ≤ fuel →
        orderedTargets fuel FastbuildTargets = some ordered) ∧
      (unitsWithoutDependencies FastbuildTargets).Sublist ordered ∧
      ordered.filter (fun name => decide (name ∈ unitsWithoutDependencies FastbuildTargets)) =
        unitsWithoutDependencies FastbuildTargets := by
  have hlen : (targetNames FastbuildTargets).length ≤ FastbuildTargets.length := by
    simp [targetNames]
  obtain ⟨ordered, hres, hperm⟩ := orderLoop_perm (reverseDependenciesOf FastbuildTargets)
    FastbuildTargets.length (targetNames FastbuildTargets)
    (forwardDependenciesOf FastbuildTargets) [] hlen
  have hperm2 : ordered.Perm (targetNames FastbuildTargets) := by simpa using hperm
  have hsub : (unitsWithoutDependencies FastbuildTargets).Sublist ordered := by
    rw [← readyNames_eq FastbuildTargets hkeys]
    exact orderLoop_ready_sublist _ _ _ _ _ hres
  refine ⟨ordered, ?_, hsub, filter_mem_of_sublist hsub (hperm2.nodup_iff.mpr hkeys)⟩
  intro fuel hfuel
  obtain ⟨k, rfl⟩ := Nat.exists_eq_add_of_le hfuel
  exact orderLoop_fuel_add _ _ k _ _ _ _ hres

/-- Witness of C21 on `tieTable`, where `d` and `e` are on a cycle. -/
theorem orderedTargets_ties_keep_input_order_witness :
    (targetNames tieTable).Nodup ∧
    unitsWithoutDependencies tieTable = ["b", "c"] ∧
    ∃ ordered,
      (∀ fuel, tieTable.length ≤ fuel → orderedTargets fuel tieTable = some ordered) ∧
      (unitsWithoutDependencies tieTable).Sublist ordered ∧
      ordered.filter (fun name => decide (name ∈ unitsWithoutDependencies tieTable)) =
        unitsWithoutDependencies tieTable :=
  ⟨by decide, by decide, orderedTargets_ties_keep_input_order tieTable (by decide)⟩

/-! ## Steps and units with nothing to alias -/

/-- Outside the build steps, a command with no command line none of whose
dependencies is produced by a command of the list gives a node with `IsNoop`
set and no `PreBuildDependencies`. -/
theorem commandExecNode_noop_without_producer (env : Collaborators)
    (ctx : GeneratorTargetContext) (commands : List cmCustomCommand)
    (nodes : List FastbuildExecNode) (i : Nat) (cc : cmCustomCommand)
    (hlines : cc.CommandLines = [])
    (hproducer : ∀ dep ∈ cc.Depends, findProducer ctx commands dep = none) :
    (commandExecNode env ctx "" commands nodes i cc).IsNoop = true ∧
      (commandExecNode env ctx "" commands nodes i cc).PreBuildDependencies = [] := by
  constructor
  · simp [commandExecNode, commandCmdLines, hlines]
  · rw [List.eq_nil_iff_forall_not_mem]
    intro name hname
    simp only [commandExecNode, if_true] at hname
    rw [mem_insertProducers] at hname
    rcases hname with h | ⟨dep, hdep, command, hfind, _⟩
    · cases hlast : nodes.getLast? <;> rw [hlast] at h <;> cases h
    · rw [hproducer dep hdep] at hfind
      cases hfind

/-- A step with `IsNoop` set and no `PreBuildDependencies` that is passed to
`WriteExecs` with nothing forwarded gets no block, and the asserted condition
is false for it. -/
theorem WriteExecs_noop_failedAssert (Exec : FastbuildExecNode) (hnoop : Exec.IsNoop = true)
    (hdeps : Exec.PreBuildDependencies = []) :
    (WriteExecs [Exec] []).statements = [] ∧
      (WriteExecs [Exec] []).failedAsserts = [Exec.Name] := by
  simp [WriteExecs, writeExecStatements, writeExecFailedAssert, noopDependencies, setInsertAll,
    WriteAlias, hnoop, hdeps]

/-- The block written for a unit that is not global and has no step, no
compile batch, no link step, no alias node and no dependency: the alias
`<Name>-products` with the single target `<Name>` and nothing that defines
`<Name>`. -/
theorem writeTargetBlock_bare_unit (FastbuildTargets : List FastbuildTarget)
    (Name : String) (Variables : List (String × String)) :
    writeTargetBlock FastbuildTargets { Name := Name, Variables := Variables } =
      { statements := Statement.TargetDefinition Name ::
          Variables.map (fun kv => Statement.Variable kv.1 kv.2) ++
          [Statement.Alias (Name ++ "-products") [Name], Statement.EndTarget]
        failedAsserts := []
        exception := none } := by
  simp [writeTargetBlock, WriteExecs, WriteObjectLists, WriteLinker, insertTargetDependencies,
    writeTargetAliases, WriteAlias, setInsertAll, setInsert]

/-- C22: for `add_custom_target(docs DEPENDS /src/README.md)` the utility
target generator registers a unit `docs` whose only step has no command, no
`PreBuildDependencies` and an input that no command produces; `WriteTargets`
passes it to `WriteExecs` with nothing forwarded, the set
`preBuildDependencies` is empty, no block is written for the step and the
asserted condition is false for it. -/
theorem WriteTargets_noop_assert_fails :
    cmFastbuildUtilityTargetGenerator.Generate plainCollaborators dependsOnlyContext {} 1 {} =
      some { FastbuildTargets := [{ Name := "docs", ExecNodes := [dependsOnlyNode] }] } ∧
    dependsOnlyNode.IsNoop = true ∧
    dependsOnlyNode.PreBuildDependencies = [] ∧
    (WriteExecs [] []).output = [] ∧
    noopDependencies dependsOnlyNode [] = [] ∧
    (WriteExecs [dependsOnlyNode] []).statements = [] ∧
    (WriteExecs [dependsOnlyNode] []).failedAsserts = [dependsOnlyNode.Name] ∧
    (WriteTargets plainCollaborators plainRoot 4
        [{ Name := "docs", ExecNodes := [dependsOnlyNode] }]).map
      (fun result => (result.failedAsserts, blockOf "docs" result.statements)) =
      some ([dependsOnlyNode.Name],
        [Statement.Alias "docs" [dependsOnlyNode.Name],
         Statement.Alias "docs-products" [dependsOnlyNode.Name]]) := by
  refine ⟨by decide, rfl, rfl, rfl, rfl,
    (WriteExecs_noop_failedAssert dependsOnlyNode rfl rfl).1,
    (WriteExecs_noop_failedAssert dependsOnlyNode rfl rfl).2, ?_⟩
  decide

/-- C29: for `add_custom_target(docs)` the utility target generator registers
a unit `docs` with no step, no compile batch, no link step and no dependency;
the block that `WriteTargets` writes for it holds the alias `docs-products`
with the single target `docs` and nothing else, and no node or alias named
`docs` is written anywhere in the build file, while the alias `all` lists
`docs-products`. -/
theorem WriteTargets_products_alias_undefined :
    cmFastbuildUtilityTargetGenerator.Generate plainCollaborators bareUtilityContext {} 1 {} =
      some { FastbuildTargets := [{ Name := "docs" }] } ∧
    (writeTargetBlock (addSyntheticTargets plainCollaborators plainRoot [{ Name := "docs" }])
        { Name := "docs" }).statements =
      [Statement.TargetDefinition "docs", Statement.Alias "docs-products" ["docs"],
       Statement.EndTarget] ∧
    (WriteTargets plainCollaborators plainRoot 4 [{ Name := "docs" }]).map
      (fun result => (result.exception, blockOf "docs" result.statements)) =
      some (none, [Statement.Alias "docs-products" ["docs"]]) ∧
    (WriteTargets plainCollaborators plainRoot 4 [{ Name := "docs" }]).map
      (fun result => decide ("docs" ∈ result.statements.filterMap emittedName)) =
      some false ∧
    (WriteTargets plainCollaborators plainRoot 4 [{ Name := "docs" }]).map
      (fun result => decide (Statement.Alias "all" ["docs-products"] ∈ result.statements)) =
      some true := by
  refine ⟨by decide, ?_, by decide, by decide, by decide⟩
  rw [writeTargetBlock_bare_unit _ "docs" []]
  rfl

/-! ## Chaining of the build steps -/

/-- Inside a build step the loop of `GenerateCommands` keeps the vector
chained: each node names the node before it in its `PreBuildDependencies`. -/
theorem generateNodes_chain (env : Collaborators) (ctx : GeneratorTargetContext)
    (buildStep : String) (hstep : buildStep ≠ "") (commands rest : List cmCustomCommand)
    (nodes : List FastbuildExecNode) (i : Nat)
    (hnodes : List.Chain' (fun a b : FastbuildExecNode => a.Name ∈ b.PreBuildDependencies) nodes) :
    List.Chain' (fun a b : FastbuildExecNode => a.Name ∈ b.PreBuildDependencies)
      (generateNodes env ctx buildStep commands rest nodes i) := by
  induction rest generalizing nodes i with
  | nil => exact hnodes
  | cons cc rest ih =>
    rw [generateNodes]
    apply ih
    rw [List.chain'_append]
    refine ⟨hnodes, List.chain'_singleton _, ?_⟩
    intro x hx y hy
    have hy2 : y = commandExecNode env ctx buildStep commands nodes
        (if buildStep = "" then i else i + 1) cc := by
      simpa using hy.symm
    have hx2 : nodes.getLast? = some x := by simpa using hx
    subst hy2
    simp only [commandExecNode, hx2, if_neg hstep]
    rw [mem_insertProducers]
    exact Or.inl ((mem_setInsert _ _ _).mpr (Or.inl rfl))

/-- C23: for the build steps `PreBuild`, `PreLink` and `PostBuild`,
`GenerateCommands` returns, whatever the fuel, one node for every command of
the step in declaration order, and every node that follows another one in the
vector returned has the `Name` of that node in its `PreBuildDependencies`. -/
theorem GenerateCommands_build_step_chain (env : Collaborators) (ctx : GeneratorTargetContext)
    (fuel : Nat) (buildStep : String)
    (hstep : buildStep = "PreBuild" ∨ buildStep = "PreLink" ∨ buildStep = "PostBuild") :
    ∃ nodes, GenerateCommands env ctx fuel buildStep = some nodes ∧
      List.Forall₂ (fun cc node => ∃ before j,
          node = commandExecNode env ctx buildStep
            (if buildStep = "PreBuild" then ctx.GetPreBuildCommands
             else if buildStep = "PreLink" then ctx.GetPreLinkCommands
             else ctx.GetPostBuildCommands) before j cc)
        (if buildStep = "PreBuild" then ctx.GetPreBuildCommands
         else if buildStep = "PreLink" then ctx.GetPreLinkCommands
         else ctx.GetPostBuildCommands) nodes ∧
      ∀ pre a b post, nodes = pre ++ a :: b :: post → a.Name ∈ b.PreBuildDependencies := by
  have hne : buildStep ≠ "" := by
    rcases hstep with rfl | rfl | rfl <;> decide
  have hsel : selectCommands ctx fuel buildStep =
      some (if buildStep = "PreBuild" then ctx.GetPreBuildCommands
        else if buildStep = "PreLink" then ctx.GetPreLinkCommands
        else ctx.GetPostBuildCommands) := by
    unfold selectCommands
    rcases hstep with rfl | rfl | rfl <;> simp
  generalize (if buildStep = "PreBuild" then ctx.GetPreBuildCommands
    else if buildStep = "PreLink" then ctx.GetPreLinkCommands
    else ctx.GetPostBuildCommands) = commands at hsel ⊢
  refine ⟨generateNodes env ctx buildStep commands commands [] 0,
    by rw [GenerateCommands, hsel]; rfl, ?_, ?_⟩
  · obtain ⟨added, hadded, hrel⟩ := generateNodes_eq env ctx buildStep commands commands [] 0
    rw [hadded, List.nil_append]
    exact hrel
  · intro pre a b post hsplit
    have hchain := generateNodes_chain env ctx buildStep hne commands commands [] 0
      List.chain'_nil
    rw [hsplit] at hchain
    exact (List.chain'_cons.mp (List.chain'_append.mp hchain).2.1).1

/-- Witness of C23 on the three `POST_BUILD` commands of `postBuildContext`. -/
theorem GenerateCommands_build_step_chain_witness :
    (("PostBuild" : String) = "PreBuild" ∨ ("PostBuild" : String) = "PreLink" ∨
      ("PostBuild" : String) = "PostBuild") ∧
    (GenerateCommands reversingCollaborators postBuildContext 0 "PostBuild").map
      (fun nodes => nodes.map (fun node => (node.Name, node.PreBuildDependencies))) =
      some [("cc-1_dliuB", []), ("cc-2_dliuB", ["cc-1_dliuB"]),
        ("cc-3_dliuB", ["cc-2_dliuB"])] ∧
    ∃ nodes, GenerateCommands reversingCollaborators postBuildContext 0 "PostBuild" =
        some nodes ∧
      List.Forall₂ (fun cc node => ∃ before j,
          node = commandExecNode reversingCollaborators postBuildContext "PostBuild"
            (if ("PostBuild" : String) = "PreBuild" then postBuildContext.GetPreBuildCommands
             else if ("PostBuild" : String) = "PreLink" then postBuildContext.GetPreLinkCommands
             else postBuildContext.GetPostBuildCommands) before j cc)
        (if ("PostBuild" : String) = "PreBuild" then postBuildContext.GetPreBuildCommands
         else if ("PostBuild" : String) = "PreLink" then postBuildContext.GetPreLinkCommands
         else postBuildContext.GetPostBuildCommands) nodes ∧
      ∀ pre a b post, nodes = pre ++ a :: b :: post → a.Name ∈ b.PreBuildDependencies :=
  ⟨by decide, by decide,
    GenerateCommands_build_step_chain reversingCollaborators postBuildContext 0 "PostBuild"
      (by decide)⟩

/-! ## SplitExecutableAndFlags -/

theorem c_str_eq_data (command : String) (hnul : Char.ofNat 0 ∉ command.data) :
    c_str command = command.data := by
  unfold c_str
  rw [List.takeWhile_eq_self_iff]
  intro c hc
  have : c ≠ Char.ofNat 0 := fun h => hnul (h ▸ hc)
  simpa using this

theorem skipLeadingWhitespace_eq_dropWhile (l : List Char) :
    skipLeadingWhitespace l = l.dropWhile isspace := by
  induction l with
  | nil => rfl
  | cons c rest ih =>
    unfold skipLeadingWhitespace
    by_cases h : isspace c = true
    · rw [if_pos h, List.dropWhile_cons_of_pos h, ih]
    · rw [if_neg h, List.dropWhile_cons_of_neg h]

/-- On characters that hold no quote, the parsing loop appends the characters
up to the first whitespace to `program` and stops there. -/
theorem parseElement_unquoted (program l : List Char)
    (hdouble : Char.ofNat 34 ∉ l) (hsingle : Char.ofNat 39 ∉ l) :
    parseElement false false program l =
      (program ++ l.takeWhile (fun c => !isspace c), l.dropWhile (fun c => !isspace c)) := by
  induction l generalizing program with
  | nil => simp [parseElement]
  | cons c rest ih =>
    have h34 : c ≠ Char.ofNat 34 := fun h => hdouble (h ▸ List.mem_cons_self _ _)
    have h39 : c ≠ Char.ofNat 39 := fun h => hsingle (h ▸ List.mem_cons_self _ _)
    have hd : Char.ofNat 34 ∉ rest := fun h => hdouble (List.mem_cons_of_mem _ h)
    have hs : Char.ofNat 39 ∉ rest := fun h => hsingle (List.mem_cons_of_mem _ h)
    rw [parseElement]
    simp only [Bool.false_eq_true, if_false, if_neg h34, if_neg h39]
    by_cases hsp : isspace c = true
    · rw [if_pos hsp]
      rw [List.takeWhile_cons_of_neg (by simp [hsp]), List.dropWhile_cons_of_neg (by simp [hsp])]
      simp
    · rw [if_neg hsp, ih _ hd hs]
      rw [List.takeWhile_cons_of_pos (by simpa using hsp),
        List.dropWhile_cons_of_pos (by simpa using hsp)]
      simp

/-- C24, as the code behaves: the command made of `cc`, a NUL, a space and
`-O2` holds no quote and no leading whitespace; the scan stops at the NUL, so
`program` is `cc`, `args` is empty, and `program` followed by `args` is not
the command. -/
theorem SplitExecutableAndFlags_stops_at_NUL :
    Char.ofNat 34 ∉ ['c', 'c', Char.ofNat 0, ' ', '-', 'O', '2'] ∧
    Char.ofNat 39 ∉ ['c', 'c', Char.ofNat 0, ' ', '-', 'O', '2'] ∧
    SplitExecutableAndFlags (String.mk ['c', 'c', Char.ofNat 0, ' ', '-', 'O', '2']) "" "" =
      ("cc", "") ∧
    (SplitExecutableAndFlags (String.mk ['c', 'c', Char.ofNat 0, ' ', '-', 'O', '2']) "" "").1 ++
      (SplitExecutableAndFlags (String.mk ['c', 'c', Char.ofNat 0, ' ', '-', 'O', '2']) "" "").2 ≠
      String.mk (['c', 'c', Char.ofNat 0, ' ', '-', 'O', '2'].dropWhile isspace) := by
  decide

/-- C24, amended: on a command that holds no quote and no NUL,
`SplitExecutableAndFlags` called with an empty `program` leaves in `program`
the longest run of characters that are no whitespace after the leading
whitespace, and in `args` all that follows it, from the first whitespace
after the program on; `program` followed by `args` is the command without its
leading whitespace. -/
theorem SplitExecutableAndFlags_unquoted (command args : String)
    (hdouble : Char.ofNat 34 ∉ command.data) (hsingle : Char.ofNat 39 ∉ command.data)
    (hnul : Char.ofNat 0 ∉ command.data) :
    (SplitExecutableAndFlags command "" args).1.data =
      (command.data.dropWhile isspace).takeWhile (fun c => !isspace c) ∧
    (SplitExecutableAndFlags command "" args).2.data =
      (command.data.dropWhile isspace).dropWhile (fun c => !isspace c) ∧
    (SplitExecutableAndFlags command "" args).1 ++ (SplitExecutableAndFlags command "" args).2 =
      String.mk (command.data.dropWhile isspace) := by
  have hsub : ∀ c, c ∈ command.data.dropWhile isspace → c ∈ command.data :=
    fun c hc => (List.dropWhile_suffix _).subset hc
  have hparse := parseElement_unquoted [] (command.data.dropWhile isspace)
    (fun h => hdouble (hsub _ h)) (fun h => hsingle (hsub _ h))
  have hsplit : SplitExecutableAndFlags command "" args =
      (String.mk ((command.data.dropWhile isspace).takeWhile (fun c => !isspace c)),
        String.mk ((command.data.dropWhile isspace).dropWhile (fun c => !isspace c))) := by
    unfold SplitExecutableAndFlags
    rw [c_str_eq_data command hnul, skipLeadingWhitespace_eq_dropWhile]
    have hempty : ("" : String).data = [] := rfl
    simp only [hempty, hparse, List.nil_append]
  rw [hsplit]
  refine ⟨rfl, rfl, ?_⟩
  apply String.ext
  simp only [String.data_append, List.takeWhile_append_dropWhile]

/-- Witness of the amended C24 on the command `  /usr/bin/cc  -O2 -c`. -/
theorem SplitExecutableAndFlags_unquoted_witness :
    Char.ofNat 34 ∉ ("  /usr/bin/cc  -O2 -c" : String).data ∧
    Char.ofNat 39 ∉ ("  /usr/bin/cc  -O2 -c" : String).data ∧
    Char.ofNat 0 ∉ ("  /usr/bin/cc  -O2 -c" : String).data ∧
    SplitExecutableAndFlags "  /usr/bin/cc  -O2 -c" "" "" = ("/usr/bin/cc", "  -O2 -c") ∧
    (SplitExecutableAndFlags "  /usr/bin/cc  -O2 -c" "" "").1.data =
      (("  /usr/bin/cc  -O2 -c" : String).data.dropWhile isspace).takeWhile
        (fun c => !isspace c) ∧
    (SplitExecutableAndFlags "  /usr/bin/cc  -O2 -c" "" "").2.data =
      (("  /usr/bin/cc  -O2 -c" : String).data.dropWhile isspace).dropWhile
        (fun c => !isspace c) ∧
    (SplitExecutableAndFlags "  /usr/bin/cc  -O2 -c" "" "").1 ++
        (SplitExecutableAndFlags "  /usr/bin/cc  -O2 -c" "" "").2 =
      String.mk (("  /usr/bin/cc  -O2 -c" : String).data.dropWhile isspace) :=
  ⟨by decide, by decide, by decide, by decide,
    SplitExecutableAndFlags_unquoted "  /usr/bin/cc  -O2 -c" "" (by decide) (by decide)
      (by decide)⟩

/-! ## The two sorters compared -/

section SorterComparison

variable {α : Type} [DecidableEq α]

theorem mem_reverseOf (dependencies : List (α × α)) (a b : α) :
    (b, a) ∈ reverseOf dependencies ↔ (a, b) ∈ dependencies := by
  unfold reverseOf equalRange
  simp only [List.mem_flatMap, List.mem_map, List.mem_filter, Prod.mk.injEq, beq_iff_eq]
  constructor
  · rintro ⟨it, _, jt, ⟨hjt, _⟩, h2, h1⟩
    have : jt = (a, b) := Prod.ext h1 h2
    rw [← this]
    exact hjt
  · intro h
    exact ⟨(a, b), h, (a, b), ⟨h, rfl⟩, rfl, rfl⟩

theorem foldl_eraseFromRange_eq_filter (rs fwd : List (α × α)) (t : α) :
    rs.foldl (fun f rt => eraseFromRange f rt.2 t) fwd =
      fwd.filter (fun e => !(e.2 == t && rs.any (fun rt => rt.2 == e.1))) := by
  induction rs generalizing fwd with
  | nil => simp
  | cons r rs ih =>
    rw [List.foldl_cons, ih]
    unfold eraseFromRange
    rw [List.filter_filter]
    apply List.filter_congr
    intro e _
    simp only [List.any_cons]
    generalize rs.any (fun rt => rt.2 == e.1) = b
    by_cases h1 : e.2 = t
    · by_cases h2 : e.1 = r.2
      · have h3 : (e.2 == t) = true := by simpa using h1
        have h4 : (e.1 == r.2) = true := by simpa using h2
        have h5 : (r.2 == e.1) = true := by simpa using h2.symm
        rw [h3, h4, h5]
        cases b <;> rfl
      · have h3 : (e.2 == t) = true := by simpa using h1
        have h4 : (e.1 == r.2) = false := by simpa using h2
        have h5 : (r.2 == e.1) = false := by simpa using (fun h => h2 h.symm)
        rw [h3, h4, h5]
        cases b <;> rfl
    · have h3 : (e.2 == t) = false := by simpa using h1
      rw [h3]
      cases b <;> simp

/-- The forward map after the erasures made for `targetName`: the entries that
point at `targetName` and are mirrored in the reverse map are gone, the others
are kept in their order. -/
theorem eraseDependents_eq_filter (rev fwd : List (α × α)) (t : α) :
    eraseDependents rev fwd t =
      fwd.filter (fun e => !(e.2 == t && decide ((t, e.1) ∈ rev))) := by
  unfold eraseDependents
  rw [foldl_eraseFromRange_eq_filter]
  apply List.filter_congr
  intro e _
  congr 2
  unfold equalRange
  rw [Bool.eq_iff_iff]
  simp only [List.any_eq_true, List.mem_filter, beq_iff_eq, decide_eq_true_eq]
  constructor
  · rintro ⟨⟨a, b⟩, ⟨hmem, ha⟩, hb⟩
    simp only at ha hb
    subst ha; subst hb
    exact hmem
  · intro h
    exact ⟨(t, e.1), ⟨h, rfl⟩, rfl⟩

/-- The scan depends on the reverse map through its set of entries only. -/
theorem scanPass_congr_rev (rev1 rev2 : List (α × α)) (h : ∀ e, e ∈ rev1 ↔ e ∈ rev2)
    (ts : List α) (fwd : List (α × α)) (out : List α) :
    scanPass rev1 ts fwd out = scanPass rev2 ts fwd out := by
  induction ts generalizing fwd out with
  | nil => rfl
  | cons t ts ih =>
    have he : eraseDependents rev1 fwd t = eraseDependents rev2 fwd t := by
      rw [eraseDependents_eq_filter, eraseDependents_eq_filter]
      apply List.filter_congr
      intro e _
      have : decide ((t, e.1) ∈ rev1) = decide ((t, e.1) ∈ rev2) := by
        rw [decide_eq_decide]; exact h _
      rw [this]
    rw [scanPass, scanPass, ih fwd out, he, ih]

theorem sortLoop_congr_rev (rev1 rev2 : List (α × α)) (h : ∀ e, e ∈ rev1 ↔ e ∈ rev2)
    (fuel : Nat) (ts : List α) (fwd : List (α × α)) (out : List α) :
    sortLoop rev1 fuel ts fwd out = sortLoop rev2 fuel ts fwd out := by
  induction fuel generalizing ts fwd out with
  | zero => cases ts <;> rfl
  | succ n ih =>
    cases ts with
    | nil => rfl
    | cons t ts => rw [sortLoop, sortLoop, scanPass_congr_rev rev1 rev2 h, ih]

/-- On an acyclic relation whose prerequisites are all items, every scan
erases an item, so the loop with the flush and the loop without it run the
same way. -/
theorem sortLoop_eq_orderLoop (E rev : List (α × α)) (names : List α)
    (hmirror : ∀ e ∈ E, (e.2, e.1) ∈ rev) (hmodel : ∀ e ∈ E, e.2 ∈ names)
    (hacyc : ∀ x, ¬ Relation.TransGen (fun a b => (a, b) ∈ E) x x)
    (fuel : Nat) (ts : List α) (fwd : List (α × α)) (out : List α)
    (hperm : (out ++ ts).Perm names)
    (hfwd : ∀ e, e ∈ fwd ↔ e ∈ E ∧ e.2 ∉ out) (hord : DepsBefore E out) :
    sortLoop rev fuel ts fwd out = orderLoop rev fuel ts fwd out := by
  induction fuel generalizing ts fwd out with
  | zero => cases ts <;> rfl
  | succ n ih =>
    cases ts with
    | nil => rfl
    | cons t ts =>
      rw [sortLoop, orderLoop]
      have hinv := scanPass_invariant E rev hmirror (t :: ts) fwd out hfwd hord
      have hp := scanPass_perm rev (t :: ts) fwd out
      have hlen : ¬ (t :: ts).length = (scanPass rev (t :: ts) fwd out).targets.length := by
        intro hlen
        have hall := scanPass_length_eq rev (t :: ts) fwd out hlen
        obtain ⟨t0, ht0, hmin⟩ := exists_no_successor (fun a b => (a, b) ∈ E) hacyc (t :: ts)
          (List.cons_ne_nil _ _)
        obtain ⟨v, hv⟩ := (hasKey_iff fwd t0).mp (hall t0 ht0)
        obtain ⟨hvE, hvout⟩ := (hfwd (t0, v)).mp hv
        have hvn : v ∈ out ++ (t :: ts) := hperm.mem_iff.mpr (hmodel _ hvE)
        rcases List.mem_append.mp hvn with h | h
        · exact hvout h
        · exact hmin v h hvE
      rw [if_neg hlen]
      exact ih _ _ _ (hp.trans hperm) hinv.1 hinv.2

/-- When every item of the list has its prerequisites in the output or before
it in the list, one scan moves the whole list to the output, in order. -/
theorem scanPass_sorted (E rev : List (α × α)) (hmirror : ∀ e ∈ E, (e.2, e.1) ∈ rev)
    (ts : List α) (fwd : List (α × α)) (out : List α)
    (hfwd : ∀ e, e ∈ fwd ↔ e ∈ E ∧ e.2 ∉ out)
    (h : ∀ pre u post, ts = pre ++ u :: post → ∀ d, (u, d) ∈ E → d ∈ out ++ pre) :
    (scanPass rev ts fwd out).targets = [] ∧ (scanPass rev ts fwd out).output = out ++ ts := by
  induction ts generalizing fwd out with
  | nil => simp [scanPass]
  | cons t ts ih =>
    have hk : ¬ hasKey fwd t = true := by
      rw [hasKey_iff]
      rintro ⟨v, hv⟩
      obtain ⟨hvE, hvout⟩ := (hfwd (t, v)).mp hv
      have := h [] t ts rfl v hvE
      simp only [List.append_nil] at this
      exact hvout this
    rw [scanPass, if_neg hk]
    have hstep := ih (eraseDependents rev fwd t) (out ++ [t]) (by
      intro e
      rw [mem_eraseDependents, hfwd]
      constructor
      · rintro ⟨⟨hE, hout⟩, hne⟩
        refine ⟨hE, ?_⟩
        intro hmem
        rcases List.mem_append.mp hmem with h1 | h1
        · exact hout h1
        · have het : e.2 = t := by simpa using h1
          exact hne ⟨het, het ▸ hmirror e hE⟩
      · rintro ⟨hE, hout⟩
        refine ⟨⟨hE, fun h1 => hout (List.mem_append_left _ h1)⟩, ?_⟩
        rintro ⟨het, _⟩
        exact hout (List.mem_append_right _ (by simp [het]))) (by
      intro pre u post hsplit d hd
      have := h (t :: pre) u post (by rw [hsplit]; rfl) d hd
      simpa using this)
    refine ⟨hstep.1, ?_⟩
    rw [hstep.2]
    simp

/-- Whenever the loop of `SortByDependencies` exits, every item of its result
comes after its prerequisites. -/
theorem sortLoop_depsBefore (E rev : List (α × α)) (hmirror : ∀ e ∈ E, (e.2, e.1) ∈ rev)
    (fuel : Nat) (ts : List α) (fwd : List (α × α)) (out res : List α)
    (hfwd : ∀ e, e ∈ fwd ↔ e ∈ E ∧ e.2 ∉ out) (hord : DepsBefore E out)
    (hres : sortLoop rev fuel ts fwd out = some res) : DepsBefore E res := by
  induction fuel generalizing ts fwd out with
  | zero =>
    cases ts with
    | nil => rw [sortLoop_nil] at hres; rw [← Option.some.inj hres]; exact hord
    | cons t ts => simp [sortLoop] at hres
  | succ n ih =>
    cases ts with
    | nil => rw [sortLoop_nil] at hres; rw [← Option.some.inj hres]; exact hord
    | cons t ts =>
      rw [sortLoop] at hres
      have hinv := scanPass_invariant E rev hmirror (t :: ts) fwd out hfwd hord
      exact ih _ _ _ hinv.1 hinv.2 hres

/-- A list in which every item comes after its prerequisites is left as it is
by `SortByDependencies`, after one scan. -/
theorem SortByDependencies_of_depsBefore (source : List α) (dependencies : List (α × α))
    (h : DepsBefore dependencies source) (fuel : Nat) :
    SortByDependencies (fuel + 1) source dependencies = some source := by
  unfold SortByDependencies
  cases source with
  | nil => rfl
  | cons t ts =>
    rw [sortLoop]
    have hs := scanPass_sorted dependencies (reverseOf dependencies)
      (fun e he => (mem_reverseOf dependencies e.1 e.2).mpr he) (t :: ts) dependencies []
      (by simp) (by
        intro pre u post hsplit d hd
        simpa using h pre u post hsplit d hd)
    rw [hs.1, hs.2, sortLoop_nil]
    simp

end SorterComparison

section SortedInput

variable {α : Type} [DecidableEq α]

/-- C25: a list in which every item comes after all its prerequisites is left
unchanged by `SortByDependencies`, which exits after one scan; whenever the
sorter exits, sorting its result again leaves that result unchanged; and on an
acyclic relation whose prerequisites are all list items the sorter does exit,
within as many scans as there are items. -/
theorem SortByDependencies_keeps_sorted_input (source : List α)
    (dependencies : List (α × α)) :
    (DepsBefore dependencies source →
      ∀ fuel, SortByDependencies (fuel + 1) source dependencies = some source) ∧
    (∀ fuel sorted, SortByDependencies fuel source dependencies = some sorted →
      ∀ fuel2, SortByDependencies (fuel2 + 1) sorted dependencies = some sorted) ∧
    ((∀ e ∈ dependencies, e.2 ∈ source) →
      (∀ x, ¬ Relation.TransGen (fun a b => (a, b) ∈ dependencies) x x) →
      ∃ sorted, ∀ fuel, source.length ≤ fuel →
        SortByDependencies fuel source dependencies = some sorted) := by
  have hmirror : ∀ e ∈ dependencies, (e.2, e.1) ∈ reverseOf dependencies :=
    fun e he => (mem_reverseOf dependencies e.1 e.2).mpr he
  refine ⟨fun h fuel => SortByDependencies_of_depsBefore source dependencies h fuel, ?_, ?_⟩
  · intro fuel sorted hsorted fuel2
    apply SortByDependencies_of_depsBefore
    exact sortLoop_depsBefore dependencies (reverseOf dependencies) hmirror fuel source
      dependencies [] sorted (by simp) (DepsBefore.nil _) hsorted
  · intro hmodel hacyc
    obtain ⟨sorted, hres, _⟩ := orderLoop_perm (reverseOf dependencies) source.length source
      dependencies [] (le_refl _)
    refine ⟨sorted, ?_⟩
    intro fuel hfuel
    unfold SortByDependencies
    rw [sortLoop_eq_orderLoop dependencies (reverseOf dependencies) source hmirror hmodel hacyc
      fuel source dependencies [] (by simp) (by simp) (DepsBefore.nil _)]
    obtain ⟨k, rfl⟩ := Nat.exists_eq_add_of_le hfuel
    exact orderLoop_fuel_add _ _ k _ _ _ _ hres

end SortedInput

/-- Witness of C25 on the edges `C` to `B` and `B` to `A`: the sorted list
`[A, B, C]` is left unchanged, and the result of sorting `[B, C, A]` is left
unchanged by a second sort. -/
theorem SortByDependencies_keeps_sorted_input_witness :
    DepsBefore [("C", "B"), ("B", "A")] ["A", "B", "C"] ∧
    (∀ e ∈ [("C", "B"), ("B", "A")], e.2 ∈ ["B", "C", "A"]) ∧
    (∀ x, ¬ Relation.TransGen (fun a b => (a, b) ∈ [("C", "B"), ("B", "A")]) x x) ∧
    SortByDependencies 2 ["B", "C", "A"] [("C", "B"), ("B", "A")] = some ["A", "B", "C"] ∧
    (∀ fuel, SortByDependencies (fuel + 1) ["A", "B", "C"] [("C", "B"), ("B", "A")] =
      some ["A", "B", "C"]) ∧
    (∀ fuel2, SortByDependencies (fuel2 + 1) ["A", "B", "C"] [("C", "B"), ("B", "A")] =
      some ["A", "B", "C"]) ∧
    ∃ sorted, ∀ fuel, ["B", "C", "A"].length ≤ fuel →
      SortByDependencies fuel ["B", "C", "A"] [("C", "B"), ("B", "A")] = some sorted := by
  have hsorted : DepsBefore [("C", "B"), ("B", "A")] ["A", "B", "C"] := by
    have h1 : DepsBefore [("C", "B"), ("B", "A")] ([] ++ ["A"]) :=
      DepsBefore.concat (DepsBefore.nil _) (by intro d hd; simp at hd)
    have h2 : DepsBefore [("C", "B"), ("B", "A")] (["A"] ++ ["B"]) :=
      DepsBefore.concat h1 (by intro d hd; simp at hd; simp [hd])
    exact DepsBefore.concat h2 (by intro d hd; simp at hd; simp [hd])
  have hacyc : ∀ x, ¬ Relation.TransGen
      (fun a b => (a, b) ∈ [("C", "B"), ("B", "A")]) x x := by
    apply acyclic_of_rank _ (fun s => if s = "C" then 2 else if s = "B" then 1 else 0)
    intro a b hab
    simp only [List.mem_cons, Prod.mk.injEq, List.mem_singleton, List.not_mem_nil,
      or_false] at hab
    rcases hab with ⟨rfl, rfl⟩ | ⟨rfl, rfl⟩ <;> decide
  exact ⟨hsorted, by decide, hacyc, by decide,
    (SortByDependencies_keeps_sorted_input ["A", "B", "C"] [("C", "B"), ("B", "A")]).1 hsorted,
    (SortByDependencies_keeps_sorted_input ["B", "C", "A"] [("C", "B"), ("B", "A")]).2.1 2
      ["A", "B", "C"] (by decide),
    (SortByDependencies_keeps_sorted_input ["B", "C", "A"] [("C", "B"), ("B", "A")]).2.2
      (by decide) hacyc⟩

/-- C26: on a table in which every dependency names a unit and the dependency
relation has no cycle, the target-ordering loop of `WriteTargets` and
`SortByDependencies`, given the names of the units and the forward edges of
the table, return the same thing for every number of iterations allowed, and
both exit with the same sequence within as many iterations as there are
units. -/
theorem orderedTargets_eq_SortByDependencies (FastbuildTargets : List FastbuildTarget)
    (hmodel : ∀ Target ∈ FastbuildTargets, ∀ d ∈ Target.Dependencies,
      d ∈ targetNames FastbuildTargets)
    (hacyclic : ∀ x, ¬ Relation.TransGen (DependsOn FastbuildTargets) x x) :
    (∀ fuel, SortByDependencies fuel (targetNames FastbuildTargets)
        (forwardDependenciesOf FastbuildTargets) = orderedTargets fuel FastbuildTargets) ∧
    ∃ ordered, ∀ fuel, FastbuildTargets.length ≤ fuel →
      orderedTargets fuel FastbuildTargets = some ordered ∧
      SortByDependencies fuel (targetNames FastbuildTargets)
        (forwardDependenciesOf FastbuildTargets) = some ordered := by
  have hE : ∀ x, ¬ Relation.TransGen
      (fun a b => (a, b) ∈ forwardDependenciesOf FastbuildTargets) x x := by
    intro x hx
    exact hacyclic x (Relation.TransGen.mono
      (fun a b h => (mem_forwardDependenciesOf FastbuildTargets a b).mp h) hx)
  have hrev : ∀ e, e ∈ reverseOf (forwardDependenciesOf FastbuildTargets) ↔
      e ∈ reverseDependenciesOf FastbuildTargets := by
    rintro ⟨b, a⟩
    rw [mem_reverseOf, mem_forwardDependenciesOf, mem_reverseDependenciesOf]
  have hsame : ∀ fuel, SortByDependencies fuel (targetNames FastbuildTargets)
      (forwardDependenciesOf FastbuildTargets) = orderedTargets fuel FastbuildTargets := by
    intro fuel
    unfold SortByDependencies orderedTargets
    rw [sortLoop_congr_rev _ _ hrev]
    exact sortLoop_eq_orderLoop (forwardDependenciesOf FastbuildTargets)
      (reverseDependenciesOf FastbuildTargets) (targetNames FastbuildTargets)
      (fun e he => (mem_reverseDependenciesOf FastbuildTargets e.1 e.2).mpr
        ((mem_forwardDependenciesOf FastbuildTargets e.1 e.2).mp he))
      (fun e he => by
        obtain ⟨u, hu, _, hd⟩ := (mem_forwardDependenciesOf FastbuildTargets e.1 e.2).mp he
        exact hmodel u hu _ hd)
      hE fuel _ _ [] (by simp) (by simp) (DepsBefore.nil _)
  refine ⟨hsame, ?_⟩
  have hlen : (targetNames FastbuildTargets).length ≤ FastbuildTargets.length := by
    simp [targetNames]
  obtain ⟨ordered, hres, _⟩ := orderLoop_perm (reverseDependenciesOf FastbuildTargets)
    FastbuildTargets.length (targetNames FastbuildTargets)
    (forwardDependenciesOf FastbuildTargets) [] hlen
  refine ⟨ordered, ?_⟩
  intro fuel hfuel
  have h1 : orderedTargets fuel FastbuildTargets = some ordered := by
    obtain ⟨k, rfl⟩ := Nat.exists_eq_add_of_le hfuel
    exact orderLoop_fuel_add _ _ k _ _ _ _ hres
  exact ⟨h1, (hsame fuel).trans h1⟩

/-- Witness of C26 on `chainTable`. -/
theorem orderedTargets_eq_SortByDependencies_witness :
    (∀ Target ∈ chainTable, ∀ d ∈ Target.Dependencies, d ∈ targetNames chainTable) ∧
    (∀ x, ¬ Relation.TransGen (DependsOn chainTable) x x) ∧
    (∀ fuel, SortByDependencies fuel (targetNames chainTable)
        (forwardDependenciesOf chainTable) = orderedTargets fuel chainTable) ∧
    ∃ ordered, ∀ fuel, chainTable.length ≤ fuel →
      orderedTargets fuel chainTable = some ordered ∧
      SortByDependencies fuel (targetNames chainTable)
        (forwardDependenciesOf chainTable) = some ordered :=
  ⟨by decide, chainTable_acyclic,
    orderedTargets_eq_SortByDependencies chainTable (by decide) chainTable_acyclic⟩

/-! ## What the identity of a custom command depends on -/

/-- C27: the string returned by `GetCustomCommandTargetName` is a function of
the disambiguator and of the converted paths of the outputs followed by the
byproducts: it does not change when the command lines (executable and
arguments), the working directory or the inputs of the command change, nor
when the last output is moved to the front of the byproducts. -/
theorem GetCustomCommandTargetName_depends_on_outputs_only (env : Collaborators) :
    (∃ name : String → List String → String, ∀ (cc : cmCustomCommand) (extra : String),
      GetCustomCommandTargetName env cc extra =
        name extra ((cc.Outputs ++ cc.Byproducts).map env.ConvertToFastbuildPath)) ∧
    (∀ (cc : cmCustomCommand) (extra : String) (Depends : List String)
        (CommandLines : List (List String)) (WorkingDirectory : String),
      GetCustomCommandTargetName env
        { cc with Depends := Depends, CommandLines := CommandLines
                  WorkingDirectory := WorkingDirectory } extra =
        GetCustomCommandTargetName env cc extra) ∧
    (∀ (cc : cmCustomCommand) (extra : String) (Outputs : List String) (path : String),
      cc.Outputs = Outputs ++ [path] →
      GetCustomCommandTargetName env
        { cc with Outputs := Outputs, Byproducts := path :: cc.Byproducts } extra =
        GetCustomCommandTargetName env cc extra) := by
  refine ⟨⟨fun extra paths => "cc" ++ ("-" ++ substr7 (env.HashString
    (paths.foldl (fun extras path => extras ++ ("-" ++ path)) extra))), ?_⟩, ?_, ?_⟩
  · intro cc extra
    unfold GetCustomCommandTargetName
    rw [customCommandExtras_eq_map]
  · intro cc extra Depends CommandLines WorkingDirectory
    rfl
  · intro cc extra Outputs path hsplit
    unfold GetCustomCommandTargetName customCommandExtras
    simp only [hsplit, List.append_assoc, List.singleton_append]

/-- Witness of C27 on `commandGenB`, whose last output `out/a.h` becomes the
byproduct of `commandGenA`. -/
theorem GetCustomCommandTargetName_depends_on_outputs_only_witness :
    commandGenB.Outputs = ["out/a.c"] ++ ["out/a.h"] ∧
    GetCustomCommandTargetName plainCollaborators
      { commandGenB with Outputs := ["out/a.c"], Byproducts := "out/a.h" :: commandGenB.Byproducts }
      "" = GetCustomCommandTargetName plainCollaborators commandGenB "" ∧
    GetCustomCommandTargetName plainCollaborators
      { commandGenB with Depends := [], CommandLines := [["gen", "a"]], WorkingDirectory := "/w" }
      "x" = GetCustomCommandTargetName plainCollaborators commandGenB "x" :=
  ⟨rfl,
    (GetCustomCommandTargetName_depends_on_outputs_only plainCollaborators).2.2 commandGenB ""
      ["out/a.c"] "out/a.h" rfl,
    (GetCustomCommandTargetName_depends_on_outputs_only plainCollaborators).2.1 commandGenB "x"
      [] [["gen", "a"]] "/w"⟩

/-! ## Frame of the PCH reuse pass -/

/-- Each batch leaves the loop as it was or with its two PCH creation fields
cleared. -/
theorem reusePCHNodes_frame (pch : List String) (l : List FastbuildObjectListNode) :
    List.Forall₂ (fun b c : FastbuildObjectListNode => c = b ∨ c = clearPCHCreation b) l
      (reusePCHNodes pch l).2 := by
  induction l generalizing pch with
  | nil => exact List.Forall₂.nil
  | cons b l ih =>
    by_cases h : b.PCHOutputFile ∈ pch
    · rw [reusePCHNodes_cons_pos pch b l h]
      exact List.Forall₂.cons (Or.inr rfl) (ih pch)
    · rw [reusePCHNodes_cons_neg pch b l h]
      exact List.Forall₂.cons (Or.inl rfl) (ih _)

/-- C28: the PCH reuse pass returns the same units in the same order, each
with all its fields but `ObjectListNodes` unchanged; the batches of a unit
are as many as before and in the same order, each equal to the batch it comes
from except possibly in `PCHInputFile` and `PCHOptions`; and a batch whose
`PCHOutputFile` is that of no earlier batch of the linear order is found
unchanged at its place. -/
theorem reusePrecompiledHeaders_frame (units : List FastbuildTarget) :
    List.Forall₂ (fun U V : FastbuildTarget =>
        V = { U with ObjectListNodes := V.ObjectListNodes } ∧
        List.Forall₂ (fun b c : FastbuildObjectListNode =>
            c = { b with PCHInputFile := c.PCHInputFile, PCHOptions := c.PCHOptions } ∧
            (c = b ∨ c = clearPCHCreation b))
          U.ObjectListNodes V.ObjectListNodes)
      units (reusePrecompiledHeaders [] units) ∧
    ∀ pre b post, orderedBatches units = pre ++ b :: post →
      (∀ x ∈ pre, x.PCHOutputFile ≠ b.PCHOutputFile) →
      ∃ pre2 post2, orderedBatches (reusePrecompiledHeaders [] units) = pre2 ++ b :: post2 ∧
        pre2.length = pre.length ∧ post2.length = post.length := by
  constructor
  · generalize ([] : List String) = pch
    induction units generalizing pch with
    | nil => exact List.Forall₂.nil
    | cons U rest ih =>
      rw [reusePrecompiledHeaders]
      refine List.Forall₂.cons ⟨rfl, ?_⟩ (ih _)
      refine (reusePCHNodes_frame pch U.ObjectListNodes).imp ?_
      rintro b c (rfl | rfl)
      · exact ⟨rfl, Or.inl rfl⟩
      · exact ⟨rfl, Or.inr rfl⟩
  · intro pre b post hsplit hfirst
    refine ⟨(reusePCHNodes [] pre).2,
      (reusePCHNodes (b.PCHOutputFile :: (reusePCHNodes [] pre).1) post).2, ?_,
      reusePCHNodes_length _ _, reusePCHNodes_length _ _⟩
    rw [orderedBatches_reusePrecompiledHeaders, hsplit, reusePCHNodes_split, if_neg]
    rintro (h | h)
    · cases h
    · obtain ⟨x, hx, hxb⟩ := List.mem_map.mp h
      exact hfirst x hx hxb

/-- Witness of C28 on `pchUnits`: the batch of `core` is the first one with
its PCH output, and the last batch of `ui` the first one with none. -/
theorem reusePrecompiledHeaders_frame_witness :
    (reusePrecompiledHeaders [] pchUnits).map (fun U => U.Name) = ["core", "net", "ui"] ∧
    (∃ pre2 post2, orderedBatches (reusePrecompiledHeaders [] pchUnits) =
        pre2 ++ ({ Name := "CXX_core-1", PCHInputFile := "stdafx.cpp"
                   PCHOutputFile := "pch/stdafx.pch", PCHOptions := "/Yc" } :
          FastbuildObjectListNode) :: post2 ∧
        pre2.length = ([] : List FastbuildObjectListNode).length ∧
        post2.length = (orderedBatches pchUnits).tail.length) ∧
    List.Forall₂ (fun U V : FastbuildTarget =>
        V = { U with ObjectListNodes := V.ObjectListNodes } ∧
        List.Forall₂ (fun b c : FastbuildObjectListNode =>
            c = { b with PCHInputFile := c.PCHInputFile, PCHOptions := c.PCHOptions } ∧
            (c = b ∨ c = clearPCHCreation b))
          U.ObjectListNodes V.ObjectListNodes)
      pchUnits (reusePrecompiledHeaders [] pchUnits) :=
  ⟨by decide,
    (reusePrecompiledHeaders_frame pchUnits).2 [] _ (orderedBatches pchUnits).tail
      (by decide) (by intro x hx; cases hx),
    (reusePrecompiledHeaders_frame pchUnits).1⟩

/-! ## The synthetic unit `all` -/

theorem mem_assignTarget (target U : FastbuildTarget) (T : List FastbuildTarget) :
    U ∈ assignTarget target T ↔ U = target ∨ (U ∈ T ∧ U.Name ≠ target.Name) := by
  unfold assignTarget
  split
  · rename_i hany
    obtain ⟨W, hW, hWname⟩ := (any_name_iff T target.Name).mp hany
    simp only [List.mem_map]
    constructor
    · rintro ⟨V, hV, rfl⟩
      by_cases hname : V.Name = target.Name
      · left; simp [hname]
      · right
        have : (V.Name == target.Name) = false := by simpa using hname
        simp only [this, Bool.false_eq_true, if_false]
        exact ⟨hV, hname⟩
    · rintro (rfl | ⟨hU, hname⟩)
      · exact ⟨W, hW, by simp [hWname]⟩
      · refine ⟨U, hU, ?_⟩
        have : (U.Name == target.Name) = false := by simpa using hname
        simp [this]
  · rename_i hany
    rw [mem_insertByKey]
    constructor
    · rintro (h | h)
      · exact Or.inl h
      · refine Or.inr ⟨h, ?_⟩
        intro hname
        exact hany ((any_name_iff T target.Name).mpr ⟨U, h, hname⟩)
    · rintro (h | ⟨h, _⟩)
      · exact Or.inl h
      · exact Or.inr h

/-- The loop over the table at the head of `WriteTargets`, started from any
value of the two containers. -/
theorem collectAllTargets_foldl (T : List FastbuildTarget) (acc : List String × List String) :
    (T.foldl (fun acc Target =>
        if !Target.IsGlobal && !Target.IsExcluded then
          (setInsert (Target.Name ++ "-products") acc.1, acc.2 ++ [Target.Name])
        else acc) acc).2 =
      acc.2 ++ (T.filter (fun Target => !Target.IsGlobal && !Target.IsExcluded)).map
        (fun Target => Target.Name) ∧
    ∀ x, x ∈ (T.foldl (fun acc Target =>
        if !Target.IsGlobal && !Target.IsExcluded then
          (setInsert (Target.Name ++ "-products") acc.1, acc.2 ++ [Target.Name])
        else acc) acc).1 ↔
      x ∈ acc.1 ∨ ∃ U ∈ T.filter (fun Target => !Target.IsGlobal && !Target.IsExcluded),
        x = U.Name ++ "-products" := by
  induction T generalizing acc with
  | nil => simp
  | cons V T ih =>
    rw [List.foldl_cons]
    by_cases hV : (!V.IsGlobal && !V.IsExcluded) = true
    · rw [if_pos hV, @List.filter_cons_of_pos _
        (fun Target : FastbuildTarget => !Target.IsGlobal && !Target.IsExcluded) V T hV]
      obtain ⟨h1, h2⟩ := ih (setInsert (V.Name ++ "-products") acc.1, acc.2 ++ [V.Name])
      refine ⟨by rw [h1]; simp, ?_⟩
      intro x
      rw [h2]
      simp only [mem_setInsert, List.mem_cons, exists_eq_or_imp]
      tauto
    · rw [if_neg hV, @List.filter_cons_of_neg _
        (fun Target : FastbuildTarget => !Target.IsGlobal && !Target.IsExcluded) V T hV]
      exact ih acc

/-- C30: the unit `all` built at the head of `WriteTargets` is stored in the
table and is the only unit named `all`; it is global and has the single alias
`all`. When the table held units that are neither global nor excluded, its
dependencies are their names in table order and the targets of its alias are
exactly these names followed by `-products`; when it held none, its only
dependency is `noop` and its only alias target `noop-products`. -/
theorem allTarget_dependencies_and_alias (env : Collaborators) (root : RootGenerator)
    (FastbuildTargets : List FastbuildTarget) :
    allTarget FastbuildTargets ∈ addSyntheticTargets env root FastbuildTargets ∧
    (∀ U ∈ addSyntheticTargets env root FastbuildTargets, U.Name = "all" →
      U = allTarget FastbuildTargets) ∧
    (allTarget FastbuildTargets).Name = "all" ∧
    (allTarget FastbuildTargets).IsGlobal = true ∧
    ∃ Targets, (allTarget FastbuildTargets).AliasNodes = [{ Name := "all", Targets := Targets }] ∧
      (FastbuildTargets.filter (fun Target => !Target.IsGlobal && !Target.IsExcluded) ≠ [] →
        (allTarget FastbuildTargets).Dependencies =
          (FastbuildTargets.filter (fun Target => !Target.IsGlobal && !Target.IsExcluded)).map
            (fun Target => Target.Name) ∧
        ∀ x, x ∈ Targets ↔
          ∃ U ∈ FastbuildTargets.filter (fun Target => !Target.IsGlobal && !Target.IsExcluded),
            x = U.Name ++ "-products") ∧
      (FastbuildTargets.filter (fun Target => !Target.IsGlobal && !Target.IsExcluded) = [] →
        (allTarget FastbuildTargets).Dependencies = ["noop"] ∧ Targets = ["noop-products"]) := by
  obtain ⟨hdeps, htargets⟩ := collectAllTargets_foldl FastbuildTargets ([], [])
  have hdeps2 : (collectAllTargets FastbuildTargets).2 =
      (FastbuildTargets.filter (fun Target => !Target.IsGlobal && !Target.IsExcluded)).map
        (fun Target => Target.Name) := by
    have h := hdeps
    simp only [List.nil_append] at h
    exact h
  have htargets2 : ∀ x, x ∈ (collectAllTargets FastbuildTargets).1 ↔
      ∃ U ∈ FastbuildTargets.filter (fun Target => !Target.IsGlobal && !Target.IsExcluded),
        x = U.Name ++ "-products" := by
    intro x
    have h := htargets x
    simp only [List.not_mem_nil, false_or] at h
    exact h
  refine ⟨?_, ?_, rfl, rfl, _, rfl, ?_, ?_⟩
  · unfold addSyntheticTargets
    rw [mem_assignTarget]
    refine Or.inr ⟨(mem_assignTarget _ _ _).mpr (Or.inl rfl), ?_⟩
    show "all" ≠ "rebuild-bff"
    decide
  · intro U hU hname
    unfold addSyntheticTargets at hU
    rw [mem_assignTarget] at hU
    rcases hU with rfl | ⟨hU, _⟩
    · have h2 : "rebuild-bff" = "all" := hname
      exact absurd h2 (by decide)
    · rw [mem_assignTarget] at hU
      rcases hU with h | ⟨_, hne⟩
      · exact h
      · exact absurd hname hne
  · intro hne
    obtain ⟨V, hV⟩ := List.exists_mem_of_ne_nil _ hne
    have hnonempty : (collectAllTargets FastbuildTargets).1.isEmpty = false := by
      cases hc : (collectAllTargets FastbuildTargets).1 with
      | nil =>
        have := (htargets2 (V.Name ++ "-products")).mpr ⟨V, hV, rfl⟩
        rw [hc] at this
        cases this
      | cons a l => rfl
    simp only [allTarget, hnonempty, Bool.false_eq_true, if_false]
    exact ⟨hdeps2, htargets2⟩
  · intro hnil
    have hempty : (collectAllTargets FastbuildTargets).1 = [] := by
      cases hc : (collectAllTargets FastbuildTargets).1 with
      | nil => rfl
      | cons a l =>
        obtain ⟨U, hU, _⟩ := (htargets2 a).mp (by rw [hc]; exact List.mem_cons_self _ _)
        rw [hnil] at hU
        cases hU
    have hdeps3 : (collectAllTargets FastbuildTargets).2 = [] := by
      rw [hdeps2, hnil]; rfl
    simp only [allTarget, hempty, hdeps3, List.isEmpty_nil, if_true]
    exact ⟨rfl, rfl⟩

/-- Witness of C30 on `registeredTable`, where `app` and `lib` are the units
neither global nor excluded, and on the empty table. -/
theorem allTarget_dependencies_and_alias_witness :
    registeredTable.filter (fun Target => !Target.IsGlobal && !Target.IsExcluded) ≠ [] ∧
    ([] : List FastbuildTarget).filter (fun Target => !Target.IsGlobal && !Target.IsExcluded) =
      [] ∧
    allTarget registeredTable =
      { Name := "all", IsGlobal := true, Dependencies := ["app", "lib"]
        AliasNodes := [{ Name := "all", Targets := ["app-products", "lib-products"] }] } ∧
    allTarget [] =
      { Name := "all", IsGlobal := true, Dependencies := ["noop"]
        AliasNodes := [{ Name := "all", Targets := ["noop-products"] }] } ∧
    allTarget registeredTable ∈ addSyntheticTargets plainCollaborators plainRoot registeredTable ∧
    (allTarget registeredTable).Dependencies =
      (registeredTable.filter (fun Target => !Target.IsGlobal && !Target.IsExcluded)).map
        (fun Target => Target.Name) ∧
    (allTarget []).Dependencies = ["noop"] := by
  obtain ⟨_, _, hsome, _⟩ :=
    (allTarget_dependencies_and_alias plainCollaborators plainRoot registeredTable).2.2.2.2
  obtain ⟨_, _, _, hnone⟩ :=
    (allTarget_dependencies_and_alias plainCollaborators plainRoot []).2.2.2.2
  exact ⟨by decide, by decide, by decide, by decide,
    (allTarget_dependencies_and_alias plainCollaborators plainRoot registeredTable).1,
    (hsome (by decide)).1, (hnone (by decide)).1⟩

end Fastbuild
